import Mathlib

/-!
# A model of the sqlfp SQL fingerprinting engine

The repository ships only the test suite and a benchmark harness for the
sqlfp library; the library itself (the normalization pipeline) is not part
of the sources.  Following the specification, this file models the whole
pipeline — dialect registry, tokenizer, parser frontend, normalizer,
unparser and fingerprint assembler — as executable Lean definitions, over
the fragment of SQL exercised by the properties under study, and proves
the stated invariants about that model.
-/

namespace Sqlfp

/-! ## Basic character and string utilities -/

/-- The single-quote character, written by code to avoid quoting noise. -/
def squote : Char := Char.ofNat 39

/-- Modelled from the spec: ASCII lower-casing used by the dialect registry
(matching is ASCII case-insensitive).  Only the 26 ASCII uppercase letters
are mapped; every other character is left unchanged. -/
def asciiLowerChar (c : Char) : Char :=
  match c with
  | 'A' => 'a' | 'B' => 'b' | 'C' => 'c' | 'D' => 'd' | 'E' => 'e'
  | 'F' => 'f' | 'G' => 'g' | 'H' => 'h' | 'I' => 'i' | 'J' => 'j'
  | 'K' => 'k' | 'L' => 'l' | 'M' => 'm' | 'N' => 'n' | 'O' => 'o'
  | 'P' => 'p' | 'Q' => 'q' | 'R' => 'r' | 'S' => 's' | 'T' => 't'
  | 'U' => 'u' | 'V' => 'v' | 'W' => 'w' | 'X' => 'x' | 'Y' => 'y'
  | 'Z' => 'z'
  | c => c

/-- ASCII upper-casing, used by the tokenizer to canonicalize keywords. -/
def asciiUpperChar (c : Char) : Char :=
  match c with
  | 'a' => 'A' | 'b' => 'B' | 'c' => 'C' | 'd' => 'D' | 'e' => 'E'
  | 'f' => 'F' | 'g' => 'G' | 'h' => 'H' | 'i' => 'I' | 'j' => 'J'
  | 'k' => 'K' | 'l' => 'L' | 'm' => 'M' | 'n' => 'N' | 'o' => 'O'
  | 'p' => 'P' | 'q' => 'Q' | 'r' => 'R' | 's' => 'S' | 't' => 'T'
  | 'u' => 'U' | 'v' => 'V' | 'w' => 'W' | 'x' => 'X' | 'y' => 'Y'
  | 'z' => 'Z'
  | c => c

def asciiLower (s : String) : String := ⟨s.data.map asciiLowerChar⟩

def asciiUpper (s : String) : String := ⟨s.data.map asciiUpperChar⟩

/-! ## SHA-256

Modelled from the spec: the fingerprint is the lowercase-hex SHA-256 digest
of the UTF-8 bytes of the normalized string; the hash primitive is an
external collaborator of the repository (Python hashlib), absent from the
sources, so it is implemented here from the FIPS 180-4 definition.
Machine words are plain naturals reduced modulo two to the thirty-two. -/

def w32mod : Nat := 4294967296

def w32 (n : Nat) : Nat := n % w32mod

def rotrP (plo phi w : Nat) : Nat := w32 (Nat.lor (w / plo) (w % plo * phi))

def xor3 (a b c : Nat) : Nat := Nat.xor (Nat.xor a b) c

def bsig0 (w : Nat) : Nat :=
  xor3 (rotrP 4 1073741824 w) (rotrP 8192 524288 w) (rotrP 4194304 1024 w)

def bsig1 (w : Nat) : Nat :=
  xor3 (rotrP 64 67108864 w) (rotrP 2048 2097152 w) (rotrP 33554432 128 w)

def ssig0 (w : Nat) : Nat :=
  xor3 (rotrP 128 33554432 w) (rotrP 262144 16384 w) (w / 8)

def ssig1 (w : Nat) : Nat :=
  xor3 (rotrP 131072 32768 w) (rotrP 524288 8192 w) (w / 1024)

def chF (x y z : Nat) : Nat :=
  Nat.xor (Nat.land x y) (Nat.land (Nat.xor x 4294967295) z)

def majF (x y z : Nat) : Nat :=
  xor3 (Nat.land x y) (Nat.land x z) (Nat.land y z)

/-- The first 64 primes, from which the SHA-256 round constants and initial
hash values are derived (fractional parts of cube and square roots). -/
def sha256Primes : List Nat :=
  [2, 3, 5, 7, 11, 13, 17, 19, 23, 29, 31, 37, 41, 43, 47, 53,
   59, 61, 67, 71, 73, 79, 83, 89, 97, 101, 103, 107, 109, 113, 127, 131,
   137, 139, 149, 151, 157, 163, 167, 173, 179, 181, 191, 193, 197, 199, 211, 223,
   227, 229, 233, 239, 241, 251, 257, 263, 269, 271, 277, 281, 283, 293, 307, 311]

/-- Integer cube root by binary descent over 40 bits (inputs are below 2^105
so the root is below 2^35). -/
def natCbrt (n : Nat) : Nat :=
  (List.range 40).foldl
    (fun acc i =>
      let bit := 2 ^ (39 - i)
      let cand := acc + bit
      if cand * cand * cand ≤ n then cand else acc)
    0

/-- Integer square root by the same binary descent. -/
def natSqrt (n : Nat) : Nat :=
  (List.range 40).foldl
    (fun acc i =>
      let bit := 2 ^ (39 - i)
      let cand := acc + bit
      if cand * cand ≤ n then cand else acc)
    0

/-- SHA-256 round constants (the fractional bits of the cube roots of the
first 64 primes; the derivation is proved below). -/
def sha256K : List Nat :=
  [1116352408, 1899447441, 3049323471, 3921009573, 961987163, 1508970993,
   2453635748, 2870763221, 3624381080, 310598401, 607225278, 1426881987,
   1925078388, 2162078206, 2614888103, 3248222580, 3835390401, 4022224774,
   264347078, 604807628, 770255983, 1249150122, 1555081692, 1996064986,
   2554220882, 2821834349, 2952996808, 3210313671, 3336571891, 3584528711,
   113926993, 338241895, 666307205, 773529912, 1294757372, 1396182291,
   1695183700, 1986661051, 2177026350, 2456956037, 2730485921, 2820302411,
   3259730800, 3345764771, 3516065817, 3600352804, 4094571909, 275423344,
   430227734, 506948616, 659060556, 883997877, 958139571, 1322822218,
   1537002063, 1747873779, 1955562222, 2024104815, 2227730452, 2361852424,
   2428436474, 2756734187, 3204031479, 3329325298]

/-- SHA-256 initial hash value (the fractional bits of the square roots of
the first 8 primes; the derivation is proved below). -/
def sha256H0 : List Nat :=
  [1779033703, 3144134277, 1013904242, 2773480762, 1359893119, 2600822924,
   528734635, 1541459225]

set_option maxRecDepth 3000 in
theorem sha256K_derivation :
    sha256K = sha256Primes.map (fun p => w32 (natCbrt (p * 2 ^ 96))) := rfl

set_option maxRecDepth 3000 in
theorem sha256H0_derivation :
    sha256H0 = (sha256Primes.take 8).map (fun p => w32 (natSqrt (p * 2 ^ 64))) := rfl

/-- UTF-8 encoding of one character as a list of byte values. -/
def utf8Char (c : Char) : List Nat :=
  let n := c.toNat
  if n < 128 then [n]
  else if n < 2048 then [192 + n / 64, 128 + n % 64]
  else if n < 65536 then [224 + n / 4096, 128 + n / 64 % 64, 128 + n % 64]
  else [240 + n / 262144, 128 + n / 4096 % 64, 128 + n / 64 % 64, 128 + n % 64]

def utf8Bytes (s : String) : List Nat := s.data.flatMap utf8Char

/-- SHA-256 padding: append 0x80, zero bytes to 56 mod 64, then the bit
length as an 8-byte big-endian integer. -/
def sha256Pad (msg : List Nat) : List Nat :=
  let len := msg.length
  let zeros := (119 - len % 64) % 64
  let bitLen := 8 * len
  msg ++ [128] ++ List.replicate zeros 0 ++
    [bitLen / 72057594037927936 % 256, bitLen / 281474976710656 % 256,
     bitLen / 1099511627776 % 256, bitLen / 4294967296 % 256,
     bitLen / 16777216 % 256, bitLen / 65536 % 256,
     bitLen / 256 % 256, bitLen % 256]

/-- Group bytes into 32-bit big-endian words. -/
def bytesToWords : List Nat → List Nat
  | b0 :: b1 :: b2 :: b3 :: rest =>
      (b0 * 16777216 + b1 * 65536 + b2 * 256 + b3) :: bytesToWords rest
  | _ => []

/-- Split a word list into 16-word blocks (with enough fuel to consume the
whole list; one unit is spent per block). -/
def toBlocksF : Nat → List Nat → List (List Nat)
  | 0, _ => []
  | _ + 1, [] => []
  | f + 1, l => l.take 16 :: toBlocksF f (l.drop 16)

def toBlocks (l : List Nat) : List (List Nat) := toBlocksF (l.length + 1) l

/-- Evaluate a word before continuing (the branches agree, so this is the
identity; the equality test makes definitional evaluation force the word
to a literal, which keeps evaluation of the hash shallow). -/
def seqW {a : Type} (x : Nat) (k : a) : a := if x + 1 = 0 then k else k

/-- Message-schedule worker: the sixteen arguments hold the previous
sixteen schedule words, most recent first; produces the next n words. -/
def schedGo :
    Nat → Nat → Nat → Nat → Nat → Nat → Nat → Nat → Nat →
    Nat → Nat → Nat → Nat → Nat → Nat → Nat → Nat → List Nat
  | 0, _, _, _, _, _, _, _, _, _, _, _, _, _, _, _, _ => []
  | n + 1, w1, w2, w3, w4, w5, w6, w7, w8, w9, w10, w11, w12, w13, w14, w15, w16 =>
      let next := w32 (ssig1 w2 + w7 + ssig0 w15 + w16)
      seqW next
        (next :: schedGo n next w1 w2 w3 w4 w5 w6 w7 w8 w9 w10 w11 w12 w13 w14 w15)
termination_by structural n => n

/-- The full 64-word message schedule of one 16-word block. -/
def sha256Schedule (ws : List Nat) : List Nat :=
  match ws with
  | [a, b, c, d, e, f, g, h, i, j, k, l, m, n, o, p] =>
      ws ++ schedGo 48 p o n m l k j i h g f e d c b a
  | _ => ws

/-- The 64 compression rounds, with the eight working variables threaded as
arguments. -/
def roundsGo :
    List (Nat × Nat) → Nat → Nat → Nat → Nat → Nat → Nat → Nat → Nat →
    List Nat
  | [], a, b, c, d, e, f, g, h => [a, b, c, d, e, f, g, h]
  | (k, wt) :: rest, a, b, c, d, e, f, g, h =>
      let t1 := w32 (h + bsig1 e + chF e f g + k + wt)
      let t2 := w32 (bsig0 a + majF a b c)
      seqW t1 (seqW t2 (roundsGo rest (w32 (t1 + t2)) a b c (w32 (d + t1)) e f g))
termination_by structural kws a b c d e f g h => kws

/-- Process one block: 64 rounds, then add into the chaining state. -/
def sha256Block (hst : List Nat) (block : List Nat) : List Nat :=
  match hst with
  | [h0, h1, h2, h3, h4, h5, h6, h7] =>
      match roundsGo (sha256K.zip (sha256Schedule block)) h0 h1 h2 h3 h4 h5 h6 h7 with
      | [a, b, c, d, e, f, g, h] =>
          [w32 (h0 + a), w32 (h1 + b), w32 (h2 + c), w32 (h3 + d),
           w32 (h4 + e), w32 (h5 + f), w32 (h6 + g), w32 (h7 + h)]
      | _ => []
  | _ => []

/-- SHA-256 digest of a byte list, as eight 32-bit words. -/
def sha256Words (msg : List Nat) : List Nat :=
  (toBlocks (bytesToWords (sha256Pad msg))).foldl sha256Block sha256H0

def hexDigitChar (n : Nat) : Char :=
  if n < 10 then Char.ofNat (48 + n) else Char.ofNat (87 + n)

/-- Lowercase-hex rendering of one 32-bit word (8 digits). -/
def wordToHex (w : Nat) : List Char :=
  [hexDigitChar (w / 268435456 % 16), hexDigitChar (w / 16777216 % 16),
   hexDigitChar (w / 1048576 % 16), hexDigitChar (w / 65536 % 16),
   hexDigitChar (w / 4096 % 16), hexDigitChar (w / 256 % 16),
   hexDigitChar (w / 16 % 16), hexDigitChar (w % 16)]

/-- Modelled from the spec: the hash primitive used by the fingerprint
assembler — the lowercase-hex SHA-256 digest of the UTF-8 bytes of a
string.  The Python implementation (hashlib.sha256(...).hexdigest()) is an
external collaborator absent from the sources. -/
def sha256Hex (s : String) : String :=
  ⟨(sha256Words (utf8Bytes s)).flatMap wordToHex⟩

/-! ## Error surface and dialect registry -/

/-- Modelled from the spec: the two user-visible error kinds (section 4.F). -/
inductive ErrKind
  | unknownDialect
  | parseError
deriving DecidableEq, Repr

/-- Modelled from the spec: the error record carried by a failing call.
The kind classifies the failure; the message is the carried text. -/
structure NormError where
  kind : ErrKind
  message : String
deriving DecidableEq, Repr

/-- Modelled from the tests: both failure kinds of normalize surface to the
Python caller as the same concrete exception class, ValueError (the test
suite asserts pytest.raises(ValueError) for both an unknown dialect and a
parse failure); the class does not depend on the kind. -/
def NormError.pyExceptionClass (_ : NormError) : String := "ValueError"

/-- Modelled from the spec: the six supported dialects (section 3). -/
inductive Dialect
  | postgres
  | mysql
  | sqlite
  | ansi
  | mssql
  | oracle
deriving DecidableEq, Repr

/-- Modelled from the spec: the dialect registry (section 4.A).  Matching is
ASCII case-insensitive; postgresql and mariadb are aliases of postgres and
mysql; an unrecognized name is the sole failure mode. -/
def resolve (name : String) : Except NormError Dialect :=
  match asciiLower name with
  | "postgres" => .ok .postgres
  | "postgresql" => .ok .postgres
  | "mysql" => .ok .mysql
  | "mariadb" => .ok .mysql
  | "sqlite" => .ok .sqlite
  | "ansi" => .ok .ansi
  | "mssql" => .ok .mssql
  | "oracle" => .ok .oracle
  | other => .error ⟨.unknownDialect, "Unknown dialect: " ++ other⟩

/-! ## Tokens and the tokenizer

Modelled from the spec (section 4.B): the tokenizer strips whitespace, line
comments and block comments, canonicalizes keyword case, and produces
literal tokens for numbers, quoted strings, boolean keywords and NULL.  The
model covers the statement fragment exercised here; within it the lexical
rules of the six dialects coincide, so the token stream does not depend on
the resolved dialect.  A double-quoted token is recorded as such and
interpreted by the parser according to its position (identifier in table
position; string literal in value position, the reading under which the
test corpus groups single- and double-quoted variants together in every
dialect). -/

inductive Tok
  | kw (s : String)
  | ident (s : String)
  | dquoted (s : String)
  | num (s : String)
  | str (s : String)
  | boolT (b : Bool)
  | nullT
  | star
  | lparen
  | rparen
  | comma
  | semi
  | qmark
  | cmpOp (s : String)
deriving DecidableEq, Repr

/-- The reserved words of the modelled fragment, in canonical uppercase. -/
def kwStrings : List String :=
  ["SELECT", "FROM", "WHERE", "ORDER", "BY", "ASC", "DESC", "LIMIT",
   "OR", "AND", "IS", "NOT"]

def isDigitC (c : Char) : Bool := 48 ≤ c.toNat && c.toNat ≤ 57

def isAlphaC (c : Char) : Bool :=
  (65 ≤ c.toNat && c.toNat ≤ 90) || (97 ≤ c.toNat && c.toNat ≤ 122)

def isIdentStart (c : Char) : Bool := isAlphaC c || c = '_'

def isIdentChar (c : Char) : Bool := isAlphaC c || isDigitC c || c = '_'

def isSpaceC (c : Char) : Bool :=
  c = ' ' || c = Char.ofNat 9 || c = Char.ofNat 10 || c = Char.ofNat 13

/-- Classify a scanned word: boolean and NULL literals (case-insensitive),
reserved keywords (canonicalized to uppercase), otherwise an identifier
with its original spelling. -/
def classifyWord (w : List Char) : Tok :=
  let up : String := ⟨w.map asciiUpperChar⟩
  if up = "TRUE" then .boolT true
  else if up = "FALSE" then .boolT false
  else if up = "NULL" then .nullT
  else if kwStrings.contains up then .kw up
  else .ident ⟨w⟩

theorem dropWhile_length_le (p : Char → Bool) (l : List Char) :
    (l.dropWhile p).length ≤ l.length :=
  (List.dropWhile_sublist p).length_le

/-- Scan past the body of a block comment, returning the characters after
the closing delimiter, or none if it is unterminated. -/
def skipBlockComment : List Char → Option (List Char)
  | [] => none
  | [_] => none
  | c1 :: c2 :: r =>
      if c1 = '*' && c2 = '/' then some r else skipBlockComment (c2 :: r)

theorem skipBlockComment_length :
    ∀ cs r, skipBlockComment cs = some r → r.length ≤ cs.length := by
  intro cs
  induction cs with
  | nil => intro r h; simp [skipBlockComment] at h
  | cons c cs ih =>
      intro r h
      cases cs with
      | nil => simp [skipBlockComment] at h
      | cons c2 cs2 =>
          rw [skipBlockComment] at h
          split at h
          · obtain rfl : r = cs2 := by
              simpa using h.symm
            simp; omega
          · have := ih r h
            simp at this ⊢
            omega

def notNewline (c : Char) : Bool := !(c = Char.ofNat 10)

def notSquote (c : Char) : Bool := !(c = squote)

def notDquote (c : Char) : Bool := !(c = '"')

/-- The tokenizer worker.  One unit of fuel is spent per emitted token and
per skipped whitespace or comment run, so fuel exceeding the character
count always suffices; the recursion is structural in the fuel. -/
def tokenizeAuxF : Nat → List Char → Except String (List Tok)
  | 0, _ => .error "sql parser error: internal lexer limit"
  | _ + 1, [] => .ok []
  | f + 1, c :: cs =>
    if isSpaceC c then tokenizeAuxF f cs
    else if c = '-' then
      match cs with
      | '-' :: cs2 => tokenizeAuxF f (cs2.dropWhile notNewline)
      | _ => .error "sql parser error: unexpected character"
    else if c = '/' then
      match cs with
      | '*' :: cs2 =>
        match skipBlockComment cs2 with
        | some cs3 => tokenizeAuxF f cs3
        | none => .error "sql parser error: unterminated block comment"
      | _ => .error "sql parser error: unexpected character"
    else if c = squote then
      match cs.dropWhile notSquote with
      | _ :: cs2 =>
          (tokenizeAuxF f cs2).map (Tok.str ⟨cs.takeWhile notSquote⟩ :: ·)
      | [] => .error "sql parser error: unterminated string literal"
    else if c = '"' then
      match cs.dropWhile notDquote with
      | _ :: cs2 =>
          (tokenizeAuxF f cs2).map (Tok.dquoted ⟨cs.takeWhile notDquote⟩ :: ·)
      | [] => .error "sql parser error: unterminated quoted identifier"
    else if isDigitC c then
      (tokenizeAuxF f (cs.dropWhile isDigitC)).map
        (Tok.num ⟨c :: cs.takeWhile isDigitC⟩ :: ·)
    else if isIdentStart c then
      (tokenizeAuxF f (cs.dropWhile isIdentChar)).map
        (classifyWord (c :: cs.takeWhile isIdentChar) :: ·)
    else if c = '(' then (tokenizeAuxF f cs).map (Tok.lparen :: ·)
    else if c = ')' then (tokenizeAuxF f cs).map (Tok.rparen :: ·)
    else if c = ',' then (tokenizeAuxF f cs).map (Tok.comma :: ·)
    else if c = ';' then (tokenizeAuxF f cs).map (Tok.semi :: ·)
    else if c = '*' then (tokenizeAuxF f cs).map (Tok.star :: ·)
    else if c = '?' then (tokenizeAuxF f cs).map (Tok.qmark :: ·)
    else if c = '=' then (tokenizeAuxF f cs).map (Tok.cmpOp "=" :: ·)
    else if c = '<' then
      match cs with
      | '=' :: cs2 => (tokenizeAuxF f cs2).map (Tok.cmpOp "<=" :: ·)
      | '>' :: cs2 => (tokenizeAuxF f cs2).map (Tok.cmpOp "<>" :: ·)
      | cs2 => (tokenizeAuxF f cs2).map (Tok.cmpOp "<" :: ·)
    else if c = '>' then
      match cs with
      | '=' :: cs2 => (tokenizeAuxF f cs2).map (Tok.cmpOp ">=" :: ·)
      | cs2 => (tokenizeAuxF f cs2).map (Tok.cmpOp ">" :: ·)
    else if c = '!' then
      match cs with
      | '=' :: cs2 => (tokenizeAuxF f cs2).map (Tok.cmpOp "!=" :: ·)
      | _ => .error "sql parser error: unexpected character"
    else .error "sql parser error: unexpected character"

/-- Tokenize an input string: the comment-free token stream of section 4.B. -/
def tokenize (s : String) : Except String (List Tok) :=
  tokenizeAuxF (s.data.length + 1) s.data

/-! ## The AST

Modelled from the spec (section 3): a tagged variant tree.  The fragment
covers single SELECT statements with a column list or star, one table
reference, WHERE with OR/AND, comparisons, IS (NOT) NULL, parentheses,
ORDER BY with optional direction, and LIMIT.  Literals are numeric,
string, boolean and NULL leaves; identifiers are never literals. -/

inductive Lit
  | num (s : String)
  | str (s : String)
  | boolL (b : Bool)
  | nullL
deriving DecidableEq, Repr

inductive Expr
  | lit (l : Lit)
  | identE (s : String)
  | placeholderE
  | orE (a b : Expr)
  | andE (a b : Expr)
  | cmp (op : String) (a b : Expr)
  | isNull (neg : Bool) (a : Expr)
  | paren (e : Expr)
deriving DecidableEq, Repr

inductive OrdDir
  | asc
  | desc
deriving DecidableEq, Repr

structure OrderItem where
  e : Expr
  dir : Option OrdDir
deriving DecidableEq, Repr

structure TableRef where
  quoted : Bool
  name : String
deriving DecidableEq, Repr

inductive SelItems
  | star
  | exprs (es : List Expr)
deriving DecidableEq, Repr

structure SelectStmt where
  items : SelItems
  fromT : Option TableRef
  whereE : Option Expr
  orderBy : List OrderItem
  limit : Option Expr
deriving DecidableEq, Repr

/-! ## The parser frontend

Modelled from the spec (section 4.B): a recursive-descent parser over the
token stream, with the usual precedence OR < AND < comparison < IS < atom.
Recursion is bounded by an explicit fuel argument; the entry point supplies
fuel larger than any derivation over the given tokens can consume. -/

def fuelMsg : String := "sql parser error: internal recursion limit"

mutual

def parseOr : Nat → List Tok → Except String (Expr × List Tok)
  | 0, _ => .error fuelMsg
  | f + 1, ts => do
      let (a, ts1) ← parseAnd f ts
      parseOrRest f a ts1

def parseOrRest : Nat → Expr → List Tok → Except String (Expr × List Tok)
  | 0, _, _ => .error fuelMsg
  | f + 1, acc, ts =>
      match ts with
      | .kw "OR" :: ts2 => do
          let (b, ts3) ← parseAnd f ts2
          parseOrRest f (.orE acc b) ts3
      | _ => .ok (acc, ts)

def parseAnd : Nat → List Tok → Except String (Expr × List Tok)
  | 0, _ => .error fuelMsg
  | f + 1, ts => do
      let (a, ts1) ← parseCmp f ts
      parseAndRest f a ts1

def parseAndRest : Nat → Expr → List Tok → Except String (Expr × List Tok)
  | 0, _, _ => .error fuelMsg
  | f + 1, acc, ts =>
      match ts with
      | .kw "AND" :: ts2 => do
          let (b, ts3) ← parseCmp f ts2
          parseAndRest f (.andE acc b) ts3
      | _ => .ok (acc, ts)

def parseCmp : Nat → List Tok → Except String (Expr × List Tok)
  | 0, _ => .error fuelMsg
  | f + 1, ts => do
      let (a, ts1) ← parseIs f ts
      match ts1 with
      | .cmpOp op :: ts2 => do
          let (b, ts3) ← parseIs f ts2
          .ok (.cmp op a b, ts3)
      | _ => .ok (a, ts1)

def parseIs : Nat → List Tok → Except String (Expr × List Tok)
  | 0, _ => .error fuelMsg
  | f + 1, ts => do
      let (a, ts1) ← parseAtom f ts
      match ts1 with
      | .kw "IS" :: .kw "NOT" :: .nullT :: r => .ok (.isNull true a, r)
      | .kw "IS" :: .nullT :: r => .ok (.isNull false a, r)
      | .kw "IS" :: _ => .error "sql parser error: Expected: NULL after IS"
      | _ => .ok (a, ts1)

def parseAtom : Nat → List Tok → Except String (Expr × List Tok)
  | 0, _ => .error fuelMsg
  | f + 1, ts =>
      match ts with
      | .num s :: r => .ok (.lit (.num s), r)
      | .str s :: r => .ok (.lit (.str s), r)
      | .dquoted s :: r => .ok (.lit (.str s), r)
      | .boolT b :: r => .ok (.lit (.boolL b), r)
      | .nullT :: r => .ok (.lit .nullL, r)
      | .qmark :: r => .ok (.placeholderE, r)
      | .ident s :: r => .ok (.identE s, r)
      | .lparen :: r => do
          let (e, r1) ← parseOr f r
          match r1 with
          | .rparen :: r2 => .ok (.paren e, r2)
          | _ => .error "sql parser error: Expected: closing parenthesis"
      | _ => .error "sql parser error: Expected: an expression"

end

def parseSelList : Nat → List Tok → Except String (List Expr × List Tok)
  | 0, _ => .error fuelMsg
  | f + 1, ts => do
      let (e, ts1) ← parseOr f ts
      match ts1 with
      | .comma :: ts2 => do
          let (es, ts3) ← parseSelList f ts2
          .ok (e :: es, ts3)
      | _ => .ok ([e], ts1)

def parseOrderItems : Nat → List Tok → Except String (List OrderItem × List Tok)
  | 0, _ => .error fuelMsg
  | f + 1, ts => do
      let (e, ts1) ← parseOr f ts
      let (dir, ts2) :=
        match ts1 with
        | .kw "ASC" :: r => (some OrdDir.asc, r)
        | .kw "DESC" :: r => (some OrdDir.desc, r)
        | _ => ((none : Option OrdDir), ts1)
      match ts2 with
      | .comma :: ts3 => do
          let (more, ts4) ← parseOrderItems f ts3
          .ok (⟨e, dir⟩ :: more, ts4)
      | _ => .ok ([⟨e, dir⟩], ts2)

def parseFromOpt : List Tok → Except String (Option TableRef × List Tok)
  | .kw "FROM" :: .ident s :: r => .ok (some ⟨false, s⟩, r)
  | .kw "FROM" :: .dquoted s :: r => .ok (some ⟨true, s⟩, r)
  | .kw "FROM" :: _ => .error "sql parser error: Expected: table name after FROM"
  | ts => .ok (none, ts)

def parseWhereOpt (f : Nat) : List Tok → Except String (Option Expr × List Tok)
  | .kw "WHERE" :: r => do
      let (e, r1) ← parseOr f r
      .ok (some e, r1)
  | ts => .ok (none, ts)

def parseOrderOpt (f : Nat) :
    List Tok → Except String (List OrderItem × List Tok)
  | .kw "ORDER" :: .kw "BY" :: r => parseOrderItems f r
  | .kw "ORDER" :: _ => .error "sql parser error: Expected: BY after ORDER"
  | ts => .ok ([], ts)

def parseLimitOpt : List Tok → Except String (Option Expr × List Tok)
  | .kw "LIMIT" :: .num s :: r => .ok (some (.lit (.num s)), r)
  | .kw "LIMIT" :: .qmark :: r => .ok (some .placeholderE, r)
  | .kw "LIMIT" :: _ => .error "sql parser error: Expected: a limit count"
  | ts => .ok (none, ts)

/-- Parse the projection: a bare star or a nonempty comma-separated
expression list. -/
def parseItems (f : Nat) : List Tok → Except String (SelItems × List Tok)
  | .star :: r => .ok (SelItems.star, r)
  | ts1 => do
      let (es, r) ← parseSelList f ts1
      .ok (SelItems.exprs es, r)

/-- Parse a full statement; the trailing semicolon is optional and anything
after it (or any unconsumed token) is an error, as in section 4.B. -/
def parseStmt (f : Nat) (ts : List Tok) : Except String SelectStmt := do
  match ts with
  | .kw "SELECT" :: ts1 => do
      let (items, ts2) ← parseItems f ts1
      let (tbl, ts3) ← parseFromOpt ts2
      let (w, ts4) ← parseWhereOpt f ts3
      let (ob, ts5) ← parseOrderOpt f ts4
      let (lim, ts6) ← parseLimitOpt ts5
      match ts6 with
      | [] => .ok ⟨items, tbl, w, ob, lim⟩
      | [.semi] => .ok ⟨items, tbl, w, ob, lim⟩
      | _ => .error "sql parser error: Expected: end of statement, found extra input"
  | _ => .error "sql parser error: Expected: SELECT"

/-- Modelled from the spec: the parser frontend entry point (section 4.B),
producing the AST of a full statement or a parse failure. -/
def parseSql (s : String) : Except String SelectStmt := do
  let ts ← tokenize s
  parseStmt (6 * ts.length + 10) ts

/-! ## The normalizer

Modelled from the spec (section 4.C): a pure post-parse rewrite.  Every
literal is replaced by a placeholder node and its normalized textual value
(leading zeros stripped from integers, outer quotes dropped from strings,
booleans lowercased) is streamed into the ordered parameter list; the
traversal is left-to-right depth-first.  Semantically redundant
parentheses are removed and the parentheses that precedence requires are
kept; the redundant ASC direction is dropped. -/

def stripLeadingZeros (s : String) : String :=
  match s.data.dropWhile (· = '0') with
  | [] => "0"
  | l => ⟨l⟩

/-- The normalized textual value of a literal, as recorded in params. -/
def litText : Lit → String
  | .num s => stripLeadingZeros s
  | .str s => s
  | .boolL true => "true"
  | .boolL false => "false"
  | .nullL => "null"

/-- Syntactic precedence of a node head: OR 0, AND 1, comparison 2,
IS (NOT) NULL 3, atoms 4. -/
def prec : Expr → Nat
  | .orE _ _ => 0
  | .andE _ _ => 1
  | .cmp _ _ _ => 2
  | .isNull _ _ => 3
  | _ => 4

/-- Wrap an expression in parentheses when its head binds looser than the
position requires. -/
def wrapAt (k : Nat) (e : Expr) : Expr :=
  if prec e < k then .paren e else e

/-- The expression rewrite: strips parentheses, re-inserts the ones that
precedence requires, replaces literals by placeholder nodes and streams
their normalized texts into the parameter list in depth-first order. -/
def normE : Expr → Expr × List String
  | .paren e => normE e
  | .orE a b =>
      let (a', pa) := normE a
      let (b', pb) := normE b
      (.orE a' (wrapAt 1 b'), pa ++ pb)
  | .andE a b =>
      let (a', pa) := normE a
      let (b', pb) := normE b
      (.andE (wrapAt 1 a') (wrapAt 2 b'), pa ++ pb)
  | .cmp op a b =>
      let (a', pa) := normE a
      let (b', pb) := normE b
      (.cmp op (wrapAt 3 a') (wrapAt 3 b'), pa ++ pb)
  | .isNull n a =>
      let (a', pa) := normE a
      (.isNull n (wrapAt 4 a'), pa)
  | .lit l => (.placeholderE, [litText l])
  | .identE s => (.identE s, [])
  | .placeholderE => (.placeholderE, [])

def normSelList : List Expr → List Expr × List String
  | [] => ([], [])
  | e :: es =>
      let (e', p) := normE e
      let (es', ps) := normSelList es
      (e' :: es', p ++ ps)

def normOrderItems : List OrderItem → List OrderItem × List String
  | [] => ([], [])
  | i :: rest =>
      let (e', p) := normE i.e
      let d : Option OrdDir :=
        match i.dir with
        | some .asc => none
        | d => d
      let (rest', ps) := normOrderItems rest
      (⟨e', d⟩ :: rest', p ++ ps)

/-- The statement rewrite: clauses are normalized in source order, so the
parameter list follows the left-to-right depth-first order of the input
tree. -/
def normStmt (st : SelectStmt) : SelectStmt × List String :=
  let (items', p1) :=
    match st.items with
    | .star => (SelItems.star, [])
    | .exprs es =>
        let (es', ps) := normSelList es
        (SelItems.exprs es', ps)
  let (w', p2) :=
    match st.whereE with
    | none => ((none : Option Expr), [])
    | some e =>
        let (e', p) := normE e
        (some e', p)
  let (ob', p3) := normOrderItems st.orderBy
  let (lim', p4) :=
    match st.limit with
    | none => ((none : Option Expr), [])
    | some e =>
        let (e', p) := normE e
        (some e', p)
  (⟨items', st.fromT, w', ob', lim'⟩, p1 ++ p2 ++ p3 ++ p4)

/-! ## The unparser

Modelled from the spec (section 4.D): deterministic single-line output,
uppercase keywords, one space between tokens that need separation and no
whitespace elsewhere (no space after an opening parenthesis, none before a
closing one or a comma), no trailing semicolon. -/

def litTok : Lit → Tok
  | .num s => .num s
  | .str s => .str s
  | .boolL b => .boolT b
  | .nullL => .nullT

def emitE : Expr → List Tok
  | .lit l => [litTok l]
  | .identE s => [.ident s]
  | .placeholderE => [.qmark]
  | .orE a b => emitE a ++ .kw "OR" :: emitE b
  | .andE a b => emitE a ++ .kw "AND" :: emitE b
  | .cmp op a b => emitE a ++ .cmpOp op :: emitE b
  | .isNull n a =>
      emitE a ++ (if n then [.kw "IS", .kw "NOT", .nullT] else [.kw "IS", .nullT])
  | .paren e => .lparen :: emitE e ++ [.rparen]

def emitOrderItem (i : OrderItem) : List Tok :=
  emitE i.e ++
    (match i.dir with
     | some .asc => [Tok.kw "ASC"]
     | some .desc => [Tok.kw "DESC"]
     | none => [])

def sepByComma : List (List Tok) → List Tok
  | [] => []
  | [x] => x
  | x :: y :: rest => x ++ .comma :: sepByComma (y :: rest)

def emitStmt (st : SelectStmt) : List Tok :=
  .kw "SELECT" ::
    (match st.items with
     | .star => [Tok.star]
     | .exprs es => sepByComma (es.map emitE)) ++
    (match st.fromT with
     | none => []
     | some t =>
         [Tok.kw "FROM", if t.quoted then Tok.dquoted t.name else Tok.ident t.name]) ++
    (match st.whereE with
     | none => []
     | some e => Tok.kw "WHERE" :: emitE e) ++
    (match st.orderBy with
     | [] => []
     | items => Tok.kw "ORDER" :: Tok.kw "BY" :: sepByComma (items.map emitOrderItem)) ++
    (match st.limit with
     | none => []
     | some e => Tok.kw "LIMIT" :: emitE e)

/-- The concrete text of one token; the placeholder token renders as the
caller-chosen placeholder text. -/
def tokChars (ph : String) : Tok → List Char
  | .kw s => s.data
  | .ident s => s.data
  | .dquoted s => '"' :: s.data ++ ['"']
  | .num s => s.data
  | .str s => squote :: s.data ++ [squote]
  | .boolT true => ['T', 'R', 'U', 'E']
  | .boolT false => ['F', 'A', 'L', 'S', 'E']
  | .nullT => ['N', 'U', 'L', 'L']
  | .star => ['*']
  | .lparen => ['(']
  | .rparen => [')']
  | .comma => [',']
  | .semi => [';']
  | .qmark => ph.data
  | .cmpOp s => s.data

/-- Whether two adjacent tokens are separated by a space in the canonical
output. -/
def needSep (t1 t2 : Tok) : Bool :=
  !(t1 = .lparen || t2 = .rparen || t2 = .comma)

def renderChars (ph : String) : List Tok → List Char
  | [] => []
  | [t] => tokChars ph t
  | t1 :: t2 :: rest =>
      tokChars ph t1 ++
        (if needSep t1 t2 then [' '] else []) ++ renderChars ph (t2 :: rest)

/-- Render a token list as the canonical single-line SQL string. -/
def render (ph : String) (ts : List Tok) : String := ⟨renderChars ph ts⟩

/-! ## The fingerprint assembler and entry point -/

/-- Modelled from the spec: the immutable result record (section 3). -/
structure NormalizeResult where
  original : String
  normalized : String
  params : List String
  hash : String
deriving DecidableEq, Repr

/-- Modelled from the spec: the fingerprint assembler (section 4.E) —
normalizes the AST, renders the canonical string, and composes the result
record with the hash of the canonical string.  It never fails. -/
def assemble (sql placeholder : String) (ast : SelectStmt) : NormalizeResult :=
  let (nf, ps) := normStmt ast
  let normalized := render placeholder (emitStmt nf)
  ⟨sql, normalized, ps, sha256Hex normalized⟩

/-- Modelled from the spec: the library entry point (section 6).  The
dialect is resolved first (an unknown name fails before any parsing); a
parser frontend failure is surfaced with the literal message text
"Parse error: " followed by the parser cause; on success the result record
carries the verbatim input, the canonical string, the ordered parameter
list and the lowercase-hex SHA-256 of the canonical string. -/
def normalize (sql : String) (dialect : String) (placeholder : String) :
    Except NormError NormalizeResult :=
  match resolve dialect with
  | .error e => .error e
  | .ok _ =>
      match parseSql sql with
      | .error cause => .error ⟨.parseError, "Parse error: " ++ cause⟩
      | .ok ast => .ok (assemble sql placeholder ast)

/-! ## Literal-and-parenthesis skeletons

The equivalence relation of invariant 2 — two parses that differ only in
literal values and semantically redundant parentheses (whitespace,
comments and keyword case never reach the AST) — is captured by a
skeleton: the AST with every parenthesis node dropped and every literal
payload erased.  The canonical output is shown to depend only on the
skeleton. -/

inductive SkelExpr
  | slit
  | sident (s : String)
  | sph
  | sor (a b : SkelExpr)
  | sand (a b : SkelExpr)
  | scmp (op : String) (a b : SkelExpr)
  | snull (neg : Bool) (a : SkelExpr)
deriving DecidableEq, Repr

/-- Erase literal payloads and drop all parenthesis nodes. -/
def scrubE : Expr → SkelExpr
  | .paren e => scrubE e
  | .lit _ => .slit
  | .identE s => .sident s
  | .placeholderE => .sph
  | .orE a b => .sor (scrubE a) (scrubE b)
  | .andE a b => .sand (scrubE a) (scrubE b)
  | .cmp op a b => .scmp op (scrubE a) (scrubE b)
  | .isNull n a => .snull n (scrubE a)

structure SkelOrderItem where
  e : SkelExpr
  dir : Option OrdDir
deriving DecidableEq, Repr

inductive SkelItems
  | star
  | exprs (es : List SkelExpr)
deriving DecidableEq, Repr

structure SkelStmt where
  items : SkelItems
  fromT : Option TableRef
  whereE : Option SkelExpr
  orderBy : List SkelOrderItem
  limit : Option SkelExpr
deriving DecidableEq, Repr

def scrubItems : SelItems → SkelItems
  | .star => .star
  | .exprs es => .exprs (es.map scrubE)

/-- The skeleton of a statement: what remains when literal payloads and
redundant parentheses are forgotten. -/
def scrubStmt (st : SelectStmt) : SkelStmt :=
  ⟨scrubItems st.items, st.fromT, st.whereE.map scrubE,
   st.orderBy.map (fun i => ⟨scrubE i.e, i.dir⟩), st.limit.map scrubE⟩

/-- Rebuild the canonical (normal-form) expression of a skeleton: literal
slots become placeholders and the parentheses that precedence requires are
re-inserted. -/
def interpE : SkelExpr → Expr
  | .slit => .placeholderE
  | .sident s => .identE s
  | .sph => .placeholderE
  | .sor a b => .orE (interpE a) (wrapAt 1 (interpE b))
  | .sand a b => .andE (wrapAt 1 (interpE a)) (wrapAt 2 (interpE b))
  | .scmp op a b => .cmp op (wrapAt 3 (interpE a)) (wrapAt 3 (interpE b))
  | .snull n a => .isNull n (wrapAt 4 (interpE a))

def dropAsc : Option OrdDir → Option OrdDir
  | some .asc => none
  | d => d

def interpItems : SkelItems → SelItems
  | .star => .star
  | .exprs es => .exprs (es.map interpE)

/-- The canonical statement of a skeleton. -/
def interpStmt (sk : SkelStmt) : SelectStmt :=
  ⟨interpItems sk.items, sk.fromT, sk.whereE.map interpE,
   sk.orderBy.map (fun i => ⟨interpE i.e, dropAsc i.dir⟩), sk.limit.map interpE⟩

/-- The literals of an expression in left-to-right depth-first order (the
specification-side description of the extraction order). -/
def collectLits : Expr → List Lit
  | .paren e => collectLits e
  | .lit l => [l]
  | .identE _ => []
  | .placeholderE => []
  | .orE a b => collectLits a ++ collectLits b
  | .andE a b => collectLits a ++ collectLits b
  | .cmp _ a b => collectLits a ++ collectLits b
  | .isNull _ a => collectLits a

/-- The literals of a statement in source order: select items, WHERE,
ORDER BY, LIMIT. -/
def collectStmtLits (st : SelectStmt) : List Lit :=
  (match st.items with
   | .star => []
   | .exprs es => es.flatMap collectLits) ++
  (match st.whereE with
   | none => []
   | some e => collectLits e) ++
  st.orderBy.flatMap (fun i => collectLits i.e) ++
  (match st.limit with
   | none => []
   | some e => collectLits e)

/-- The fused rewrite agrees with its specification: the normal form is
the interpretation of the skeleton, and the parameter list is the
depth-first literal list. -/
theorem normE_spec (e : Expr) :
    normE e = (interpE (scrubE e), (collectLits e).map litText) := by
  induction e with
  | paren e ih => simpa [normE, scrubE, collectLits] using ih
  | lit l => rfl
  | identE s => rfl
  | placeholderE => rfl
  | orE a b iha ihb => simp [normE, scrubE, collectLits, interpE, iha, ihb]
  | andE a b iha ihb => simp [normE, scrubE, collectLits, interpE, iha, ihb]
  | cmp op a b iha ihb => simp [normE, scrubE, collectLits, interpE, iha, ihb]
  | isNull n a iha => simp [normE, scrubE, collectLits, interpE, iha]

theorem normSelList_spec (es : List Expr) :
    normSelList es =
      (es.map (fun e => interpE (scrubE e)),
       (es.flatMap collectLits).map litText) := by
  induction es with
  | nil => rfl
  | cons e es ih => simp [normSelList, normE_spec, ih]

theorem normOrderItems_spec (items : List OrderItem) :
    normOrderItems items =
      (items.map (fun i => ⟨interpE (scrubE i.e), dropAsc i.dir⟩),
       (items.flatMap (fun i => collectLits i.e)).map litText) := by
  induction items with
  | nil => rfl
  | cons i items ih =>
      have hd : (match i.dir with
          | some OrdDir.asc => (none : Option OrdDir)
          | d => d) = dropAsc i.dir := by
        unfold dropAsc
        rfl
      simp [normOrderItems, normE_spec, ih, hd]

theorem normStmt_spec (st : SelectStmt) :
    normStmt st =
      (interpStmt (scrubStmt st), (collectStmtLits st).map litText) := by
  rcases st with ⟨items, tbl, w, ob, lim⟩
  unfold normStmt interpStmt scrubStmt collectStmtLits
  cases items with
  | star =>
      cases w with
      | none =>
          cases lim with
          | none => simp [normOrderItems_spec, scrubItems, interpItems]
          | some e => simp [normOrderItems_spec, scrubItems, interpItems, normE_spec]
      | some e =>
          cases lim with
          | none => simp [normOrderItems_spec, scrubItems, interpItems, normE_spec]
          | some e2 => simp [normOrderItems_spec, scrubItems, interpItems, normE_spec]
  | exprs es =>
      cases w with
      | none =>
          cases lim with
          | none => simp [normOrderItems_spec, normSelList_spec, scrubItems, interpItems]
          | some e => simp [normOrderItems_spec, normSelList_spec, scrubItems, interpItems, normE_spec]
      | some e =>
          cases lim with
          | none => simp [normOrderItems_spec, normSelList_spec, scrubItems, interpItems, normE_spec]
          | some e2 => simp [normOrderItems_spec, normSelList_spec, scrubItems, interpItems, normE_spec]

theorem assemble_normalized (s ph : String) (a : SelectStmt) :
    (assemble s ph a).normalized = render ph (emitStmt (normStmt a).1) := by
  unfold assemble
  rcases normStmt a with ⟨nf, ps⟩
  rfl

theorem assemble_params (s ph : String) (a : SelectStmt) :
    (assemble s ph a).params = (normStmt a).2 := by
  unfold assemble
  rcases normStmt a with ⟨nf, ps⟩
  rfl

theorem assemble_hash (s ph : String) (a : SelectStmt) :
    (assemble s ph a).hash =
      sha256Hex (render ph (emitStmt (normStmt a).1)) := by
  unfold assemble
  rcases normStmt a with ⟨nf, ps⟩
  rfl

/-! ## Placeholder counting and substitution -/

/-- The number of placeholder tokens in a token list. -/
def qmarkCount : List Tok → Nat
  | [] => 0
  | t :: ts => (if t = .qmark then 1 else 0) + qmarkCount ts

/-- The number of question-mark characters in a character list. -/
def qcharCount : List Char → Nat
  | [] => 0
  | c :: cs => (if c = '?' then 1 else 0) + qcharCount cs

/-- The number of occurrences of the default placeholder token in a
string (the placeholder is the single character, so substring occurrences
are character occurrences). -/
def strCountQ (s : String) : Nat := qcharCount s.data

/-- Substitution of one character under "every occurrence of ? is
replaced by v". -/
def qsubst (v : String) (c : Char) : List Char :=
  if c = '?' then v.data else [c]

/-- The string obtained by replacing every occurrence of the default
placeholder ? by the text v (the claimed relation between the outputs
under different placeholders). -/
def replaceQ (s v : String) : String := ⟨s.data.flatMap (qsubst v)⟩

/-- A token is question-mark-clean when it is the placeholder itself or
its rendered text contains no question mark. -/
def tokQClean (t : Tok) : Bool :=
  t = .qmark || (tokChars "?" t).all (fun c => !(c = '?'))

/-- The number of placeholder nodes in an expression. -/
def phCount : Expr → Nat
  | .placeholderE => 1
  | .paren e => phCount e
  | .orE a b => phCount a + phCount b
  | .andE a b => phCount a + phCount b
  | .cmp _ a b => phCount a + phCount b
  | .isNull _ a => phCount a
  | _ => 0

/-- The number of placeholder nodes in a statement. -/
def phCountStmt (st : SelectStmt) : Nat :=
  (match st.items with
   | .star => 0
   | .exprs es => (es.map phCount).sum) +
  (match st.whereE with
   | none => 0
   | some e => phCount e) +
  (st.orderBy.map (fun i => phCount i.e)).sum +
  (match st.limit with
   | none => 0
   | some e => phCount e)

theorem qcharCount_append (a b : List Char) :
    qcharCount (a ++ b) = qcharCount a + qcharCount b := by
  induction a with
  | nil => simp [qcharCount]
  | cons c a ih => simp [qcharCount, ih]; omega

theorem qcharCount_clean (cs : List Char)
    (h : cs.all (fun c => !(c = '?')) = true) : qcharCount cs = 0 := by
  induction cs with
  | nil => rfl
  | cons c cs ih =>
      rw [List.all_cons, Bool.and_eq_true] at h
      have hc : ¬c = '?' := by simpa using h.1
      simp [qcharCount, hc, ih h.2]

theorem qmarkCount_append (a b : List Tok) :
    qmarkCount (a ++ b) = qmarkCount a + qmarkCount b := by
  induction a with
  | nil => simp [qmarkCount]
  | cons t a ih => simp [qmarkCount, ih]; omega

/-- For a placeholder token the rendered text under the default
placeholder contains exactly one question mark; for any other clean token
it contains none. -/
theorem qcharCount_tokChars (t : Tok) (h : tokQClean t = true) :
    qcharCount (tokChars "?" t) = (if t = Tok.qmark then 1 else 0) := by
  by_cases hq : t = Tok.qmark
  · subst hq
    rfl
  · have hall : (tokChars "?" t).all (fun c => !(c = '?')) = true := by
      unfold tokQClean at h
      simpa [hq] using h
    rw [if_neg hq]
    exact qcharCount_clean _ hall

theorem render_qcount (ts : List Tok) (h : ts.all tokQClean = true) :
    qcharCount (renderChars "?" ts) = qmarkCount ts := by
  induction ts with
  | nil => rfl
  | cons t1 rest ih =>
      simp only [List.all_cons, Bool.and_eq_true] at h
      cases rest with
      | nil =>
          rw [renderChars]
          rw [qcharCount_tokChars t1 h.1]
          simp [qmarkCount]
      | cons t2 rest2 =>
          rw [renderChars, qcharCount_append, qcharCount_append]
          rw [qcharCount_tokChars t1 h.1]
          rw [ih (by simpa using h.2)]
          have hsep : qcharCount (if needSep t1 t2 then [' '] else []) = 0 := by
            split <;> simp [qcharCount]
          rw [hsep]
          simp [qmarkCount]

theorem flatMap_qsubst_clean (v : String) (cs : List Char)
    (h : cs.all (fun c => !(c = '?')) = true) :
    cs.flatMap (qsubst v) = cs := by
  induction cs with
  | nil => rfl
  | cons c cs ih =>
      rw [List.all_cons, Bool.and_eq_true] at h
      have hc : ¬c = '?' := by simpa using h.1
      simp [List.flatMap_cons, qsubst, hc, ih h.2]

/-- The text of a non-placeholder token does not depend on the chosen
placeholder. -/
theorem tokChars_ph (v : String) (t : Tok) (h : ¬t = Tok.qmark) :
    tokChars v t = tokChars "?" t := by
  cases t with
  | boolT b => cases b <;> rfl
  | qmark => exact absurd rfl h
  | _ => rfl

theorem render_subst (v : String) (ts : List Tok)
    (h : ts.all tokQClean = true) :
    renderChars v ts = (renderChars "?" ts).flatMap (qsubst v) := by
  induction ts with
  | nil => rfl
  | cons t1 rest ih =>
      simp only [List.all_cons, Bool.and_eq_true] at h
      have htok : tokChars v t1 = (tokChars "?" t1).flatMap (qsubst v) := by
        by_cases hq : t1 = Tok.qmark
        · subst hq
          simp [tokChars, qsubst, List.flatMap_cons]
        · have hall : (tokChars "?" t1).all (fun c => !(c = '?')) = true := by
            have hc : tokQClean t1 = true := h.1
            unfold tokQClean at hc
            simpa [hq] using hc
          rw [tokChars_ph v t1 hq, flatMap_qsubst_clean v _ hall]
      cases rest with
      | nil =>
          rw [renderChars, renderChars]
          exact htok
      | cons t2 rest2 =>
          rw [renderChars, renderChars]
          rw [List.flatMap_append, List.flatMap_append]
          rw [htok, ih (by simpa using h.2)]
          have hsep :
              (if needSep t1 t2 then [' '] else []).flatMap (qsubst v) =
                (if needSep t1 t2 then [' '] else []) := by
            split <;> simp [qsubst]
          rw [hsep]

/-! ## Counting placeholders in the canonical output -/

theorem phCount_wrapAt (k : Nat) (e : Expr) :
    phCount (wrapAt k e) = phCount e := by
  unfold wrapAt
  split <;> rfl

theorem emitE_qmarkCount (e : Expr) : qmarkCount (emitE e) = phCount e := by
  induction e with
  | lit l => cases l <;> simp [emitE, qmarkCount, phCount, litTok]
  | identE s => rfl
  | placeholderE => rfl
  | orE a b iha ihb =>
      simp [emitE, qmarkCount_append, qmarkCount, phCount, iha, ihb]
  | andE a b iha ihb =>
      simp [emitE, qmarkCount_append, qmarkCount, phCount, iha, ihb]
  | cmp op a b iha ihb =>
      simp [emitE, qmarkCount_append, qmarkCount, phCount, iha, ihb]
  | isNull n a iha =>
      cases n <;> simp [emitE, qmarkCount_append, qmarkCount, phCount, iha]
  | paren e ih =>
      simp [emitE, qmarkCount_append, qmarkCount, phCount, ih]

theorem sepByComma_qmarkCount (ls : List (List Tok)) :
    qmarkCount (sepByComma ls) = (ls.map qmarkCount).sum := by
  induction ls with
  | nil => rfl
  | cons x ls ih =>
      cases ls with
      | nil => simp [sepByComma]
      | cons y ls2 =>
          rw [sepByComma, qmarkCount_append]
          simp only [qmarkCount] at *
          rw [ih]
          simp

theorem emitOrderItem_qmarkCount (i : OrderItem) :
    qmarkCount (emitOrderItem i) = phCount i.e := by
  unfold emitOrderItem
  rw [qmarkCount_append, emitE_qmarkCount]
  rcases i with ⟨e, dir⟩
  rcases dir with _ | d
  · simp [qmarkCount]
  · cases d <;> simp [qmarkCount]

theorem map_qmark_emitE (es : List Expr) :
    List.map (fun e => qmarkCount (emitE e)) es = List.map phCount es := by
  induction es with
  | nil => rfl
  | cons e es ih => simp [emitE_qmarkCount, ih]

theorem map_qmark_emitOrderItem (items : List OrderItem) :
    List.map (fun i => qmarkCount (emitOrderItem i)) items =
      List.map (fun i => phCount i.e) items := by
  induction items with
  | nil => rfl
  | cons i items ih => simp [emitOrderItem_qmarkCount, ih]

theorem tblTok_not_qmark (t : TableRef) :
    ((if t.quoted then Tok.dquoted t.name else Tok.ident t.name) = Tok.qmark) =
      False := by
  split <;> simp

theorem map_eta_phCount (es : List Expr) :
    List.map (fun x => phCount x) es = List.map phCount es := rfl

theorem emitStmt_qmarkCount (st : SelectStmt) :
    qmarkCount (emitStmt st) = phCountStmt st := by
  rcases st with ⟨items, tbl, w, ob, lim⟩
  rcases items with _ | es <;> rcases w with _ | we <;>
    rcases ob with _ | ⟨i, rest⟩ <;> rcases lim with _ | le <;>
      rcases tbl with _ | t <;>
    simp [emitStmt, phCountStmt, qmarkCount, qmarkCount_append,
      sepByComma_qmarkCount, List.map_map, Function.comp_def,
      emitE_qmarkCount, emitOrderItem_qmarkCount, map_qmark_emitE,
      map_qmark_emitOrderItem, tblTok_not_qmark, map_eta_phCount] <;>
    omega

theorem normE_phCount (e : Expr) :
    phCount (normE e).1 = phCount e + (collectLits e).length := by
  induction e with
  | paren e ih => simpa [normE, phCount, collectLits] using ih
  | lit l => rfl
  | identE s => rfl
  | placeholderE => rfl
  | orE a b iha ihb =>
      rcases hna : normE a with ⟨a', pa⟩
      rcases hnb : normE b with ⟨b', pb⟩
      rw [hna] at iha
      rw [hnb] at ihb
      simp [normE, hna, hnb, phCount, collectLits, phCount_wrapAt] at *
      omega
  | andE a b iha ihb =>
      rcases hna : normE a with ⟨a', pa⟩
      rcases hnb : normE b with ⟨b', pb⟩
      rw [hna] at iha
      rw [hnb] at ihb
      simp [normE, hna, hnb, phCount, collectLits, phCount_wrapAt] at *
      omega
  | cmp op a b iha ihb =>
      rcases hna : normE a with ⟨a', pa⟩
      rcases hnb : normE b with ⟨b', pb⟩
      rw [hna] at iha
      rw [hnb] at ihb
      simp [normE, hna, hnb, phCount, collectLits, phCount_wrapAt] at *
      omega
  | isNull n a iha =>
      rcases hna : normE a with ⟨a', pa⟩
      rw [hna] at iha
      simp [normE, hna, phCount, collectLits, phCount_wrapAt] at *
      omega

theorem interp_scrub_phCount (e : Expr) :
    phCount (interpE (scrubE e)) = phCount e + (collectLits e).length := by
  have h := normE_phCount e
  rwa [normE_spec] at h

theorem map_interp_scrub_sum (es : List Expr) :
    (List.map (fun e => phCount (interpE (scrubE e))) es).sum =
      (List.map phCount es).sum + (es.flatMap collectLits).length := by
  induction es with
  | nil => rfl
  | cons e es ih =>
      simp only [List.map_cons, List.sum_cons, List.flatMap_cons,
        List.length_append]
      rw [interp_scrub_phCount, ih]
      omega

theorem map_interp_scrub_ord_sum (items : List OrderItem) :
    (List.map (fun i => phCount (interpE (scrubE i.e))) items).sum =
      (List.map (fun i => phCount i.e) items).sum +
        (items.flatMap (fun i => collectLits i.e)).length := by
  induction items with
  | nil => rfl
  | cons i rest ih =>
      simp only [List.map_cons, List.sum_cons, List.flatMap_cons,
        List.length_append]
      rw [interp_scrub_phCount, ih]
      omega

theorem normStmt_phCount (st : SelectStmt) :
    phCountStmt (normStmt st).1 = phCountStmt st + (collectStmtLits st).length := by
  rcases st with ⟨items, tbl, w, ob, lim⟩
  rw [normStmt_spec]
  rcases items with _ | es <;> rcases w with _ | we <;> rcases lim with _ | le <;>
    simp [interpStmt, scrubStmt, phCountStmt, collectStmtLits, interpItems,
      scrubItems, List.map_map, Function.comp_def, interp_scrub_phCount,
      map_interp_scrub_sum, map_interp_scrub_ord_sum] <;>
    omega

/-! ## Idempotence machinery I: token well-formedness and the render-tokenize roundtrip -/

/-! ## Roundtrip machinery: token well-formedness -/

/-- The comparison operator spellings the tokenizer can produce. -/
def cmpOps : List String := ["=", "<", ">", "<=", ">=", "<>", "!="]

/-- Whether a scanned word is reserved (a keyword or a word literal),
i.e. not classified as an identifier. -/
def isKwWord (w : List Char) : Bool :=
  let up : String := ⟨w.map asciiUpperChar⟩
  up = "TRUE" || up = "FALSE" || up = "NULL" || kwStrings.contains up

/-- A string that the tokenizer would scan back as the identifier it
spells: nonempty, an identifier head, identifier characters throughout,
and not reserved. -/
def wfIdentStr (s : String) : Bool :=
  match s.data with
  | [] => false
  | c :: w => isIdentStart c && w.all isIdentChar && !isKwWord (c :: w)

/-- Token text well-formedness: the string payloads are ones the
tokenizer itself can produce. -/
def wfTok : Tok → Bool
  | .ident s => wfIdentStr s
  | .dquoted s => s.data.all notDquote
  | .cmpOp s => cmpOps.contains s
  | .kw s => kwStrings.contains s
  | _ => true

/-- Tokens the canonical emitter can produce (no literal and no
semicolon tokens). -/
def emitTok : Tok → Bool
  | .num _ => false
  | .str _ => false
  | .boolT _ => false
  | .semi => false
  | _ => true

/-- A token that re-tokenizes from its own rendering. -/
def rtTok (t : Tok) : Bool := wfTok t && emitTok t

/-- The characters that can follow a token in the canonical rendering. -/
def sepChar (c : Char) : Bool := c = ' ' || c = ')' || c = ','

/-- The character list after a rendered token: empty or opening with a
separator-safe character. -/
def bdry : List Char → Bool
  | [] => true
  | c :: _ => sepChar c

/-! ## Character class facts -/

theorem identStart_ranges (c : Char) (h : isIdentStart c = true) :
    (65 ≤ c.toNat ∧ c.toNat ≤ 90) ∨ (97 ≤ c.toNat ∧ c.toNat ≤ 122) ∨
      c.toNat = 95 := by
  simp only [isIdentStart, isAlphaC, Bool.or_eq_true, Bool.and_eq_true,
    decide_eq_true_eq] at h
  rcases h with (h | h) | h
  · exact .inl h
  · exact .inr (.inl h)
  · exact .inr (.inr (congrArg Char.toNat h))

theorem identStart_facts (c : Char) (h : isIdentStart c = true) :
    isSpaceC c = false ∧ ¬(c = '-') ∧ ¬(c = '/') ∧ ¬(c = squote) ∧
      ¬(c = '"') ∧ isDigitC c = false := by
  have hv := identStart_ranges c h
  refine ⟨?_, ?_, ?_, ?_, ?_, ?_⟩
  · simp only [isSpaceC, Bool.or_eq_false_iff, decide_eq_false_iff_not]
    refine ⟨⟨⟨?_, ?_⟩, ?_⟩, ?_⟩ <;>
      · rintro rfl
        exact absurd hv (by decide)
  · rintro rfl
    exact absurd hv (by decide)
  · rintro rfl
    exact absurd hv (by decide)
  · rintro rfl
    exact absurd hv (by decide)
  · rintro rfl
    exact absurd hv (by decide)
  · simp only [isDigitC, Bool.and_eq_false_iff, decide_eq_false_iff_not]
    omega

theorem bdry_head_facts (c : Char) (h : sepChar c = true) :
    isIdentChar c = false ∧ ¬(c = '=') ∧ ¬(c = '>') := by
  simp only [sepChar, Bool.or_eq_true, decide_eq_true_eq] at h
  rcases h with (rfl | rfl) | rfl <;> exact ⟨by decide, by decide, by decide⟩

/-! ## Scanning across a well-classed run -/

theorem scan_app (p : Char → Bool) (l cs : List Char)
    (hl : l.all p = true)
    (hcs : ∀ c cs2, cs = c :: cs2 → p c = false) :
    (l ++ cs).takeWhile p = l ∧ (l ++ cs).dropWhile p = cs := by
  induction l with
  | nil =>
      simp only [List.nil_append]
      cases cs with
      | nil => exact ⟨rfl, rfl⟩
      | cons c cs2 =>
          have hc := hcs c cs2 rfl
          simp [List.takeWhile_cons, List.dropWhile_cons, hc]
  | cons x l ih =>
      simp only [List.all_cons, Bool.and_eq_true] at hl
      have := ih hl.2
      simp [List.takeWhile_cons, List.dropWhile_cons, hl.1, this.1, this.2]

/-! ## Word classification roundtrips -/

theorem classify_not_kw (w : List Char) (h : isKwWord w = false) :
    classifyWord w = .ident ⟨w⟩ := by
  simp only [isKwWord, Bool.or_eq_false_iff, decide_eq_false_iff_not] at h
  have h2 : (⟨w.map asciiUpperChar⟩ : String) ∉ kwStrings := fun hm =>
    (ne_true_of_eq_false h.2) (List.elem_eq_true_of_mem hm)
  rw [classifyWord]
  simp [h.1.1.1, h.1.1.2, h.1.2, h2]

theorem kw_word_data (s : String) (h : kwStrings.contains s = true) :
    ∃ c w, s.data = c :: w ∧ isIdentStart c = true ∧
      w.all isIdentChar = true ∧ classifyWord (c :: w) = .kw s := by
  have hm : s ∈ kwStrings := by
    have := List.mem_of_elem_eq_true h
    exact this
  simp only [kwStrings, List.mem_cons, List.not_mem_nil, or_false] at hm
  rcases hm with rfl | rfl | rfl | rfl | rfl | rfl | rfl | rfl | rfl | rfl |
    rfl | rfl
  all_goals exact ⟨_, _, rfl, by decide, by decide, by decide⟩

theorem null_word : classifyWord ['N', 'U', 'L', 'L'] = .nullT := by decide

theorem ident_word_data (s : String) (h : wfIdentStr s = true) :
    ∃ c w, s.data = c :: w ∧ isIdentStart c = true ∧
      w.all isIdentChar = true ∧ classifyWord (c :: w) = .ident s := by
  rw [wfIdentStr] at h
  rcases hd : s.data with _ | ⟨c, w⟩
  · rw [hd] at h
    simp at h
  · rw [hd] at h
    simp only [Bool.and_eq_true, Bool.not_eq_true'] at h
    refine ⟨c, w, rfl, h.1.1, h.1.2, ?_⟩
    rw [classify_not_kw _ h.2, ← hd]

/-! ## The tokenizer consumes one rendered token -/

/-- The unfolding of the tokenizer on a nonempty character list, as one
definitional equation (the generated per-leaf equations carry pattern
side conditions that are inconvenient to rewrite with). -/
theorem tokenizeAuxF_cons (f : Nat) (c : Char) (cs : List Char) :
    tokenizeAuxF (f + 1) (c :: cs) =
      (if isSpaceC c then tokenizeAuxF f cs
      else if c = '-' then
        match cs with
        | '-' :: cs2 => tokenizeAuxF f (cs2.dropWhile notNewline)
        | _ => .error "sql parser error: unexpected character"
      else if c = '/' then
        match cs with
        | '*' :: cs2 =>
          match skipBlockComment cs2 with
          | some cs3 => tokenizeAuxF f cs3
          | none => .error "sql parser error: unterminated block comment"
        | _ => .error "sql parser error: unexpected character"
      else if c = squote then
        match cs.dropWhile notSquote with
        | _ :: cs2 =>
            (tokenizeAuxF f cs2).map (Tok.str ⟨cs.takeWhile notSquote⟩ :: ·)
        | [] => .error "sql parser error: unterminated string literal"
      else if c = '"' then
        match cs.dropWhile notDquote with
        | _ :: cs2 =>
            (tokenizeAuxF f cs2).map (Tok.dquoted ⟨cs.takeWhile notDquote⟩ :: ·)
        | [] => .error "sql parser error: unterminated quoted identifier"
      else if isDigitC c then
        (tokenizeAuxF f (cs.dropWhile isDigitC)).map
          (Tok.num ⟨c :: cs.takeWhile isDigitC⟩ :: ·)
      else if isIdentStart c then
        (tokenizeAuxF f (cs.dropWhile isIdentChar)).map
          (classifyWord (c :: cs.takeWhile isIdentChar) :: ·)
      else if c = '(' then (tokenizeAuxF f cs).map (Tok.lparen :: ·)
      else if c = ')' then (tokenizeAuxF f cs).map (Tok.rparen :: ·)
      else if c = ',' then (tokenizeAuxF f cs).map (Tok.comma :: ·)
      else if c = ';' then (tokenizeAuxF f cs).map (Tok.semi :: ·)
      else if c = '*' then (tokenizeAuxF f cs).map (Tok.star :: ·)
      else if c = '?' then (tokenizeAuxF f cs).map (Tok.qmark :: ·)
      else if c = '=' then (tokenizeAuxF f cs).map (Tok.cmpOp "=" :: ·)
      else if c = '<' then
        match cs with
        | '=' :: cs2 => (tokenizeAuxF f cs2).map (Tok.cmpOp "<=" :: ·)
        | '>' :: cs2 => (tokenizeAuxF f cs2).map (Tok.cmpOp "<>" :: ·)
        | cs2 => (tokenizeAuxF f cs2).map (Tok.cmpOp "<" :: ·)
      else if c = '>' then
        match cs with
        | '=' :: cs2 => (tokenizeAuxF f cs2).map (Tok.cmpOp ">=" :: ·)
        | cs2 => (tokenizeAuxF f cs2).map (Tok.cmpOp ">" :: ·)
      else if c = '!' then
        match cs with
        | '=' :: cs2 => (tokenizeAuxF f cs2).map (Tok.cmpOp "!=" :: ·)
        | _ => .error "sql parser error: unexpected character"
      else .error "sql parser error: unexpected character") := rfl

theorem word_step (c : Char) (w cs : List Char) (f : Nat)
    (hc : isIdentStart c = true) (hw : w.all isIdentChar = true)
    (hcs : bdry cs = true) :
    tokenizeAuxF (f + 1) (c :: (w ++ cs)) =
      (tokenizeAuxF f cs).map (fun ts => classifyWord (c :: w) :: ts) := by
  have hf := identStart_facts c hc
  have hsc : ∀ c2 cs2, cs = c2 :: cs2 → isIdentChar c2 = false := by
    intro c2 cs2 he
    subst he
    rw [bdry] at hcs
    exact (bdry_head_facts c2 hcs).1
  have hscan := scan_app isIdentChar w cs hw hsc
  rw [tokenizeAuxF_cons]
  rw [if_neg (by simp [hf.1]), if_neg hf.2.1, if_neg hf.2.2.1,
    if_neg hf.2.2.2.1, if_neg hf.2.2.2.2.1, if_neg (by simp [hf.2.2.2.2.2]),
    if_pos hc, hscan.1, hscan.2]

theorem dquoted_step (s : String) (cs : List Char) (f : Nat)
    (hs : s.data.all notDquote = true) :
    tokenizeAuxF (f + 1) (('"' :: s.data ++ ['"']) ++ cs) =
      (tokenizeAuxF f cs).map (fun ts => Tok.dquoted s :: ts) := by
  have hscan := scan_app notDquote s.data ('"' :: cs)
    hs (by intro c2 cs2 he; cases he; simp [notDquote])
  have he : ('"' :: s.data ++ ['"']) ++ cs = '"' :: (s.data ++ '"' :: cs) := by
    simp
  rw [he, tokenizeAuxF_cons]
  rw [if_neg (by decide), if_neg (by decide), if_neg (by decide),
    if_neg (by decide), if_pos rfl, hscan.2, hscan.1]

theorem qmark_step (cs : List Char) (f : Nat) :
    tokenizeAuxF (f + 1) ('?' :: cs) =
      (tokenizeAuxF f cs).map (fun ts => Tok.qmark :: ts) := rfl

theorem space_step (cs : List Char) (f : Nat) :
    tokenizeAuxF (f + 1) (' ' :: cs) = tokenizeAuxF f cs := rfl

theorem lparen_step (cs : List Char) (f : Nat) :
    tokenizeAuxF (f + 1) ('(' :: cs) =
      (tokenizeAuxF f cs).map (fun ts => Tok.lparen :: ts) := rfl

theorem rparen_step (cs : List Char) (f : Nat) :
    tokenizeAuxF (f + 1) (')' :: cs) =
      (tokenizeAuxF f cs).map (fun ts => Tok.rparen :: ts) := rfl

theorem comma_step (cs : List Char) (f : Nat) :
    tokenizeAuxF (f + 1) (',' :: cs) =
      (tokenizeAuxF f cs).map (fun ts => Tok.comma :: ts) := rfl

theorem star_step (cs : List Char) (f : Nat) :
    tokenizeAuxF (f + 1) ('*' :: cs) =
      (tokenizeAuxF f cs).map (fun ts => Tok.star :: ts) := rfl

theorem cmpOp_step (s : String) (cs : List Char) (f : Nat)
    (hs : cmpOps.contains s = true) (hcs : bdry cs = true) :
    tokenizeAuxF (f + 1) (s.data ++ cs) =
      (tokenizeAuxF f cs).map (fun ts => Tok.cmpOp s :: ts) := by
  have hm : s ∈ cmpOps := List.mem_of_elem_eq_true hs
  simp only [cmpOps, List.mem_cons, List.not_mem_nil, or_false] at hm
  rcases hm with rfl | rfl | rfl | rfl | rfl | rfl | rfl
  · rfl
  · cases cs with
    | nil => rfl
    | cons c2 cs2 =>
        have hb := bdry_head_facts c2 (by simpa [bdry] using hcs)
        show tokenizeAuxF (f + 1) ('<' :: (c2 :: cs2)) = _
        rw [tokenizeAuxF_cons]
        rw [if_neg (by decide), if_neg (by decide), if_neg (by decide),
          if_neg (by decide), if_neg (by decide), if_neg (by decide),
          if_neg (by decide), if_neg (by decide), if_neg (by decide),
          if_neg (by decide), if_neg (by decide), if_neg (by decide),
          if_neg (by decide), if_neg (by decide), if_pos rfl]
        split
        · rename_i heq
          injection heq with h1 h2
          exact absurd h1 hb.2.1
        · rename_i heq
          injection heq with h1 h2
          exact absurd h1 hb.2.2
        · rfl
  · cases cs with
    | nil => rfl
    | cons c2 cs2 =>
        have hb := bdry_head_facts c2 (by simpa [bdry] using hcs)
        show tokenizeAuxF (f + 1) ('>' :: (c2 :: cs2)) = _
        rw [tokenizeAuxF_cons]
        rw [if_neg (by decide), if_neg (by decide), if_neg (by decide),
          if_neg (by decide), if_neg (by decide), if_neg (by decide),
          if_neg (by decide), if_neg (by decide), if_neg (by decide),
          if_neg (by decide), if_neg (by decide), if_neg (by decide),
          if_neg (by decide), if_neg (by decide), if_neg (by decide),
          if_pos rfl]
        split
        · rename_i heq
          injection heq with h1 h2
          exact absurd h1 hb.2.1
        · rfl
  · rfl
  · rfl
  · rfl
  · rfl

/-- One well-formed emitted token is consumed from the head of the
character stream, whatever boundary-safe text follows. -/
theorem tok_step (t : Tok) (ht : rtTok t = true) (cs : List Char) (f : Nat)
    (hcs : bdry cs = true) :
    tokenizeAuxF (f + 1) (tokChars "?" t ++ cs) =
      (tokenizeAuxF f cs).map (fun ts => t :: ts) := by
  rw [rtTok, Bool.and_eq_true] at ht
  cases t with
  | kw s =>
      obtain ⟨c, w, hd, hc, hw, hcl⟩ := kw_word_data s ht.1
      show tokenizeAuxF (f + 1) (s.data ++ cs) = _
      rw [hd, List.cons_append, word_step c w cs f hc hw hcs, hcl]
  | ident s =>
      obtain ⟨c, w, hd, hc, hw, hcl⟩ := ident_word_data s ht.1
      show tokenizeAuxF (f + 1) (s.data ++ cs) = _
      rw [hd, List.cons_append, word_step c w cs f hc hw hcs, hcl]
  | dquoted s => exact dquoted_step s cs f ht.1
  | nullT =>
      show tokenizeAuxF (f + 1) ('N' :: (['U', 'L', 'L'] ++ cs)) = _
      rw [word_step 'N' ['U', 'L', 'L'] cs f (by decide) (by decide) hcs,
        null_word]
  | num s => exact absurd ht.2 (by simp [emitTok])
  | str s => exact absurd ht.2 (by simp [emitTok])
  | boolT b => exact absurd ht.2 (by simp [emitTok])
  | semi => exact absurd ht.2 (by simp [emitTok])
  | star => exact star_step cs f
  | lparen => exact lparen_step cs f
  | rparen => exact rparen_step cs f
  | comma => exact comma_step cs f
  | qmark => exact qmark_step cs f
  | cmpOp s => exact cmpOp_step s cs f ht.1 hcs

/-- A well-formed emitted token renders to at least one character. -/
theorem tokChars_pos (t : Tok) (ht : rtTok t = true) :
    1 ≤ (tokChars "?" t).length := by
  rw [rtTok, Bool.and_eq_true] at ht
  cases t with
  | kw s =>
      obtain ⟨c, w, hd, _, _, _⟩ := kw_word_data s ht.1
      simp [tokChars, hd]
  | ident s =>
      obtain ⟨c, w, hd, _, _, _⟩ := ident_word_data s ht.1
      simp [tokChars, hd]
  | cmpOp s =>
      have hm : s ∈ cmpOps := List.mem_of_elem_eq_true ht.1
      simp only [cmpOps, List.mem_cons, List.not_mem_nil, or_false] at hm
      rcases hm with rfl | rfl | rfl | rfl | rfl | rfl | rfl <;> decide
  | num s => exact absurd ht.2 (by simp [emitTok])
  | str s => exact absurd ht.2 (by simp [emitTok])
  | boolT b => exact absurd ht.2 (by simp [emitTok])
  | semi => exact absurd ht.2 (by simp [emitTok])
  | _ => simp [tokChars]

/-- The rendering of a nonempty token list opens with the first token's
own text. -/
theorem renderChars_cons (t : Tok) (ts : List Tok) :
    ∃ tail, renderChars "?" (t :: ts) = tokChars "?" t ++ tail := by
  cases ts with
  | nil => exact ⟨[], by simp [renderChars]⟩
  | cons t2 r =>
      refine ⟨(if needSep t t2 then [' '] else []) ++ renderChars "?" (t2 :: r),
        ?_⟩
      rw [renderChars, List.append_assoc]

/-- Tokenizing the canonical rendering of well-formed emitted tokens
recovers exactly those tokens, for any fuel beyond the character count. -/
theorem render_tokenize (ts : List Tok) (h : ts.all rtTok = true) :
    ∀ f, (renderChars "?" ts).length < f →
      tokenizeAuxF f (renderChars "?" ts) = .ok ts := by
  induction ts with
  | nil =>
      intro f hf
      obtain ⟨f2, rfl⟩ : ∃ f2, f = f2 + 1 := ⟨f - 1, by omega⟩
      rfl
  | cons t1 rest ih =>
      rw [List.all_cons, Bool.and_eq_true] at h
      cases rest with
      | nil =>
          intro f hf
          rw [renderChars] at hf ⊢
          have hpos := tokChars_pos t1 h.1
          obtain ⟨f2, rfl⟩ : ∃ f2, f = f2 + 1 := ⟨f - 1, by omega⟩
          have hstep := tok_step t1 h.1 [] f2 rfl
          rw [List.append_nil] at hstep
          rw [hstep]
          obtain ⟨f3, rfl⟩ : ∃ f3, f2 = f3 + 1 := ⟨f2 - 1, by omega⟩
          rfl
      | cons t2 rest2 =>
          intro f hf
          have hpos := tokChars_pos t1 h.1
          rw [renderChars] at hf ⊢
          by_cases hsep : needSep t1 t2 = true
          · simp only [hsep, if_true, List.length_append,
              List.length_singleton] at hf ⊢
            obtain ⟨f2, rfl⟩ : ∃ f2, f = f2 + 1 := ⟨f - 1, by omega⟩
            rw [List.append_assoc, List.singleton_append,
              tok_step t1 h.1 (' ' :: renderChars "?" (t2 :: rest2)) f2 rfl]
            obtain ⟨f3, rfl⟩ : ∃ f3, f2 = f3 + 1 := ⟨f2 - 1, by omega⟩
            rw [space_step, ih h.2 f3 (by omega)]
            rfl
          · rw [Bool.not_eq_true] at hsep
            have hns : t1 = Tok.lparen ∨ t2 = Tok.rparen ∨ t2 = Tok.comma := by
              have h0 : ¬t1 = Tok.lparen → ¬t2 = Tok.rparen →
                  t2 = Tok.comma := by
                simpa [needSep, or_assoc] using hsep
              by_cases h1 : t1 = Tok.lparen
              · exact .inl h1
              · by_cases h2 : t2 = Tok.rparen
                · exact .inr (.inl h2)
                · exact .inr (.inr (h0 h1 h2))
            simp only [hsep, Bool.false_eq_true, if_false, List.append_nil,
              List.length_append] at hf ⊢
            obtain ⟨f2, rfl⟩ : ∃ f2, f = f2 + 1 := ⟨f - 1, by omega⟩
            rcases hns with h1 | h2 | h2
            · subst h1
              show tokenizeAuxF (f2 + 1)
                ('(' :: renderChars "?" (t2 :: rest2)) = _
              rw [lparen_step, ih h.2 f2 (by omega)]
              rfl
            · subst h2
              have hbd : bdry (renderChars "?" (Tok.rparen :: rest2)) = true := by
                obtain ⟨tail, htl⟩ := renderChars_cons Tok.rparen rest2
                rw [htl]
                rfl
              rw [tok_step t1 h.1 _ f2 hbd, ih h.2 f2 (by omega)]
              rfl
            · subst h2
              have hbd : bdry (renderChars "?" (Tok.comma :: rest2)) = true := by
                obtain ⟨tail, htl⟩ := renderChars_cons Tok.comma rest2
                rw [htl]
                rfl
              rw [tok_step t1 h.1 _ f2 hbd, ih h.2 f2 (by omega)]
              rfl

/-- The tokenizer entry point inverts the renderer on well-formed
emitted token streams. -/
theorem tokenize_render (ts : List Tok) (h : ts.all rtTok = true) :
    tokenize (render "?" ts) = .ok ts := by
  show tokenizeAuxF ((renderChars "?" ts).length + 1) (renderChars "?" ts) =
    .ok ts
  exact render_tokenize ts h _ (by omega)

/-! ## Idempotence machinery II: the normal form is a fixed point and emits well-formed tokens -/

/-! ## The normal form is a fixed point of the rewrite -/

theorem scrubE_wrapAt (k : Nat) (e : Expr) :
    scrubE (wrapAt k e) = scrubE e := by
  rw [wrapAt]
  split <;> rfl

theorem interp_scrub_interp (sk : SkelExpr) :
    interpE (scrubE (interpE sk)) = interpE sk := by
  induction sk <;> simp [interpE, scrubE, scrubE_wrapAt, *]

theorem collectLits_wrapAt (k : Nat) (e : Expr) :
    collectLits (wrapAt k e) = collectLits e := by
  rw [wrapAt]
  split <;> rfl

theorem collectLits_interp (sk : SkelExpr) :
    collectLits (interpE sk) = [] := by
  induction sk <;> simp [interpE, collectLits, collectLits_wrapAt, *]

theorem dropAsc_idem (d : Option OrdDir) : dropAsc (dropAsc d) = dropAsc d := by
  rcases d with _ | d
  · rfl
  · cases d <;> rfl

theorem scrub_interp_stmt (sk : SkelStmt) :
    interpStmt (scrubStmt (interpStmt sk)) = interpStmt sk := by
  rcases sk with ⟨items, tbl, w, ob, lim⟩
  rcases items with _ | es <;>
    simp [interpStmt, scrubStmt, interpItems, scrubItems, List.map_map,
      Option.map_map, Function.comp_def, interp_scrub_interp, dropAsc_idem]

theorem collectStmtLits_interp (sk : SkelStmt) :
    collectStmtLits (interpStmt sk) = [] := by
  rcases sk with ⟨items, tbl, w, ob, lim⟩
  rcases items with _ | es <;> rcases w with _ | we <;> rcases lim with _ | le <;>
    simp [interpStmt, collectStmtLits, interpItems, collectLits_interp,
      List.flatMap_def, List.map_map, Function.comp_def]

/-- Normalizing a canonical statement changes nothing and extracts no
parameters: the rewrite reaches a fixed point after one pass. -/
theorem normStmt_fixed (a : SelectStmt) :
    normStmt ((normStmt a).1) = ((normStmt a).1, []) := by
  rw [normStmt_spec a]
  rw [normStmt_spec]
  simp [scrub_interp_stmt, collectStmtLits_interp]

/-! ## Normal-form shape predicates (the image of the interpretation) -/

mutual

/-- An expression in canonical (unwrapped) form: the exact image of the
skeleton interpretation at an unconstrained position. -/
def nfE : Expr → Bool
  | .orE a b => nfE a && nfW 1 b
  | .andE a b => nfW 1 a && nfW 2 b
  | .cmp _ a b => nfW 3 a && nfW 3 b
  | .isNull _ a => nfW 4 a
  | .identE _ => true
  | .placeholderE => true
  | .lit _ => false
  | .paren _ => false

/-- An expression in canonical form at a position that requires binding
strength at least k: parenthesized exactly when the head is looser. -/
def nfW : Nat → Expr → Bool
  | k, .paren x => decide (prec x < k) && nfE x
  | k, e => decide (k ≤ prec e) && nfE e

end

theorem interpE_not_paren (sk : SkelExpr) (x : Expr) :
    interpE sk ≠ .paren x := by
  cases sk <;> simp [interpE]

theorem nfE_interp (sk : SkelExpr) : nfE (interpE sk) = true := by
  have hW : ∀ sk2 : SkelExpr, nfE (interpE sk2) = true →
      ∀ k, nfW k (wrapAt k (interpE sk2)) = true := by
    intro sk2 h2 k
    rw [wrapAt]
    split
    · rename_i hp
      rw [nfW]
      simp [hp, h2]
    · rename_i hp
      rw [Nat.not_lt] at hp
      cases hsk : interpE sk2 with
      | paren x => exact absurd hsk (interpE_not_paren sk2 x)
      | _ =>
          rw [hsk] at h2 hp
          simp [nfW, hp, h2]
  induction sk with
  | slit => simp [interpE, nfE]
  | sident s => simp [interpE, nfE]
  | sph => simp [interpE, nfE]
  | sor a b iha ihb => simp [interpE, nfE, iha, hW b ihb 1]
  | sand a b iha ihb => simp [interpE, nfE, hW a iha 1, hW b ihb 2]
  | scmp op a b iha ihb => simp [interpE, nfE, hW a iha 3, hW b ihb 3]
  | snull n a iha => simp [interpE, nfE, hW a iha 4]

/-- The canonical form produced by the expression rewrite. -/
theorem nfE_normE (e : Expr) : nfE (normE e).1 = true := by
  rw [normE_spec]
  exact nfE_interp (scrubE e)

/-- The column list in canonical form: nonempty and itemwise canonical. -/
def itemsNfE : SelItems → Bool
  | .star => true
  | .exprs es => !es.isEmpty && es.all nfE

/-- An optional clause in canonical form. -/
def optNfE : Option Expr → Bool
  | none => true
  | some e => nfE e

/-- The canonical limit: absent or a bare placeholder. -/
def limitNf : Option Expr → Bool
  | none => true
  | some .placeholderE => true
  | some _ => false

/-- Statement-level normal form: every clause is canonical, the column
list is nonempty when present, order directions are explicit only for
DESC, and the limit is a bare placeholder. -/
def nfStmt (st : SelectStmt) : Bool :=
  itemsNfE st.items &&
  optNfE st.whereE &&
  st.orderBy.all (fun i => nfE i.e && !(i.dir = some .asc)) &&
  limitNf st.limit

/-- Expression well-formedness: identifier and operator payloads are
ones the tokenizer can produce. -/
def wfE : Expr → Bool
  | .identE s => wfIdentStr s
  | .cmp op a b => cmpOps.contains op && wfE a && wfE b
  | .orE a b => wfE a && wfE b
  | .andE a b => wfE a && wfE b
  | .isNull _ a => wfE a
  | .paren e => wfE e
  | .lit _ => true
  | .placeholderE => true

/-- The limit shapes the parser can produce. -/
def wfLimit : Option Expr → Bool
  | none => true
  | some (.lit (.num _)) => true
  | some .placeholderE => true
  | some _ => false

/-- The column list with well-formed payloads: nonempty and itemwise
well-formed. -/
def itemsWfE : SelItems → Bool
  | .star => true
  | .exprs es => !es.isEmpty && es.all wfE

/-- A well-formed optional table reference. -/
def tableWf : Option TableRef → Bool
  | none => true
  | some t => if t.quoted then t.name.data.all notDquote else wfIdentStr t.name

/-- An optional clause with well-formed payloads. -/
def optWfE : Option Expr → Bool
  | none => true
  | some e => wfE e

/-- Statement well-formedness as established by the parser: well-formed
token payloads throughout, a nonempty column list, and a simple limit. -/
def wfStmt (st : SelectStmt) : Bool :=
  itemsWfE st.items &&
  tableWf st.fromT &&
  optWfE st.whereE &&
  st.orderBy.all (fun i => wfE i.e) &&
  wfLimit st.limit

theorem dropAsc_ne_asc (d : Option OrdDir) : ¬(dropAsc d = some .asc) := by
  rcases d with _ | d
  · simp [dropAsc]
  · cases d <;> simp [dropAsc]

/-- The rewrite leaves every statement in statement-level normal form. -/
theorem nfStmt_normStmt (a : SelectStmt) (ha : wfStmt a = true) :
    nfStmt (normStmt a).1 = true := by
  rcases a with ⟨items, tbl, w, ob, lim⟩
  rw [normStmt_spec]
  rw [wfStmt] at ha
  simp only [Bool.and_eq_true] at ha
  obtain ⟨⟨⟨⟨hitems, htbl⟩, hw⟩, hob⟩, hlim⟩ := ha
  rw [nfStmt]
  simp only [Bool.and_eq_true]
  refine ⟨⟨⟨?_, ?_⟩, ?_⟩, ?_⟩
  · rcases items with _ | es
    · simp [interpStmt, scrubStmt, interpItems, scrubItems, itemsNfE]
    · rcases es with _ | ⟨e0, es2⟩
      · simp [itemsWfE] at hitems
      · simp [interpStmt, scrubStmt, interpItems, scrubItems, itemsNfE,
          List.map_map, Function.comp_def, nfE_interp, List.all_eq_true]
  · rcases w with _ | we <;>
      simp [interpStmt, scrubStmt, optNfE, nfE_interp]
  · simp [interpStmt, scrubStmt, List.map_map, Function.comp_def,
      List.all_eq_true, nfE_interp, dropAsc_ne_asc]
  · rcases lim with _ | le
    · simp [interpStmt, scrubStmt, limitNf]
    ·       cases le with
      | lit l =>
          cases l with
          | num s2 =>
              simp [interpStmt, scrubStmt, scrubE, interpE, wfLimit, limitNf]
          | str s2 => simp [wfLimit] at hlim
          | boolL b2 => simp [wfLimit] at hlim
          | nullL => simp [wfLimit] at hlim
      | placeholderE =>
          simp [interpStmt, scrubStmt, scrubE, interpE, wfLimit, limitNf]
      | identE s2 => simp [wfLimit] at hlim
      | orE a2 b2 => simp [wfLimit] at hlim
      | andE a2 b2 => simp [wfLimit] at hlim
      | cmp op2 a2 b2 => simp [wfLimit] at hlim
      | isNull n2 a2 => simp [wfLimit] at hlim
      | paren e2 => simp [wfLimit] at hlim

theorem wfE_wrapAt (k : Nat) (e : Expr) : wfE (wrapAt k e) = wfE e := by
  rw [wrapAt]
  split <;> simp [wfE]

theorem wfE_interp_scrub (e : Expr) (h : wfE e = true) :
    wfE (interpE (scrubE e)) = true := by
  induction e with
  | lit l => simp [scrubE, interpE, wfE]
  | identE s => simpa [scrubE, interpE, wfE] using h
  | placeholderE => simp [scrubE, interpE, wfE]
  | orE a b iha ihb =>
      rw [wfE, Bool.and_eq_true] at h
      simp [scrubE, interpE, wfE, wfE_wrapAt, iha h.1, ihb h.2]
  | andE a b iha ihb =>
      rw [wfE, Bool.and_eq_true] at h
      simp [scrubE, interpE, wfE, wfE_wrapAt, iha h.1, ihb h.2]
  | cmp op a b iha ihb =>
      rw [wfE, Bool.and_eq_true, Bool.and_eq_true] at h
      simp [scrubE, interpE, wfE, wfE_wrapAt, iha h.1.2, ihb h.2]
      exact List.mem_of_elem_eq_true h.1.1
  | isNull n a iha =>
      rw [wfE] at h
      simp [scrubE, interpE, wfE, wfE_wrapAt, iha h]
  | paren e ihe =>
      rw [wfE] at h
      simpa [scrubE, interpE, wfE] using ihe h

/-- The rewrite preserves statement well-formedness. -/
theorem wfStmt_normStmt (a : SelectStmt) (ha : wfStmt a = true) :
    wfStmt (normStmt a).1 = true := by
  rcases a with ⟨items, tbl, w, ob, lim⟩
  rw [normStmt_spec]
  rw [wfStmt] at ha
  simp only [Bool.and_eq_true] at ha
  obtain ⟨⟨⟨⟨hitems, htbl⟩, hw⟩, hob⟩, hlim⟩ := ha
  rw [wfStmt]
  simp only [Bool.and_eq_true]
  refine ⟨⟨⟨⟨?_, ?_⟩, ?_⟩, ?_⟩, ?_⟩
  · rcases items with _ | es
    · simp [interpStmt, scrubStmt, interpItems, scrubItems, itemsWfE]
    · simp only [itemsWfE, Bool.and_eq_true, List.all_eq_true] at hitems
      rcases es with _ | ⟨e0, es2⟩
      · simp at hitems
      · simp [interpStmt, scrubStmt, interpItems, scrubItems, itemsWfE,
          List.map_map, Function.comp_def, List.all_eq_true]
        exact ⟨wfE_interp_scrub e0 (hitems.2 e0 (by simp)),
          fun x hx => wfE_interp_scrub x (hitems.2 x (by simp [hx]))⟩
  · simpa [interpStmt, scrubStmt] using htbl
  · rcases w with _ | we
    · simp [interpStmt, scrubStmt, optWfE]
    · simpa [interpStmt, scrubStmt, optWfE] using
        wfE_interp_scrub we (by simpa [optWfE] using hw)
  · simp only [List.all_eq_true] at hob
    simp [interpStmt, scrubStmt, List.map_map, Function.comp_def,
      List.all_eq_true]
    intro i hi
    exact wfE_interp_scrub i.e (hob i hi)
  · rcases lim with _ | le
    · simp [interpStmt, scrubStmt, wfLimit]
    ·       cases le with
      | lit l =>
          cases l with
          | num s2 =>
              simp [interpStmt, scrubStmt, scrubE, interpE, wfLimit, limitNf]
          | str s2 => simp [wfLimit] at hlim
          | boolL b2 => simp [wfLimit] at hlim
          | nullL => simp [wfLimit] at hlim
      | placeholderE =>
          simp [interpStmt, scrubStmt, scrubE, interpE, wfLimit, limitNf]
      | identE s2 => simp [wfLimit] at hlim
      | orE a2 b2 => simp [wfLimit] at hlim
      | andE a2 b2 => simp [wfLimit] at hlim
      | cmp op2 a2 b2 => simp [wfLimit] at hlim
      | isNull n2 a2 => simp [wfLimit] at hlim
      | paren e2 => simp [wfLimit] at hlim

/-! ## The emitted canonical token stream is well-formed -/

theorem nfW_elim (k : Nat) (e : Expr) (h : nfW k e = true) :
    nfE e = true ∨ ∃ x, e = .paren x ∧ nfE x = true := by
  cases e <;> simp [nfW] at h <;> simp [h]

theorem emitE_rt (e : Expr) (hwf : wfE e = true)
    (hnf : nfE e = true ∨ ∃ x, e = .paren x ∧ nfE x = true) :
    (emitE e).all rtTok = true := by
  induction e with
  | lit l =>
      rcases hnf with h | ⟨x, hx, _⟩
      · simp [nfE] at h
      · exact absurd hx (by simp)
  | identE s =>
      simp [emitE, rtTok, wfTok, emitTok]
      exact hwf
  | placeholderE => simp [emitE, rtTok, wfTok, emitTok]
  | orE a b iha ihb =>
      rcases hnf with h | ⟨x, hx, _⟩
      · rw [nfE, Bool.and_eq_true] at h
        rw [wfE, Bool.and_eq_true] at hwf
        simp only [emitE, List.all_append, List.all_cons, Bool.and_eq_true]
        exact ⟨iha hwf.1 (.inl h.1), by decide,
          ihb hwf.2 (by simpa using nfW_elim 1 b h.2)⟩
      · exact absurd hx (by simp)
  | andE a b iha ihb =>
      rcases hnf with h | ⟨x, hx, _⟩
      · rw [nfE, Bool.and_eq_true] at h
        rw [wfE, Bool.and_eq_true] at hwf
        simp only [emitE, List.all_append, List.all_cons, Bool.and_eq_true]
        exact ⟨iha hwf.1 (by simpa using nfW_elim 1 a h.1), by decide,
          ihb hwf.2 (by simpa using nfW_elim 2 b h.2)⟩
      · exact absurd hx (by simp)
  | cmp op a b iha ihb =>
      rcases hnf with h | ⟨x, hx, _⟩
      · rw [nfE, Bool.and_eq_true] at h
        rw [wfE, Bool.and_eq_true, Bool.and_eq_true] at hwf
        simp only [emitE, List.all_append, List.all_cons, Bool.and_eq_true]
        refine ⟨iha hwf.1.2 (by simpa using nfW_elim 3 a h.1), ?_,
          ihb hwf.2 (by simpa using nfW_elim 3 b h.2)⟩
        simp [rtTok, wfTok, emitTok]
        exact List.mem_of_elem_eq_true hwf.1.1
      · exact absurd hx (by simp)
  | isNull n a iha =>
      rcases hnf with h | ⟨x, hx, _⟩
      · rw [nfE] at h
        rw [wfE] at hwf
        cases n <;>
          simp only [emitE, List.all_append, List.all_cons, List.all_nil,
            Bool.and_eq_true, if_true, if_false] <;>
          refine ⟨iha hwf (by simpa using nfW_elim 4 a h), ?_⟩ <;> decide
      · exact absurd hx (by simp)
  | paren x ihx =>
      rcases hnf with h | ⟨x2, hx2, hnx⟩
      · simp [nfE] at h
      · obtain rfl : x2 = x := by injection hx2 with he; exact he.symm
        rw [wfE] at hwf
        simp only [emitE, List.all_append, List.all_cons, List.all_nil,
          Bool.and_eq_true]
        exact ⟨⟨by decide, ihx hwf (.inl hnx)⟩, by decide⟩

theorem sepByComma_all (p : Tok → Bool) (hc : p Tok.comma = true)
    (ls : List (List Tok)) (h : ∀ x ∈ ls, x.all p = true) :
    (sepByComma ls).all p = true := by
  induction ls with
  | nil => rfl
  | cons x ls ih =>
      cases ls with
      | nil => simpa [sepByComma] using h x (by simp)
      | cons y ls2 =>
          rw [sepByComma]
          simp only [List.all_append, List.all_cons, Bool.and_eq_true]
          exact ⟨h x (by simp), hc,
            by simpa using ih (fun z hz => h z (by simp [hz]))⟩

/-- The canonical token stream of a well-formed normal-form statement
consists of well-formed emitted tokens only. -/
theorem emitStmt_rt (st : SelectStmt) (hwf : wfStmt st = true)
    (hnf : nfStmt st = true) :
    (emitStmt st).all rtTok = true := by
  rcases st with ⟨items, tbl, w, ob, lim⟩
  rw [wfStmt] at hwf
  rw [nfStmt] at hnf
  simp only [Bool.and_eq_true] at hwf hnf
  obtain ⟨⟨⟨⟨hitems, htbl⟩, hw⟩, hob⟩, hlim⟩ := hwf
  obtain ⟨⟨⟨hnitems, hnw⟩, hnob⟩, hnlim⟩ := hnf
  rw [emitStmt]
  simp only [List.all_cons, List.all_append, Bool.and_eq_true]
  refine ⟨⟨⟨⟨⟨by decide, ?_⟩, ?_⟩, ?_⟩, ?_⟩, ?_⟩
  · rcases items with _ | es
    · decide
    · simp only [itemsWfE, itemsNfE, Bool.and_eq_true, List.all_eq_true]
        at hitems hnitems
      refine sepByComma_all rtTok (by decide) _ ?_
      intro x hx
      simp only [List.mem_map] at hx
      obtain ⟨e, he, rfl⟩ := hx
      exact emitE_rt e (hitems.2 e he) (.inl (hnitems.2 e he))
  · rcases tbl with _ | t
    · rfl
    · rcases ht : t.quoted with _ | _
      all_goals
        have htbl2 : (if t.quoted = true then t.name.data.all notDquote
            else wfIdentStr t.name) = true := htbl
        rw [ht] at htbl2
        simp only [Bool.false_eq_true, if_true, if_false] at htbl2
        simp only [ht, Bool.false_eq_true, if_true, if_false]
        simp [rtTok, wfTok, emitTok]
        first
          | (refine ⟨by decide, ?_⟩
             simpa using htbl2)
          | simpa using htbl2
  · rcases w with _ | we
    · rfl
    · simp only [List.all_cons, Bool.and_eq_true]
      exact ⟨by decide, emitE_rt we (by simpa [optWfE] using hw)
        (.inl (by simpa [optNfE] using hnw))⟩
  · rcases ob with _ | ⟨i, obr⟩
    · rfl
    · simp only [List.all_cons, Bool.and_eq_true]
      refine ⟨by decide, by decide, ?_⟩
      refine sepByComma_all rtTok (by decide) _ ?_
      intro x hx
      simp only [List.mem_map] at hx
      obtain ⟨it, hit, rfl⟩ := hx
      simp only [List.all_eq_true] at hob hnob
      have h1 := hob it hit
      have h2 := hnob it hit
      rw [Bool.and_eq_true] at h2
      rw [emitOrderItem]
      simp only [List.all_append, Bool.and_eq_true]
      refine ⟨emitE_rt it.e h1 (.inl h2.1), ?_⟩
      rcases it.dir with _ | d
      · rfl
      · cases d <;> decide
  · rcases lim with _ | le
    · rfl
    · cases le with
      | placeholderE => decide
      | _ => simp [limitNf] at hnlim

/-! ## Idempotence machinery III: the parser produces well-formed statements -/

/-! ## Well-formedness of tokenizer output -/

theorem bind_ok_ex {α β : Type} {m : Except String α} {k : α → Except String β}
    {v : β} (h : (m >>= k) = .ok v) : ∃ a, m = .ok a ∧ k a = .ok v := by
  cases m with
  | error e =>
      rw [show ((Except.error e : Except String α) >>= k) =
        .error e from rfl] at h
      exact absurd h (by simp)
  | ok a => exact ⟨a, rfl, h⟩

theorem map_cons_ok {t : Tok} {r : Except String (List Tok)} {ts : List Tok}
    (h : r.map (t :: ·) = .ok ts) : ∃ ts0, r = .ok ts0 ∧ ts = t :: ts0 := by
  cases r with
  | error e => simp [Except.map] at h
  | ok v =>
      simp only [Except.map, Except.ok.injEq] at h
      exact ⟨v, rfl, h.symm⟩

theorem all_takeWhileP (p : Char → Bool) (l : List Char) :
    (l.takeWhile p).all p = true := by
  induction l with
  | nil => rfl
  | cons c l ih =>
      rw [List.takeWhile_cons]
      split
      · simpa [List.all_cons, *]
      · rfl

theorem wfTok_classifyWord (c : Char) (w : List Char)
    (hc : isIdentStart c = true) (hw : w.all isIdentChar = true) :
    wfTok (classifyWord (c :: w)) = true := by
  rw [classifyWord]
  split
  · rfl
  · split
    · rfl
    · split
      · rfl
      · split
        · rename_i h4
          rw [wfTok]
          exact h4
        · rename_i h1 h2 h3 h4
          rw [wfTok, wfIdentStr]
          simp only [Bool.and_eq_true, Bool.not_eq_true']
          refine ⟨⟨hc, hw⟩, ?_⟩
          rw [isKwWord]
          simp only [Bool.or_eq_false_iff, decide_eq_false_iff_not]
          refine ⟨⟨⟨h1, h2⟩, h3⟩, ?_⟩
          rcases hcb : kwStrings.contains ⟨(c :: w).map asciiUpperChar⟩ with _ | _
          · rfl
          · exact absurd hcb h4

/-- Every token the tokenizer produces carries a well-formed payload. -/
theorem tokenize_wf (f : Nat) : ∀ cs ts, tokenizeAuxF f cs = .ok ts →
    ts.all wfTok = true := by
  induction f with
  | zero =>
      intro cs ts h
      exact absurd
        (show Except.error "sql parser error: internal lexer limit" =
          Except.ok ts from h) (by simp)
  | succ f ih =>
      intro cs ts h
      cases cs with
      | nil =>
          obtain rfl : ts = [] := by
            have h2 : Except.ok ([] : List Tok) = .ok ts := h
            exact (Except.ok.inj h2).symm
          rfl
      | cons c cs2 =>
          rw [tokenizeAuxF_cons] at h
          by_cases h1 : isSpaceC c = true
          case pos =>
            rw [if_pos h1] at h
            exact ih _ _ h
          rw [if_neg h1] at h
          by_cases h2 : c = '-'
          case pos =>
            rw [if_pos h2] at h
            split at h
            · exact ih _ _ h
            · exact absurd h (by simp)
          rw [if_neg h2] at h
          by_cases h3 : c = '/'
          case pos =>
            rw [if_pos h3] at h
            split at h
            · split at h
              · exact ih _ _ h
              · exact absurd h (by simp)
            · exact absurd h (by simp)
          rw [if_neg h3] at h
          by_cases h4 : c = squote
          case pos =>
            rw [if_pos h4] at h
            split at h
            · obtain ⟨ts0, hr, rfl⟩ := map_cons_ok h
              simp [List.all_cons, ih _ _ hr, wfTok]
            · exact absurd h (by simp)
          rw [if_neg h4] at h
          by_cases h5 : c = '"'
          case pos =>
            rw [if_pos h5] at h
            split at h
            · obtain ⟨ts0, hr, rfl⟩ := map_cons_ok h
              simp only [List.all_cons, Bool.and_eq_true]
              exact ⟨by simp [wfTok, all_takeWhileP], ih _ _ hr⟩
            · exact absurd h (by simp)
          rw [if_neg h5] at h
          by_cases h6 : isDigitC c = true
          case pos =>
            rw [if_pos h6] at h
            obtain ⟨ts0, hr, rfl⟩ := map_cons_ok h
            simp [List.all_cons, ih _ _ hr, wfTok]
          rw [if_neg h6] at h
          by_cases h7 : isIdentStart c = true
          case pos =>
            rw [if_pos h7] at h
            obtain ⟨ts0, hr, rfl⟩ := map_cons_ok h
            simp only [List.all_cons, Bool.and_eq_true]
            exact ⟨wfTok_classifyWord c _ h7 (all_takeWhileP _ _), ih _ _ hr⟩
          rw [if_neg h7] at h
          by_cases h8 : c = '('
          case pos =>
            rw [if_pos h8] at h
            obtain ⟨ts0, hr, rfl⟩ := map_cons_ok h
            simp [List.all_cons, ih _ _ hr, wfTok]
          rw [if_neg h8] at h
          by_cases h9 : c = ')'
          case pos =>
            rw [if_pos h9] at h
            obtain ⟨ts0, hr, rfl⟩ := map_cons_ok h
            simp [List.all_cons, ih _ _ hr, wfTok]
          rw [if_neg h9] at h
          by_cases h10 : c = ','
          case pos =>
            rw [if_pos h10] at h
            obtain ⟨ts0, hr, rfl⟩ := map_cons_ok h
            simp [List.all_cons, ih _ _ hr, wfTok]
          rw [if_neg h10] at h
          by_cases h11 : c = ';'
          case pos =>
            rw [if_pos h11] at h
            obtain ⟨ts0, hr, rfl⟩ := map_cons_ok h
            simp [List.all_cons, ih _ _ hr, wfTok]
          rw [if_neg h11] at h
          by_cases h12 : c = '*'
          case pos =>
            rw [if_pos h12] at h
            obtain ⟨ts0, hr, rfl⟩ := map_cons_ok h
            simp [List.all_cons, ih _ _ hr, wfTok]
          rw [if_neg h12] at h
          by_cases h13 : c = '?'
          case pos =>
            rw [if_pos h13] at h
            obtain ⟨ts0, hr, rfl⟩ := map_cons_ok h
            simp [List.all_cons, ih _ _ hr, wfTok]
          rw [if_neg h13] at h
          by_cases h14 : c = '='
          case pos =>
            rw [if_pos h14] at h
            obtain ⟨ts0, hr, rfl⟩ := map_cons_ok h
            simp [List.all_cons, ih _ _ hr, wfTok, cmpOps]
          rw [if_neg h14] at h
          by_cases h15 : c = '<'
          case pos =>
            rw [if_pos h15] at h
            split at h <;>
              (obtain ⟨ts0, hr, rfl⟩ := map_cons_ok h
               simp [List.all_cons, ih _ _ hr, wfTok, cmpOps])
          rw [if_neg h15] at h
          by_cases h16 : c = '>'
          case pos =>
            rw [if_pos h16] at h
            split at h <;>
              (obtain ⟨ts0, hr, rfl⟩ := map_cons_ok h
               simp [List.all_cons, ih _ _ hr, wfTok, cmpOps])
          rw [if_neg h16] at h
          by_cases h17 : c = '!'
          case pos =>
            rw [if_pos h17] at h
            split at h
            · obtain ⟨ts0, hr, rfl⟩ := map_cons_ok h
              simp [List.all_cons, ih _ _ hr, wfTok, cmpOps]
            · exact absurd h (by simp)
          rw [if_neg h17] at h
          exact absurd h (by simp)

/-! ## Single-step unfoldings of the fuel-structural parsers -/

theorem parseOr_succ (f : Nat) (ts : List Tok) :
    parseOr (f + 1) ts = (do
      let (a, ts1) ← parseAnd f ts
      parseOrRest f a ts1) := rfl

theorem parseOrRest_succ (f : Nat) (acc : Expr) (ts : List Tok) :
    parseOrRest (f + 1) acc ts =
      (match ts with
      | .kw "OR" :: ts2 => do
          let (b, ts3) ← parseAnd f ts2
          parseOrRest f (.orE acc b) ts3
      | _ => .ok (acc, ts)) := rfl

theorem parseAnd_succ (f : Nat) (ts : List Tok) :
    parseAnd (f + 1) ts = (do
      let (a, ts1) ← parseCmp f ts
      parseAndRest f a ts1) := rfl

theorem parseAndRest_succ (f : Nat) (acc : Expr) (ts : List Tok) :
    parseAndRest (f + 1) acc ts =
      (match ts with
      | .kw "AND" :: ts2 => do
          let (b, ts3) ← parseCmp f ts2
          parseAndRest f (.andE acc b) ts3
      | _ => .ok (acc, ts)) := rfl

theorem parseCmp_succ (f : Nat) (ts : List Tok) :
    parseCmp (f + 1) ts = (do
      let (a, ts1) ← parseIs f ts
      match ts1 with
      | .cmpOp op :: ts2 => do
          let (b, ts3) ← parseIs f ts2
          .ok (.cmp op a b, ts3)
      | _ => .ok (a, ts1)) := rfl

theorem parseIs_succ (f : Nat) (ts : List Tok) :
    parseIs (f + 1) ts = (do
      let (a, ts1) ← parseAtom f ts
      match ts1 with
      | .kw "IS" :: .kw "NOT" :: .nullT :: r => .ok (.isNull true a, r)
      | .kw "IS" :: .nullT :: r => .ok (.isNull false a, r)
      | .kw "IS" :: _ => .error "sql parser error: Expected: NULL after IS"
      | _ => .ok (a, ts1)) := rfl

theorem parseAtom_succ (f : Nat) (ts : List Tok) :
    parseAtom (f + 1) ts =
      (match ts with
      | .num s :: r => .ok (.lit (.num s), r)
      | .str s :: r => .ok (.lit (.str s), r)
      | .dquoted s :: r => .ok (.lit (.str s), r)
      | .boolT b :: r => .ok (.lit (.boolL b), r)
      | .nullT :: r => .ok (.lit .nullL, r)
      | .qmark :: r => .ok (.placeholderE, r)
      | .ident s :: r => .ok (.identE s, r)
      | .lparen :: r => do
          let (e, r1) ← parseOr f r
          match r1 with
          | .rparen :: r2 => .ok (.paren e, r2)
          | _ => .error "sql parser error: Expected: closing parenthesis"
      | _ => .error "sql parser error: Expected: an expression") := rfl

/-! ## Well-formedness of parser output -/

theorem parse_wf (f : Nat) :
    (∀ ts e ts2, parseOr f ts = .ok (e, ts2) → ts.all wfTok = true →
      wfE e = true ∧ ts2.all wfTok = true) ∧
    (∀ acc ts e ts2, parseOrRest f acc ts = .ok (e, ts2) → wfE acc = true →
      ts.all wfTok = true → wfE e = true ∧ ts2.all wfTok = true) ∧
    (∀ ts e ts2, parseAnd f ts = .ok (e, ts2) → ts.all wfTok = true →
      wfE e = true ∧ ts2.all wfTok = true) ∧
    (∀ acc ts e ts2, parseAndRest f acc ts = .ok (e, ts2) → wfE acc = true →
      ts.all wfTok = true → wfE e = true ∧ ts2.all wfTok = true) ∧
    (∀ ts e ts2, parseCmp f ts = .ok (e, ts2) → ts.all wfTok = true →
      wfE e = true ∧ ts2.all wfTok = true) ∧
    (∀ ts e ts2, parseIs f ts = .ok (e, ts2) → ts.all wfTok = true →
      wfE e = true ∧ ts2.all wfTok = true) ∧
    (∀ ts e ts2, parseAtom f ts = .ok (e, ts2) → ts.all wfTok = true →
      wfE e = true ∧ ts2.all wfTok = true) := by
  induction f with
  | zero =>
      exact ⟨fun ts e ts2 h _ => absurd h (by rw [parseOr]; simp),
        fun acc ts e ts2 h _ _ => absurd h (by rw [parseOrRest]; simp),
        fun ts e ts2 h _ => absurd h (by rw [parseAnd]; simp),
        fun acc ts e ts2 h _ _ => absurd h (by rw [parseAndRest]; simp),
        fun ts e ts2 h _ => absurd h (by rw [parseCmp]; simp),
        fun ts e ts2 h _ => absurd h (by rw [parseIs]; simp),
        fun ts e ts2 h _ => absurd h (by rw [parseAtom]; simp)⟩
  | succ f ih =>
      obtain ⟨ihOr, ihOrR, ihAnd, ihAndR, ihCmp, ihIs, ihAtom⟩ := ih
      refine ⟨?_, ?_, ?_, ?_, ?_, ?_, ?_⟩
      · -- parseOr
        intro ts e ts2 h hts
        rw [parseOr_succ] at h
        obtain ⟨⟨a, ts1⟩, h1, h2⟩ := bind_ok_ex h
        obtain ⟨ha, hts1⟩ := ihAnd _ _ _ h1 hts
        exact ihOrR _ _ _ _ h2 ha hts1
      · -- parseOrRest
        intro acc ts e ts2 h hacc hts
        rw [parseOrRest_succ] at h
        split at h
        · rename_i ts2a
          rw [List.all_cons, Bool.and_eq_true] at hts
          obtain ⟨⟨b, ts3⟩, h1, h2⟩ := bind_ok_ex h
          obtain ⟨hb, hts3⟩ := ihAnd _ _ _ h1 hts.2
          exact ihOrR _ _ _ _ h2 (by simp [wfE, hacc, hb]) hts3
        · simp only [Except.ok.injEq, Prod.mk.injEq] at h
          obtain ⟨rfl, rfl⟩ := h
          exact ⟨hacc, hts⟩
      · -- parseAnd
        intro ts e ts2 h hts
        rw [parseAnd_succ] at h
        obtain ⟨⟨a, ts1⟩, h1, h2⟩ := bind_ok_ex h
        obtain ⟨ha, hts1⟩ := ihCmp _ _ _ h1 hts
        exact ihAndR _ _ _ _ h2 ha hts1
      · -- parseAndRest
        intro acc ts e ts2 h hacc hts
        rw [parseAndRest_succ] at h
        split at h
        · rename_i ts2a
          rw [List.all_cons, Bool.and_eq_true] at hts
          obtain ⟨⟨b, ts3⟩, h1, h2⟩ := bind_ok_ex h
          obtain ⟨hb, hts3⟩ := ihCmp _ _ _ h1 hts.2
          exact ihAndR _ _ _ _ h2 (by simp [wfE, hacc, hb]) hts3
        · simp only [Except.ok.injEq, Prod.mk.injEq] at h
          obtain ⟨rfl, rfl⟩ := h
          exact ⟨hacc, hts⟩
      · -- parseCmp
        intro ts e ts2 h hts
        rw [parseCmp_succ] at h
        obtain ⟨⟨a, ts1⟩, h1, h2⟩ := bind_ok_ex h
        obtain ⟨ha, hts1⟩ := ihIs _ _ _ h1 hts
        have h2b : (match ts1 with
            | Tok.cmpOp op :: ts2b => do
                let (b, ts3) ← parseIs f ts2b
                Except.ok (Expr.cmp op a b, ts3)
            | _ => Except.ok (a, ts1)) = Except.ok (e, ts2) := h2
        clear h2
        split at h2b
        · rename_i op ts2a
          rw [List.all_cons, Bool.and_eq_true] at hts1
          obtain ⟨⟨b, ts3⟩, h3, h4⟩ := bind_ok_ex h2b
          obtain ⟨hb, hts3⟩ := ihIs _ _ _ h3 hts1.2
          simp only [Except.ok.injEq, Prod.mk.injEq] at h4
          obtain ⟨rfl, rfl⟩ := h4
          refine ⟨?_, hts3⟩
          rw [wfE]
          simp only [Bool.and_eq_true]
          exact ⟨⟨by simpa [wfTok] using hts1.1, ha⟩, hb⟩
        · simp only [Except.ok.injEq, Prod.mk.injEq] at h2b
          obtain ⟨rfl, rfl⟩ := h2b
          exact ⟨ha, hts1⟩
      · -- parseIs
        intro ts e ts2 h hts
        rw [parseIs_succ] at h
        obtain ⟨⟨a, ts1⟩, h1, h2⟩ := bind_ok_ex h
        obtain ⟨ha, hts1⟩ := ihAtom _ _ _ h1 hts
        have h2b : (match ts1 with
            | Tok.kw "IS" :: Tok.kw "NOT" :: Tok.nullT :: r =>
                Except.ok (Expr.isNull true a, r)
            | Tok.kw "IS" :: Tok.nullT :: r =>
                Except.ok (Expr.isNull false a, r)
            | Tok.kw "IS" :: x =>
                Except.error "sql parser error: Expected: NULL after IS"
            | x => Except.ok (a, ts1)) = Except.ok (e, ts2) := h2
        clear h2
        split at h2b
        · rename_i r
          simp only [Except.ok.injEq, Prod.mk.injEq] at h2b
          obtain ⟨rfl, rfl⟩ := h2b
          rw [List.all_cons, List.all_cons, List.all_cons] at hts1
          simp only [Bool.and_eq_true] at hts1
          exact ⟨by simp [wfE, ha], hts1.2.2.2⟩
        · rename_i r
          simp only [Except.ok.injEq, Prod.mk.injEq] at h2b
          obtain ⟨rfl, rfl⟩ := h2b
          rw [List.all_cons, List.all_cons] at hts1
          simp only [Bool.and_eq_true] at hts1
          exact ⟨by simp [wfE, ha], hts1.2.2⟩
        · exact absurd h2b (by simp)
        · simp only [Except.ok.injEq, Prod.mk.injEq] at h2b
          obtain ⟨rfl, rfl⟩ := h2b
          exact ⟨ha, hts1⟩
      · -- parseAtom
        intro ts e ts2 h hts
        rw [parseAtom_succ] at h
        split at h
        · simp only [Except.ok.injEq, Prod.mk.injEq] at h
          obtain ⟨rfl, rfl⟩ := h
          rw [List.all_cons, Bool.and_eq_true] at hts
          exact ⟨by simp [wfE], hts.2⟩
        · simp only [Except.ok.injEq, Prod.mk.injEq] at h
          obtain ⟨rfl, rfl⟩ := h
          rw [List.all_cons, Bool.and_eq_true] at hts
          exact ⟨by simp [wfE], hts.2⟩
        · simp only [Except.ok.injEq, Prod.mk.injEq] at h
          obtain ⟨rfl, rfl⟩ := h
          rw [List.all_cons, Bool.and_eq_true] at hts
          exact ⟨by simp [wfE], hts.2⟩
        · simp only [Except.ok.injEq, Prod.mk.injEq] at h
          obtain ⟨rfl, rfl⟩ := h
          rw [List.all_cons, Bool.and_eq_true] at hts
          exact ⟨by simp [wfE], hts.2⟩
        · simp only [Except.ok.injEq, Prod.mk.injEq] at h
          obtain ⟨rfl, rfl⟩ := h
          rw [List.all_cons, Bool.and_eq_true] at hts
          exact ⟨by simp [wfE], hts.2⟩
        · simp only [Except.ok.injEq, Prod.mk.injEq] at h
          obtain ⟨rfl, rfl⟩ := h
          rw [List.all_cons, Bool.and_eq_true] at hts
          exact ⟨by simp [wfE], hts.2⟩
        · rename_i s r
          simp only [Except.ok.injEq, Prod.mk.injEq] at h
          obtain ⟨rfl, rfl⟩ := h
          rw [List.all_cons, Bool.and_eq_true] at hts
          exact ⟨by simpa [wfE, wfTok] using hts.1, hts.2⟩
        · rename_i r
          rw [List.all_cons, Bool.and_eq_true] at hts
          obtain ⟨⟨e0, r1⟩, h1, h2⟩ := bind_ok_ex h
          obtain ⟨he0, hr1⟩ := ihOr _ _ _ h1 hts.2
          have h2b : (match r1 with
              | Tok.rparen :: r2 => Except.ok (Expr.paren e0, r2)
              | x => Except.error
                  "sql parser error: Expected: closing parenthesis") =
              Except.ok (e, ts2) := h2
          clear h2
          split at h2b
          · rename_i r2
            simp only [Except.ok.injEq, Prod.mk.injEq] at h2b
            obtain ⟨rfl, rfl⟩ := h2b
            rw [List.all_cons, Bool.and_eq_true] at hr1
            exact ⟨by simp [wfE, he0], hr1.2⟩
          · exact absurd h2b (by simp)
        · exact absurd h (by simp)

theorem parseSelList_succ (f : Nat) (ts : List Tok) :
    parseSelList (f + 1) ts = (do
      let (e, ts1) ← parseOr f ts
      match ts1 with
      | .comma :: ts2 => do
          let (es, ts3) ← parseSelList f ts2
          .ok (e :: es, ts3)
      | _ => .ok ([e], ts1)) := rfl

theorem parseOrderItems_succ (f : Nat) (ts : List Tok) :
    parseOrderItems (f + 1) ts = (do
      let (e, ts1) ← parseOr f ts
      let (dir, ts2) :=
        match ts1 with
        | .kw "ASC" :: r => (some OrdDir.asc, r)
        | .kw "DESC" :: r => (some OrdDir.desc, r)
        | _ => ((none : Option OrdDir), ts1)
      match ts2 with
      | .comma :: ts3 => do
          let (more, ts4) ← parseOrderItems f ts3
          .ok (⟨e, dir⟩ :: more, ts4)
      | _ => .ok ([⟨e, dir⟩], ts2)) := rfl

theorem parseSelList_wf (f : Nat) : ∀ ts es ts2,
    parseSelList f ts = .ok (es, ts2) → ts.all wfTok = true →
    es ≠ [] ∧ es.all wfE = true ∧ ts2.all wfTok = true := by
  induction f with
  | zero =>
      intro ts es ts2 h
      exact absurd h (by rw [parseSelList]; simp)
  | succ f ih =>
      intro ts es ts2 h hts
      rw [parseSelList_succ] at h
      obtain ⟨⟨e, ts1⟩, h1, h2⟩ := bind_ok_ex h
      obtain ⟨he, hts1⟩ := (parse_wf f).1 _ _ _ h1 hts
      have h2b : (match ts1 with
          | Tok.comma :: ts2b => do
              let (es2, ts3) ← parseSelList f ts2b
              Except.ok (e :: es2, ts3)
          | x => Except.ok ([e], ts1)) = Except.ok (es, ts2) := h2
      clear h2
      split at h2b
      · rename_i ts2b
        rw [List.all_cons, Bool.and_eq_true] at hts1
        obtain ⟨⟨es2, ts3⟩, h3, h4⟩ := bind_ok_ex h2b
        obtain ⟨hne, hes2, hts3⟩ := ih _ _ _ h3 hts1.2
        simp only [Except.ok.injEq, Prod.mk.injEq] at h4
        obtain ⟨rfl, rfl⟩ := h4
        exact ⟨by simp, by simp [List.all_cons, he, hes2], hts3⟩
      · simp only [Except.ok.injEq, Prod.mk.injEq] at h2b
        obtain ⟨rfl, rfl⟩ := h2b
        exact ⟨by simp, by simp [he], hts1⟩

theorem parseOrderItems_wf (f : Nat) : ∀ ts items ts2,
    parseOrderItems f ts = .ok (items, ts2) → ts.all wfTok = true →
    (items.all fun i => wfE i.e) = true ∧ ts2.all wfTok = true := by
  induction f with
  | zero =>
      intro ts items ts2 h
      exact absurd h (by rw [parseOrderItems]; simp)
  | succ f ih =>
      intro ts items ts2 h hts
      rw [parseOrderItems_succ] at h
      obtain ⟨⟨e, ts1⟩, h1, h2⟩ := bind_ok_ex h
      obtain ⟨he, hts1⟩ := (parse_wf f).1 _ _ _ h1 hts
      have h2b : (match (match ts1 with
          | Tok.kw "ASC" :: r => (some OrdDir.asc, r)
          | Tok.kw "DESC" :: r => (some OrdDir.desc, r)
          | x => ((none : Option OrdDir), ts1)) with
        | (dir, ts2p) =>
          match ts2p with
          | Tok.comma :: ts3 => do
              let (more, ts4) ← parseOrderItems f ts3
              Except.ok ((⟨e, dir⟩ : OrderItem) :: more, ts4)
          | x => Except.ok ([(⟨e, dir⟩ : OrderItem)], ts2p)) =
        Except.ok (items, ts2) := h2
      clear h2
      have main : ∀ (dir : Option OrdDir) (ts2p : List Tok),
          ts2p.all wfTok = true →
          (match ts2p with
            | Tok.comma :: ts3 => do
                let (more, ts4) ← parseOrderItems f ts3
                Except.ok ((⟨e, dir⟩ : OrderItem) :: more, ts4)
            | x => Except.ok ([(⟨e, dir⟩ : OrderItem)], ts2p)) =
            Except.ok (items, ts2) →
          (items.all fun i => wfE i.e) = true ∧ ts2.all wfTok = true := by
        intro dir ts2p hts2p hm
        split at hm
        · rename_i ts3
          rw [List.all_cons, Bool.and_eq_true] at hts2p
          obtain ⟨⟨more, ts4⟩, h3, h4⟩ := bind_ok_ex hm
          obtain ⟨hmore, hts4⟩ := ih _ _ _ h3 hts2p.2
          simp only [Except.ok.injEq, Prod.mk.injEq] at h4
          obtain ⟨rfl, rfl⟩ := h4
          exact ⟨by simp [List.all_cons, he, hmore], hts4⟩
        · simp only [Except.ok.injEq, Prod.mk.injEq] at hm
          obtain ⟨rfl, rfl⟩ := hm
          exact ⟨by simp [he], hts2p⟩
      split at h2b
      rename_i x0 dir0 ts2p hr
      have hts2p : ts2p.all wfTok = true := by
        split at hr
        · rename_i r0
          simp only [Prod.mk.injEq] at hr
          rw [← hr.2]
          rw [List.all_cons, Bool.and_eq_true] at hts1
          exact hts1.2
        · rename_i r0
          simp only [Prod.mk.injEq] at hr
          rw [← hr.2]
          rw [List.all_cons, Bool.and_eq_true] at hts1
          exact hts1.2
        · simp only [Prod.mk.injEq] at hr
          rw [← hr.2]
          exact hts1
      exact main dir0 ts2p hts2p h2b

theorem parseFromOpt_wf (ts : List Tok) (r : Option TableRef) (ts2 : List Tok)
    (h : parseFromOpt ts = .ok (r, ts2)) (hts : ts.all wfTok = true) :
    tableWf r = true ∧ ts2.all wfTok = true := by
  rw [parseFromOpt.eq_def] at h
  have hb := h
  clear h
  split at hb
  · rename_i s r2
    simp only [Except.ok.injEq, Prod.mk.injEq] at hb
    obtain ⟨rfl, rfl⟩ := hb
    rw [List.all_cons, List.all_cons] at hts
    simp only [Bool.and_eq_true] at hts
    exact ⟨by simpa [tableWf, wfTok] using hts.2.1, hts.2.2⟩
  · rename_i s r2
    simp only [Except.ok.injEq, Prod.mk.injEq] at hb
    obtain ⟨rfl, rfl⟩ := hb
    rw [List.all_cons, List.all_cons] at hts
    simp only [Bool.and_eq_true] at hts
    exact ⟨by simpa [tableWf, wfTok] using hts.2.1, hts.2.2⟩
  · exact absurd hb (by simp)
  · simp only [Except.ok.injEq, Prod.mk.injEq] at hb
    obtain ⟨rfl, rfl⟩ := hb
    exact ⟨rfl, hts⟩

theorem parseWhereOpt_wf (f : Nat) (ts : List Tok) (r : Option Expr)
    (ts2 : List Tok) (h : parseWhereOpt f ts = .ok (r, ts2))
    (hts : ts.all wfTok = true) :
    optWfE r = true ∧ ts2.all wfTok = true := by
  rw [parseWhereOpt.eq_def] at h
  have hb := h
  clear h
  split at hb
  · rename_i r2
    rw [List.all_cons, Bool.and_eq_true] at hts
    obtain ⟨⟨e, r1⟩, h1, h2⟩ := bind_ok_ex hb
    obtain ⟨he, hr1⟩ := (parse_wf f).1 _ _ _ h1 hts.2
    simp only [Except.ok.injEq, Prod.mk.injEq] at h2
    obtain ⟨rfl, rfl⟩ := h2
    exact ⟨by simpa [optWfE] using he, hr1⟩
  · simp only [Except.ok.injEq, Prod.mk.injEq] at hb
    obtain ⟨rfl, rfl⟩ := hb
    exact ⟨rfl, hts⟩

theorem parseOrderOpt_wf (f : Nat) (ts : List Tok) (items : List OrderItem)
    (ts2 : List Tok) (h : parseOrderOpt f ts = .ok (items, ts2))
    (hts : ts.all wfTok = true) :
    (items.all fun i => wfE i.e) = true ∧ ts2.all wfTok = true := by
  rw [parseOrderOpt.eq_def] at h
  have hb := h
  clear h
  split at hb
  · rename_i r
    rw [List.all_cons, List.all_cons] at hts
    simp only [Bool.and_eq_true] at hts
    exact parseOrderItems_wf f _ _ _ hb hts.2.2
  · exact absurd hb (by simp)
  · simp only [Except.ok.injEq, Prod.mk.injEq] at hb
    obtain ⟨rfl, rfl⟩ := hb
    exact ⟨rfl, hts⟩

theorem parseLimitOpt_wf (ts : List Tok) (r : Option Expr) (ts2 : List Tok)
    (h : parseLimitOpt ts = .ok (r, ts2)) (hts : ts.all wfTok = true) :
    wfLimit r = true ∧ ts2.all wfTok = true := by
  rw [parseLimitOpt.eq_def] at h
  have hb := h
  clear h
  split at hb
  · rename_i s r2
    simp only [Except.ok.injEq, Prod.mk.injEq] at hb
    obtain ⟨rfl, rfl⟩ := hb
    rw [List.all_cons, List.all_cons] at hts
    simp only [Bool.and_eq_true] at hts
    exact ⟨rfl, hts.2.2⟩
  · rename_i r2
    simp only [Except.ok.injEq, Prod.mk.injEq] at hb
    obtain ⟨rfl, rfl⟩ := hb
    rw [List.all_cons, List.all_cons] at hts
    simp only [Bool.and_eq_true] at hts
    exact ⟨rfl, hts.2.2⟩
  · exact absurd hb (by simp)
  · simp only [Except.ok.injEq, Prod.mk.injEq] at hb
    obtain ⟨rfl, rfl⟩ := hb
    exact ⟨rfl, hts⟩

theorem parseStmt_eq (f : Nat) (ts : List Tok) :
    parseStmt f ts = (do
      match ts with
      | .kw "SELECT" :: ts1 => do
          let (items, ts2) ← parseItems f ts1
          let (tbl, ts3) ← parseFromOpt ts2
          let (w, ts4) ← parseWhereOpt f ts3
          let (ob, ts5) ← parseOrderOpt f ts4
          let (lim, ts6) ← parseLimitOpt ts5
          match ts6 with
          | [] => .ok ⟨items, tbl, w, ob, lim⟩
          | [.semi] => .ok ⟨items, tbl, w, ob, lim⟩
          | _ => .error "sql parser error: Expected: end of statement, found extra input"
      | _ => .error "sql parser error: Expected: SELECT") := rfl

theorem parseItems_wf (f : Nat) (ts1 : List Tok) (items : SelItems)
    (ts2 : List Tok) (h : parseItems f ts1 = .ok (items, ts2))
    (hts : ts1.all wfTok = true) :
    itemsWfE items = true ∧ ts2.all wfTok = true := by
  rw [parseItems.eq_def] at h
  split at h
  · rename_i r
    simp only [Except.ok.injEq, Prod.mk.injEq] at h
    obtain ⟨rfl, rfl⟩ := h
    rw [List.all_cons, Bool.and_eq_true] at hts
    exact ⟨rfl, hts.2⟩
  · obtain ⟨⟨es, r⟩, hS, hS2⟩ := bind_ok_ex h
    obtain ⟨hne, hesw, hrw⟩ := parseSelList_wf f _ _ _ hS hts
    simp only [Except.ok.injEq, Prod.mk.injEq] at hS2
    obtain ⟨rfl, rfl⟩ := hS2
    refine ⟨?_, hrw⟩
    rw [itemsWfE]
    rcases es with _ | ⟨e0, es2⟩
    · exact absurd rfl hne
    · simpa using hesw

/-- The parser frontend only produces well-formed statements. -/
theorem parseStmt_wf (f : Nat) (ts : List Tok) (a : SelectStmt)
    (h : parseStmt f ts = .ok a) (hts : ts.all wfTok = true) :
    wfStmt a = true := by
  rw [parseStmt_eq] at h
  split at h
  · rename_i ts1
    rw [List.all_cons, Bool.and_eq_true] at hts
    obtain ⟨⟨items, ts2⟩, hI, h2⟩ := bind_ok_ex h
    obtain ⟨hiw, hts2⟩ := parseItems_wf f ts1 items ts2 hI hts.2
    have h2b : (do
        let (tbl, ts3) ← parseFromOpt ts2
        let (w, ts4) ← parseWhereOpt f ts3
        let (ob, ts5) ← parseOrderOpt f ts4
        let (lim, ts6) ← parseLimitOpt ts5
        match ts6 with
        | [] => .ok (⟨items, tbl, w, ob, lim⟩ : SelectStmt)
        | [.semi] => .ok (⟨items, tbl, w, ob, lim⟩ : SelectStmt)
        | _ => .error "sql parser error: Expected: end of statement, found extra input")
        = Except.ok a := h2
    clear h2
    obtain ⟨⟨tbl, ts3⟩, hF, h3⟩ := bind_ok_ex h2b
    obtain ⟨htw, hts3⟩ := parseFromOpt_wf ts2 tbl ts3 hF hts2
    have h3b : (do
        let (w, ts4) ← parseWhereOpt f ts3
        let (ob, ts5) ← parseOrderOpt f ts4
        let (lim, ts6) ← parseLimitOpt ts5
        match ts6 with
        | [] => .ok (⟨items, tbl, w, ob, lim⟩ : SelectStmt)
        | [.semi] => .ok (⟨items, tbl, w, ob, lim⟩ : SelectStmt)
        | _ => .error "sql parser error: Expected: end of statement, found extra input")
        = Except.ok a := h3
    clear h3
    obtain ⟨⟨w, ts4⟩, hW, h4⟩ := bind_ok_ex h3b
    obtain ⟨hww, hts4⟩ := parseWhereOpt_wf f ts3 w ts4 hW hts3
    have h4b : (do
        let (ob, ts5) ← parseOrderOpt f ts4
        let (lim, ts6) ← parseLimitOpt ts5
        match ts6 with
        | [] => .ok (⟨items, tbl, w, ob, lim⟩ : SelectStmt)
        | [.semi] => .ok (⟨items, tbl, w, ob, lim⟩ : SelectStmt)
        | _ => .error "sql parser error: Expected: end of statement, found extra input")
        = Except.ok a := h4
    clear h4
    obtain ⟨⟨ob, ts5⟩, hO, h5⟩ := bind_ok_ex h4b
    obtain ⟨how, hts5⟩ := parseOrderOpt_wf f ts4 ob ts5 hO hts4
    have h5b : (do
        let (lim, ts6) ← parseLimitOpt ts5
        match ts6 with
        | [] => .ok (⟨items, tbl, w, ob, lim⟩ : SelectStmt)
        | [.semi] => .ok (⟨items, tbl, w, ob, lim⟩ : SelectStmt)
        | _ => .error "sql parser error: Expected: end of statement, found extra input")
        = Except.ok a := h5
    clear h5
    obtain ⟨⟨lim, ts6⟩, hL, h6⟩ := bind_ok_ex h5b
    obtain ⟨hlw, hts6⟩ := parseLimitOpt_wf ts5 lim ts6 hL hts5
    have h6b : (match ts6 with
        | [] => .ok (⟨items, tbl, w, ob, lim⟩ : SelectStmt)
        | [.semi] => .ok (⟨items, tbl, w, ob, lim⟩ : SelectStmt)
        | _ => .error "sql parser error: Expected: end of statement, found extra input")
        = Except.ok a := h6
    clear h6
    split at h6b
    · obtain rfl : (⟨items, tbl, w, ob, lim⟩ : SelectStmt) = a :=
        Except.ok.inj h6b
      rw [wfStmt]
      simp only [Bool.and_eq_true]
      exact ⟨⟨⟨⟨hiw, htw⟩, hww⟩, how⟩, hlw⟩
    · obtain rfl : (⟨items, tbl, w, ob, lim⟩ : SelectStmt) = a :=
        Except.ok.inj h6b
      rw [wfStmt]
      simp only [Bool.and_eq_true]
      exact ⟨⟨⟨⟨hiw, htw⟩, hww⟩, how⟩, hlw⟩
    · exact absurd h6b (by simp)
  · exact absurd h (by simp)

/-- The entry point only produces well-formed statements. -/
theorem parseSql_wf (s : String) (a : SelectStmt) (h : parseSql s = .ok a) :
    wfStmt a = true := by
  rw [parseSql] at h
  obtain ⟨ts, h1, h2⟩ := bind_ok_ex h
  exact parseStmt_wf _ _ _ h2 (tokenize_wf _ _ _ h1)

/-! ## Idempotence machinery IV: spine decomposition of emitted chains -/

/-! ## Reparsing the canonical token stream: preliminaries -/

/-- Structural size of an expression, for strong induction. -/
def esize : Expr → Nat
  | .lit _ => 1
  | .identE _ => 1
  | .placeholderE => 1
  | .orE a b => esize a + esize b + 1
  | .andE a b => esize a + esize b + 1
  | .cmp _ a b => esize a + esize b + 1
  | .isNull _ a => esize a + 1
  | .paren e => esize e + 1

theorem esize_pos (e : Expr) : 1 ≤ esize e := by
  cases e <;> simp [esize]

theorem emitE_length_pos (e : Expr) : 1 ≤ (emitE e).length := by
  cases e with
  | isNull n a => cases n <;> simp [emitE]
  | _ => simp [emitE] <;> omega

theorem nfW_elim2 (k : Nat) (e : Expr) (h : nfW k e = true) :
    (∃ x, e = .paren x ∧ prec x < k ∧ nfE x = true) ∨
      (k ≤ prec e ∧ nfE e = true) := by
  cases e <;> simp [nfW, prec] at h ⊢ <;> simp_all [prec] <;> omega

theorem nfW_intro (k : Nat) (e : Expr) (hp : k ≤ prec e)
    (he : nfE e = true) : nfW k e = true := by
  cases e with
  | paren x =>
      rw [nfE] at he
      exact absurd he (by simp)
  | _ =>
      rw [nfW]
      · simp only [Bool.and_eq_true, decide_eq_true_eq]
        exact ⟨hp, he⟩
      · intro x hx
        exact Expr.noConfusion hx

theorem nfW_paren_intro (k : Nat) (x : Expr) (hp : prec x < k)
    (hx : nfE x = true) : nfW k (.paren x) = true := by
  rw [nfW]
  simp only [Bool.and_eq_true, decide_eq_true_eq]
  exact ⟨hp, hx⟩

/-- The token list after an emitted expression blocks an IS continuation. -/
def isStop : List Tok → Bool
  | .kw s :: _ => !(s = "IS")
  | _ => true

/-- The token list after an emitted expression blocks a comparison continuation. -/
def cmpStop : List Tok → Bool
  | .kw s :: _ => !(s = "IS")
  | .cmpOp _ :: _ => false
  | _ => true

/-- The token list after an emitted expression blocks an AND continuation. -/
def andStop : List Tok → Bool
  | .kw s :: _ => !(s = "IS" || s = "AND")
  | .cmpOp _ :: _ => false
  | _ => true

/-- The token list after an emitted expression blocks an OR continuation. -/
def orStop : List Tok → Bool
  | .kw s :: _ => !(s = "IS" || s = "AND" || s = "OR")
  | .cmpOp _ :: _ => false
  | _ => true

theorem orStop_andStop (ts : List Tok) (h : orStop ts = true) :
    andStop ts = true := by
  cases ts with
  | nil => rfl
  | cons t r =>
      cases t <;> simp [orStop, andStop] at h ⊢ <;> tauto

theorem andStop_cmpStop (ts : List Tok) (h : andStop ts = true) :
    cmpStop ts = true := by
  cases ts with
  | nil => rfl
  | cons t r =>
      cases t <;> simp [andStop, cmpStop] at h ⊢ <;> tauto

theorem cmpStop_isStop (ts : List Tok) (h : cmpStop ts = true) :
    isStop ts = true := by
  cases ts with
  | nil => rfl
  | cons t r =>
      cases t <;> simp [cmpStop, isStop] at h ⊢ <;> tauto

/-! ## Left spines of OR and AND chains -/

/-- The left spine of an AND chain: leftmost non-AND head and the list of
right operands in order. -/
def andSpine : Expr → Expr × List Expr
  | .andE a b => ((andSpine a).1, (andSpine a).2 ++ [b])
  | e => (e, [])

/-- The left spine of an OR chain. -/
def orSpine : Expr → Expr × List Expr
  | .orE a b => ((orSpine a).1, (orSpine a).2 ++ [b])
  | e => (e, [])

theorem andSpine_fold (e : Expr) :
    (andSpine e).2.foldl .andE (andSpine e).1 = e := by
  induction e with
  | andE a b iha ihb =>
      rw [andSpine]
      simp only [List.foldl_append, List.foldl_cons, List.foldl_nil]
      rw [iha]
  | _ => rfl

theorem orSpine_fold (e : Expr) :
    (orSpine e).2.foldl .orE (orSpine e).1 = e := by
  induction e with
  | orE a b iha ihb =>
      rw [orSpine]
      simp only [List.foldl_append, List.foldl_cons, List.foldl_nil]
      rw [iha]
  | _ => rfl

theorem andSpine_emit (e : Expr) :
    emitE e = emitE (andSpine e).1 ++
      (andSpine e).2.flatMap (fun x => .kw "AND" :: emitE x) := by
  induction e with
  | andE a b iha ihb =>
      rw [andSpine]
      simp only [List.flatMap_append, List.flatMap_cons, List.flatMap_nil,
        List.append_nil]
      rw [emitE, iha, List.append_assoc]
  | _ => simp [andSpine]

theorem orSpine_emit (e : Expr) :
    emitE e = emitE (orSpine e).1 ++
      (orSpine e).2.flatMap (fun x => .kw "OR" :: emitE x) := by
  induction e with
  | orE a b iha ihb =>
      rw [orSpine]
      simp only [List.flatMap_append, List.flatMap_cons, List.flatMap_nil,
        List.append_nil]
      rw [emitE, iha, List.append_assoc]
  | _ => simp [orSpine]

theorem andSpine_size (e : Expr) :
    ((andSpine e).1 = e ∧ (andSpine e).2 = []) ∨
      (esize (andSpine e).1 < esize e ∧
        ∀ x ∈ (andSpine e).2, esize x < esize e) := by
  induction e with
  | andE a b iha ihb =>
      right
      rw [andSpine]
      have hap : 1 ≤ esize a := esize_pos a
      have hbp : 1 ≤ esize b := esize_pos b
      rcases iha with ⟨h1, h2⟩ | ⟨h1, h2⟩
      · rw [h1, h2]
        simp only [List.nil_append, List.mem_singleton]
        constructor
        · simp [esize]
          omega
        · rintro x rfl
          simp [esize]
          omega
      · constructor
        · simp only [esize]
          omega
        · intro x hx
          rw [List.mem_append, List.mem_singleton] at hx
          rcases hx with hx | rfl
          · have := h2 x hx
            simp only [esize]
            omega
          · simp [esize]
            omega
  | _ => left; exact ⟨rfl, rfl⟩

theorem orSpine_size (e : Expr) :
    ((orSpine e).1 = e ∧ (orSpine e).2 = []) ∨
      (esize (orSpine e).1 < esize e ∧
        ∀ x ∈ (orSpine e).2, esize x < esize e) := by
  induction e with
  | orE a b iha ihb =>
      right
      rw [orSpine]
      have hap : 1 ≤ esize a := esize_pos a
      have hbp : 1 ≤ esize b := esize_pos b
      rcases iha with ⟨h1, h2⟩ | ⟨h1, h2⟩
      · rw [h1, h2]
        simp only [List.nil_append, List.mem_singleton]
        constructor
        · simp [esize]
          omega
        · rintro x rfl
          simp [esize]
          omega
      · constructor
        · simp only [esize]
          omega
        · intro x hx
          rw [List.mem_append, List.mem_singleton] at hx
          rcases hx with hx | rfl
          · have := h2 x hx
            simp only [esize]
            omega
          · simp [esize]
            omega
  | _ => left; exact ⟨rfl, rfl⟩

theorem andSpine_nf (e : Expr) (h : nfW 1 e = true) :
    nfW 2 (andSpine e).1 = true ∧ ∀ x ∈ (andSpine e).2, nfW 2 x = true := by
  induction e with
  | andE a b iha ihb =>
      have hne : nfE (a.andE b) = true := by
        rcases nfW_elim2 1 _ h with ⟨x, hx, -, -⟩ | ⟨-, h1⟩
        · exact absurd hx (by simp)
        · exact h1
      rw [nfE] at hne
      simp only [Bool.and_eq_true] at hne
      rw [andSpine]
      obtain ⟨hh, hxs⟩ := iha hne.1
      refine ⟨hh, ?_⟩
      intro x hx
      rw [List.mem_append, List.mem_singleton] at hx
      rcases hx with hx | rfl
      · exact hxs x hx
      · exact hne.2
  | paren x ihx =>
      rcases nfW_elim2 1 _ h with ⟨y, hy, hp, hn⟩ | ⟨-, hn⟩
      · obtain rfl : x = y := by injection hy
        exact ⟨nfW_paren_intro 2 x (by omega) hn,
          fun z hz => absurd hz (List.not_mem_nil z)⟩
      · rw [nfE] at hn
        exact absurd hn (by simp)
  | orE a b iha ihb =>
      rcases nfW_elim2 1 _ h with ⟨y, hy, -, -⟩ | ⟨hp, -⟩
      · exact absurd hy (by simp)
      · exact absurd hp (by simp [prec])
  | lit l =>
      rcases nfW_elim2 1 _ h with ⟨y, hy, -, -⟩ | ⟨-, hn⟩
      · exact absurd hy (by simp)
      · exact absurd hn (by simp [nfE])
  | cmp op a b iha ihb =>
      rcases nfW_elim2 1 _ h with ⟨y, hy, -, -⟩ | ⟨-, hn⟩
      · exact absurd hy (by simp)
      · exact ⟨nfW_intro 2 (Expr.cmp op a b) (by simp [prec]) hn,
          fun z hz => absurd hz (List.not_mem_nil z)⟩
  | isNull n a iha =>
      rcases nfW_elim2 1 _ h with ⟨y, hy, -, -⟩ | ⟨-, hn⟩
      · exact absurd hy (by simp)
      · exact ⟨nfW_intro 2 (Expr.isNull n a) (by simp [prec]) hn,
          fun z hz => absurd hz (List.not_mem_nil z)⟩
  | identE s2 =>
      rcases nfW_elim2 1 _ h with ⟨y, hy, -, -⟩ | ⟨-, hn⟩
      · exact absurd hy (by simp)
      · exact ⟨nfW_intro 2 (Expr.identE s2) (by simp [prec]) hn,
          fun z hz => absurd hz (List.not_mem_nil z)⟩
  | placeholderE =>
      rcases nfW_elim2 1 _ h with ⟨y, hy, -, -⟩ | ⟨-, hn⟩
      · exact absurd hy (by simp)
      · exact ⟨nfW_intro 2 Expr.placeholderE (by simp [prec]) hn,
          fun z hz => absurd hz (List.not_mem_nil z)⟩

theorem orSpine_nf (e : Expr) (h : nfE e = true) :
    nfW 1 (orSpine e).1 = true ∧ ∀ x ∈ (orSpine e).2, nfW 1 x = true := by
  induction e with
  | orE a b iha ihb =>
      rw [nfE] at h
      simp only [Bool.and_eq_true] at h
      rw [orSpine]
      obtain ⟨hh, hxs⟩ := iha h.1
      refine ⟨hh, ?_⟩
      intro x hx
      rw [List.mem_append, List.mem_singleton] at hx
      rcases hx with hx | rfl
      · exact hxs x hx
      · exact h.2
  | paren x ihx =>
      rw [nfE] at h
      exact absurd h (by simp)
  | lit l =>
      rw [nfE] at h
      exact absurd h (by simp)
  | andE a b iha ihb =>
      exact ⟨nfW_intro 1 (Expr.andE a b) (by simp [prec]) h,
        fun z hz => absurd hz (List.not_mem_nil z)⟩
  | cmp op a b iha ihb =>
      exact ⟨nfW_intro 1 (Expr.cmp op a b) (by simp [prec]) h,
        fun z hz => absurd hz (List.not_mem_nil z)⟩
  | isNull n a iha =>
      exact ⟨nfW_intro 1 (Expr.isNull n a) (by simp [prec]) h,
        fun z hz => absurd hz (List.not_mem_nil z)⟩
  | identE s2 =>
      exact ⟨nfW_intro 1 (Expr.identE s2) (by simp [prec]) h,
        fun z hz => absurd hz (List.not_mem_nil z)⟩
  | placeholderE =>
      exact ⟨nfW_intro 1 Expr.placeholderE (by simp [prec]) h,
        fun z hz => absurd hz (List.not_mem_nil z)⟩

/-! ## Single-token parser reductions -/

theorem ok_bind {α β : Type} (a : α) (k : α → Except String β) :
    (Except.ok a >>= k) = k a := rfl

theorem parseAtom_qmark (f : Nat) (r : List Tok) :
    parseAtom (f + 1) (.qmark :: r) = .ok (.placeholderE, r) := rfl

theorem parseAtom_ident (f : Nat) (s : String) (r : List Tok) :
    parseAtom (f + 1) (.ident s :: r) = .ok (.identE s, r) := rfl

theorem parseAtom_lparen (f : Nat) (r : List Tok) :
    parseAtom (f + 1) (.lparen :: r) = (do
      let (e, r1) ← parseOr f r
      match r1 with
      | .rparen :: r2 => .ok (.paren e, r2)
      | _ => .error "sql parser error: Expected: closing parenthesis") := rfl

theorem parseOrRest_or (f : Nat) (acc : Expr) (ts : List Tok) :
    parseOrRest (f + 1) acc (.kw "OR" :: ts) = (do
      let (b, ts3) ← parseAnd f ts
      parseOrRest f (.orE acc b) ts3) := rfl

theorem parseAndRest_and (f : Nat) (acc : Expr) (ts : List Tok) :
    parseAndRest (f + 1) acc (.kw "AND" :: ts) = (do
      let (b, ts3) ← parseCmp f ts
      parseAndRest f (.andE acc b) ts3) := rfl

theorem parseOrRest_stop (f : Nat) (acc : Expr) (rest : List Tok)
    (h : orStop rest = true) :
    parseOrRest (f + 1) acc rest = .ok (acc, rest) := by
  rw [parseOrRest_succ]
  split
  · rename_i ts2
    simp [orStop] at h
  · rfl

theorem parseAndRest_stop (f : Nat) (acc : Expr) (rest : List Tok)
    (h : andStop rest = true) :
    parseAndRest (f + 1) acc rest = .ok (acc, rest) := by
  rw [parseAndRest_succ]
  split
  · rename_i ts2
    simp [andStop] at h
  · rfl

theorem parseIs_post_stop (e0 : Expr) (rest : List Tok)
    (h : isStop rest = true) :
    (match rest with
      | Tok.kw "IS" :: Tok.kw "NOT" :: Tok.nullT :: r =>
          Except.ok (Expr.isNull true e0, r)
      | Tok.kw "IS" :: Tok.nullT :: r => Except.ok (Expr.isNull false e0, r)
      | Tok.kw "IS" :: _ =>
          Except.error "sql parser error: Expected: NULL after IS"
      | _ => Except.ok (e0, rest)) = Except.ok (e0, rest) := by
  split
  · rename_i r
    simp [isStop] at h
  · rename_i r
    simp [isStop] at h
  · simp [isStop] at h
  · rfl

theorem parseCmp_post_stop (f : Nat) (e0 : Expr) (rest : List Tok)
    (h : cmpStop rest = true) :
    (match rest with
      | Tok.cmpOp op :: ts2 => do
          let (b, ts3) ← parseIs f ts2
          Except.ok (Expr.cmp op e0 b, ts3)
      | _ => Except.ok (e0, rest)) = Except.ok (e0, rest) := by
  split
  · rename_i op ts2
    simp [cmpStop] at h
  · rfl

/-! ## Chain absorption for AND and OR spines -/

theorem andRest_chain (xs : List Expr) :
    ∀ (acc : Expr) (rest : List Tok) (f : Nat),
    (∀ x ∈ xs, ∀ rest2 f2, cmpStop rest2 = true →
      6 * (emitE x).length ≤ f2 + 2 →
      parseCmp f2 (emitE x ++ rest2) = .ok (x, rest2)) →
    andStop rest = true →
    6 * (xs.flatMap (fun x => Tok.kw "AND" :: emitE x)).length + 1 ≤ f →
    parseAndRest f acc (xs.flatMap (fun x => Tok.kw "AND" :: emitE x) ++ rest)
      = .ok (xs.foldl .andE acc, rest) := by
  induction xs with
  | nil =>
      intro acc rest f hP hstop hf
      obtain ⟨f2, rfl⟩ : ∃ f2, f = f2 + 1 := ⟨f - 1, by omega⟩
      simp only [List.flatMap_nil, List.nil_append, List.foldl_nil]
      exact parseAndRest_stop f2 acc rest hstop
  | cons x xs ihx =>
      intro acc rest f hP hstop hf
      have hlen : ((x :: xs).flatMap (fun y => Tok.kw "AND" :: emitE y)).length =
          1 + (emitE x).length +
            (xs.flatMap (fun y => Tok.kw "AND" :: emitE y)).length := by
        simp [List.flatMap_cons]
        omega
      obtain ⟨f2, rfl⟩ : ∃ f2, f = f2 + 1 := ⟨f - 1, by omega⟩
      have hshape : (x :: xs).flatMap (fun y => Tok.kw "AND" :: emitE y) ++ rest =
          Tok.kw "AND" :: (emitE x ++
            (xs.flatMap (fun y => Tok.kw "AND" :: emitE y) ++ rest)) := by
        simp [List.flatMap_cons, List.cons_append, List.append_assoc]
      rw [hshape, parseAndRest_and]
      have hcs : cmpStop (xs.flatMap (fun y => Tok.kw "AND" :: emitE y) ++ rest) = true := by
        cases xs with
        | nil =>
            simp only [List.flatMap_nil, List.nil_append]
            exact andStop_cmpStop rest hstop
        | cons x2 xs2 =>
            simp only [List.flatMap_cons, List.cons_append, List.append_assoc]
            rfl
      have hcmp := hP x (by simp) _ f2 hcs (by rw [hlen] at hf; omega)
      rw [hcmp, ok_bind]
      exact ihx (.andE acc x) rest f2
        (fun y hy => hP y (by simp [hy]))
        hstop (by rw [hlen] at hf; omega)

theorem orRest_chain (xs : List Expr) :
    ∀ (acc : Expr) (rest : List Tok) (f : Nat),
    (∀ x ∈ xs, ∀ rest2 f2, andStop rest2 = true →
      6 * (emitE x).length ≤ f2 + 1 →
      parseAnd f2 (emitE x ++ rest2) = .ok (x, rest2)) →
    orStop rest = true →
    6 * (xs.flatMap (fun x => Tok.kw "OR" :: emitE x)).length + 1 ≤ f →
    parseOrRest f acc (xs.flatMap (fun x => Tok.kw "OR" :: emitE x) ++ rest)
      = .ok (xs.foldl .orE acc, rest) := by
  induction xs with
  | nil =>
      intro acc rest f hP hstop hf
      obtain ⟨f2, rfl⟩ : ∃ f2, f = f2 + 1 := ⟨f - 1, by omega⟩
      simp only [List.flatMap_nil, List.nil_append, List.foldl_nil]
      exact parseOrRest_stop f2 acc rest hstop
  | cons x xs ihx =>
      intro acc rest f hP hstop hf
      have hlen : ((x :: xs).flatMap (fun y => Tok.kw "OR" :: emitE y)).length =
          1 + (emitE x).length +
            (xs.flatMap (fun y => Tok.kw "OR" :: emitE y)).length := by
        simp [List.flatMap_cons]
        omega
      obtain ⟨f2, rfl⟩ : ∃ f2, f = f2 + 1 := ⟨f - 1, by omega⟩
      have hshape : (x :: xs).flatMap (fun y => Tok.kw "OR" :: emitE y) ++ rest =
          Tok.kw "OR" :: (emitE x ++
            (xs.flatMap (fun y => Tok.kw "OR" :: emitE y) ++ rest)) := by
        simp [List.flatMap_cons, List.cons_append, List.append_assoc]
      rw [hshape, parseOrRest_or]
      have hcs : andStop (xs.flatMap (fun y => Tok.kw "OR" :: emitE y) ++ rest) = true := by
        cases xs with
        | nil =>
            simp only [List.flatMap_nil, List.nil_append]
            exact orStop_andStop rest hstop
        | cons x2 xs2 =>
            simp only [List.flatMap_cons, List.cons_append, List.append_assoc]
            rfl
      have hand := hP x (by simp) _ f2 hcs (by rw [hlen] at hf; omega)
      rw [hand, ok_bind]
      exact ihx (.orE acc x) rest f2
        (fun y hy => hP y (by simp [hy]))
        hstop (by rw [hlen] at hf; omega)

/-! ## Idempotence machinery V: emitted normal forms reparse to themselves -/

/-- Emitted normal-form expressions reparse to themselves at every
precedence level, given enough fuel and a stop-token continuation. -/
theorem parse_emit : ∀ (N : Nat) (e : Expr), esize e ≤ N →
    ((nfW 4 e = true → ∀ (rest : List Tok) (f : Nat),
        6 * (emitE e).length ≤ f + 4 →
        parseAtom f (emitE e ++ rest) = .ok (e, rest)) ∧
     (nfW 3 e = true → ∀ (rest : List Tok) (f : Nat), isStop rest = true →
        6 * (emitE e).length ≤ f + 3 →
        parseIs f (emitE e ++ rest) = .ok (e, rest)) ∧
     (nfW 2 e = true → ∀ (rest : List Tok) (f : Nat), cmpStop rest = true →
        6 * (emitE e).length ≤ f + 2 →
        parseCmp f (emitE e ++ rest) = .ok (e, rest)) ∧
     (nfW 1 e = true → ∀ (rest : List Tok) (f : Nat), andStop rest = true →
        6 * (emitE e).length ≤ f + 1 →
        parseAnd f (emitE e ++ rest) = .ok (e, rest)) ∧
     (nfE e = true → ∀ (rest : List Tok) (f : Nat), orStop rest = true →
        6 * (emitE e).length ≤ f →
        parseOr f (emitE e ++ rest) = .ok (e, rest))) := by
  intro N
  induction N with
  | zero =>
      intro e he
      exact absurd he (by have := esize_pos e; omega)
  | succ N ih =>
      intro e he
      have hA : nfW 4 e = true → ∀ (rest : List Tok) (f : Nat),
          6 * (emitE e).length ≤ f + 4 →
          parseAtom f (emitE e ++ rest) = .ok (e, rest) := by
        intro hnf rest f hf
        rcases nfW_elim2 4 e hnf with ⟨x, hx, hp, hn⟩ | ⟨hp, hn⟩
        · subst hx
          have hxsize : esize x ≤ N := by
            have h1 := esize_pos x
            simp [esize] at he
            omega
          have hlen : (emitE (Expr.paren x)).length = (emitE x).length + 2 := by
            simp [emitE]
          rw [hlen] at hf
          obtain ⟨f2, rfl⟩ : ∃ f2, f = f2 + 1 :=
            ⟨f - 1, by have := emitE_length_pos x; omega⟩
          have hsh : emitE (Expr.paren x) ++ rest =
              Tok.lparen :: (emitE x ++ (Tok.rparen :: rest)) := by
            simp [emitE, List.append_assoc]
          rw [hsh, parseAtom_lparen]
          have hor := (ih x hxsize).2.2.2.2 hn (Tok.rparen :: rest) f2 rfl (by omega)
          rw [hor, ok_bind]
        · cases e with
          | identE s =>
              obtain ⟨f2, rfl⟩ : ∃ f2, f = f2 + 1 :=
                ⟨f - 1, by simp [emitE] at hf; omega⟩
              exact parseAtom_ident f2 s rest
          | placeholderE =>
              obtain ⟨f2, rfl⟩ : ∃ f2, f = f2 + 1 :=
                ⟨f - 1, by simp [emitE] at hf; omega⟩
              exact parseAtom_qmark f2 rest
          | lit l => rw [nfE] at hn; exact absurd hn (by simp)
          | paren x => rw [nfE] at hn; exact absurd hn (by simp)
          | orE a b => simp [prec] at hp
          | andE a b => simp [prec] at hp
          | cmp op a b => simp [prec] at hp
          | isNull b a => simp [prec] at hp
      have hB : nfW 3 e = true → ∀ (rest : List Tok) (f : Nat),
          isStop rest = true → 6 * (emitE e).length ≤ f + 3 →
          parseIs f (emitE e ++ rest) = .ok (e, rest) := by
        intro hnf rest f hstop hf
        obtain ⟨f2, rfl⟩ : ∃ f2, f = f2 + 1 :=
          ⟨f - 1, by have := emitE_length_pos e; omega⟩
        rcases nfW_elim2 3 e hnf with ⟨x, hx, hp, hn⟩ | ⟨hp, hn⟩
        · subst hx
          rw [parseIs_succ]
          have hat := hA (nfW_paren_intro 4 x (by omega) hn) rest f2 (by omega)
          rw [hat, ok_bind]
          exact parseIs_post_stop (Expr.paren x) rest hstop
        · cases e with
          | isNull b a =>
              rw [nfE] at hn
              have hasize : esize a ≤ N := by
                have h1 := esize_pos a
                simp [esize] at he
                omega
              cases b with
              | false =>
                  have hlen : (emitE (Expr.isNull false a)).length =
                      (emitE a).length + 2 := by
                    simp [emitE]
                  rw [hlen] at hf
                  have hsh : emitE (Expr.isNull false a) ++ rest =
                      emitE a ++ ([Tok.kw "IS", Tok.nullT] ++ rest) := by
                    simp [emitE, List.append_assoc]
                  rw [hsh, parseIs_succ]
                  have hat := (ih a hasize).1 hn
                    ([Tok.kw "IS", Tok.nullT] ++ rest) f2 (by omega)
                  rw [hat, ok_bind]
                  rfl
              | true =>
                  have hlen : (emitE (Expr.isNull true a)).length =
                      (emitE a).length + 3 := by
                    simp [emitE]
                  rw [hlen] at hf
                  have hsh : emitE (Expr.isNull true a) ++ rest =
                      emitE a ++ ([Tok.kw "IS", Tok.kw "NOT", Tok.nullT] ++ rest) := by
                    simp [emitE, List.append_assoc]
                  rw [hsh, parseIs_succ]
                  have hat := (ih a hasize).1 hn
                    ([Tok.kw "IS", Tok.kw "NOT", Tok.nullT] ++ rest) f2 (by omega)
                  rw [hat, ok_bind]
                  rfl
          | identE s =>
              rw [parseIs_succ]
              have hat := hA (nfW_intro 4 _ (by simp [prec]) hn) rest f2 (by omega)
              rw [hat, ok_bind]
              exact parseIs_post_stop (Expr.identE s) rest hstop
          | placeholderE =>
              rw [parseIs_succ]
              have hat := hA (nfW_intro 4 _ (by simp [prec]) hn) rest f2 (by omega)
              rw [hat, ok_bind]
              exact parseIs_post_stop Expr.placeholderE rest hstop
          | lit l => rw [nfE] at hn; exact absurd hn (by simp)
          | paren x => rw [nfE] at hn; exact absurd hn (by simp)
          | orE a b => simp [prec] at hp
          | andE a b => simp [prec] at hp
          | cmp op a b => simp [prec] at hp
      have hC : nfW 2 e = true → ∀ (rest : List Tok) (f : Nat),
          cmpStop rest = true → 6 * (emitE e).length ≤ f + 2 →
          parseCmp f (emitE e ++ rest) = .ok (e, rest) := by
        intro hnf rest f hstop hf
        obtain ⟨f2, rfl⟩ : ∃ f2, f = f2 + 1 :=
          ⟨f - 1, by have := emitE_length_pos e; omega⟩
        rcases nfW_elim2 2 e hnf with ⟨x, hx, hp, hn⟩ | ⟨hp, hn⟩
        · subst hx
          rw [parseCmp_succ]
          have his := hB (nfW_paren_intro 3 x (by omega) hn) rest f2
            (cmpStop_isStop rest hstop) (by omega)
          rw [his, ok_bind]
          exact parseCmp_post_stop f2 (Expr.paren x) rest hstop
        · cases e with
          | cmp op a b =>
              rw [nfE] at hn
              simp only [Bool.and_eq_true] at hn
              have hasize : esize a ≤ N := by
                have h1 := esize_pos a
                have h2 := esize_pos b
                simp [esize] at he
                omega
              have hbsize : esize b ≤ N := by
                have h1 := esize_pos a
                have h2 := esize_pos b
                simp [esize] at he
                omega
              have hlen : (emitE (Expr.cmp op a b)).length =
                  (emitE a).length + 1 + (emitE b).length := by
                simp [emitE]
                omega
              rw [hlen] at hf
              have hsh : emitE (Expr.cmp op a b) ++ rest =
                  emitE a ++ (Tok.cmpOp op :: (emitE b ++ rest)) := by
                simp [emitE, List.append_assoc]
              rw [hsh, parseCmp_succ]
              have hisA := (ih a hasize).2.1 hn.1
                (Tok.cmpOp op :: (emitE b ++ rest)) f2 rfl (by omega)
              rw [hisA, ok_bind]
              show (do
                  let (b2, ts3) ← parseIs f2 (emitE b ++ rest)
                  Except.ok (Expr.cmp op a b2, ts3)) =
                Except.ok (Expr.cmp op a b, rest)
              have hisB := (ih b hbsize).2.1 hn.2 rest f2
                (cmpStop_isStop rest hstop) (by omega)
              rw [hisB, ok_bind]
          | isNull b a =>
              rw [parseCmp_succ]
              have his := hB (nfW_intro 3 _ (by simp [prec]) hn) rest f2
                (cmpStop_isStop rest hstop) (by omega)
              rw [his, ok_bind]
              exact parseCmp_post_stop f2 (Expr.isNull b a) rest hstop
          | identE s =>
              rw [parseCmp_succ]
              have his := hB (nfW_intro 3 _ (by simp [prec]) hn) rest f2
                (cmpStop_isStop rest hstop) (by omega)
              rw [his, ok_bind]
              exact parseCmp_post_stop f2 (Expr.identE s) rest hstop
          | placeholderE =>
              rw [parseCmp_succ]
              have his := hB (nfW_intro 3 _ (by simp [prec]) hn) rest f2
                (cmpStop_isStop rest hstop) (by omega)
              rw [his, ok_bind]
              exact parseCmp_post_stop f2 Expr.placeholderE rest hstop
          | lit l => rw [nfE] at hn; exact absurd hn (by simp)
          | paren x => rw [nfE] at hn; exact absurd hn (by simp)
          | orE a b => simp [prec] at hp
          | andE a b => simp [prec] at hp
      have hD : nfW 1 e = true → ∀ (rest : List Tok) (f : Nat),
          andStop rest = true → 6 * (emitE e).length ≤ f + 1 →
          parseAnd f (emitE e ++ rest) = .ok (e, rest) := by
        intro hnf rest f hstop hf
        obtain ⟨f2, rfl⟩ : ∃ f2, f = f2 + 1 :=
          ⟨f - 1, by have := emitE_length_pos e; omega⟩
        obtain ⟨hh, hxs⟩ := andSpine_nf e hnf
        have hheadP : ∀ (rest2 : List Tok) (f3 : Nat), cmpStop rest2 = true →
            6 * (emitE (andSpine e).1).length ≤ f3 + 2 →
            parseCmp f3 (emitE (andSpine e).1 ++ rest2) =
              .ok ((andSpine e).1, rest2) := by
          rcases andSpine_size e with ⟨h1, h2⟩ | ⟨h1, h2⟩
          · rw [h1] at hh ⊢
            exact fun rest2 f3 hs hf3 => hC hh rest2 f3 hs hf3
          · exact fun rest2 f3 hs hf3 =>
              (ih (andSpine e).1 (by omega)).2.2.1 hh rest2 f3 hs hf3
        have helemsP : ∀ x ∈ (andSpine e).2, ∀ (rest2 : List Tok) (f3 : Nat),
            cmpStop rest2 = true → 6 * (emitE x).length ≤ f3 + 2 →
            parseCmp f3 (emitE x ++ rest2) = .ok (x, rest2) := by
          rcases andSpine_size e with ⟨h1, h2⟩ | ⟨h1, h2⟩
          · intro x hx
            rw [h2] at hx
            exact absurd hx (by simp)
          · intro x hx
            exact fun rest2 f3 hs hf3 =>
              (ih x (by have := h2 x hx; omega)).2.2.1 (hxs x hx) rest2 f3 hs hf3
        have hemit := andSpine_emit e
        have hlen := congrArg List.length hemit
        rw [List.length_append] at hlen
        have hsh : emitE e ++ rest = emitE (andSpine e).1 ++
            ((andSpine e).2.flatMap (fun x => Tok.kw "AND" :: emitE x) ++ rest) := by
          rw [← List.append_assoc, ← hemit]
        rw [hsh, parseAnd_succ]
        have hcs : cmpStop
            ((andSpine e).2.flatMap (fun x => Tok.kw "AND" :: emitE x) ++ rest) = true := by
          cases hcase : (andSpine e).2 with
          | nil =>
              simp only [List.flatMap_nil, List.nil_append]
              exact andStop_cmpStop rest hstop
          | cons y ys =>
              simp only [List.flatMap_cons, List.cons_append, List.append_assoc]
              rfl
        have hhp := emitE_length_pos (andSpine e).1
        have hcmp := hheadP _ f2 hcs (by omega)
        rw [hcmp, ok_bind]
        have hchain := andRest_chain (andSpine e).2 (andSpine e).1 rest f2
          helemsP hstop (by omega)
        rw [andSpine_fold e] at hchain
        exact hchain
      have hE : nfE e = true → ∀ (rest : List Tok) (f : Nat),
          orStop rest = true → 6 * (emitE e).length ≤ f →
          parseOr f (emitE e ++ rest) = .ok (e, rest) := by
        intro hnf rest f hstop hf
        obtain ⟨f2, rfl⟩ : ∃ f2, f = f2 + 1 :=
          ⟨f - 1, by have := emitE_length_pos e; omega⟩
        obtain ⟨hh, hxs⟩ := orSpine_nf e hnf
        have hheadP : ∀ (rest2 : List Tok) (f3 : Nat), andStop rest2 = true →
            6 * (emitE (orSpine e).1).length ≤ f3 + 1 →
            parseAnd f3 (emitE (orSpine e).1 ++ rest2) =
              .ok ((orSpine e).1, rest2) := by
          rcases orSpine_size e with ⟨h1, h2⟩ | ⟨h1, h2⟩
          · rw [h1] at hh ⊢
            exact fun rest2 f3 hs hf3 => hD hh rest2 f3 hs hf3
          · exact fun rest2 f3 hs hf3 =>
              (ih (orSpine e).1 (by omega)).2.2.2.1 hh rest2 f3 hs hf3
        have helemsP : ∀ x ∈ (orSpine e).2, ∀ (rest2 : List Tok) (f3 : Nat),
            andStop rest2 = true → 6 * (emitE x).length ≤ f3 + 1 →
            parseAnd f3 (emitE x ++ rest2) = .ok (x, rest2) := by
          rcases orSpine_size e with ⟨h1, h2⟩ | ⟨h1, h2⟩
          · intro x hx
            rw [h2] at hx
            exact absurd hx (by simp)
          · intro x hx
            exact fun rest2 f3 hs hf3 =>
              (ih x (by have := h2 x hx; omega)).2.2.2.1 (hxs x hx) rest2 f3 hs hf3
        have hemit := orSpine_emit e
        have hlen := congrArg List.length hemit
        rw [List.length_append] at hlen
        have hsh : emitE e ++ rest = emitE (orSpine e).1 ++
            ((orSpine e).2.flatMap (fun x => Tok.kw "OR" :: emitE x) ++ rest) := by
          rw [← List.append_assoc, ← hemit]
        rw [hsh, parseOr_succ]
        have hcs : andStop
            ((orSpine e).2.flatMap (fun x => Tok.kw "OR" :: emitE x) ++ rest) = true := by
          cases hcase : (orSpine e).2 with
          | nil =>
              simp only [List.flatMap_nil, List.nil_append]
              exact orStop_andStop rest hstop
          | cons y ys =>
              simp only [List.flatMap_cons, List.cons_append, List.append_assoc]
              rfl
        have hhp := emitE_length_pos (orSpine e).1
        have hand := hheadP _ f2 hcs (by omega)
        rw [hand, ok_bind]
        have hchain := orRest_chain (orSpine e).2 (orSpine e).1 rest f2
          helemsP hstop (by omega)
        rw [orSpine_fold e] at hchain
        exact hchain
      exact ⟨hA, hB, hC, hD, hE⟩

/-! ## Idempotence machinery VI: clause lists reparse to themselves -/

/-- Whether a token list begins with a comma. -/
def headComma : List Tok → Bool
  | .comma :: _ => true
  | _ => false

/-- Whether a token list does not begin with a star token. -/
def notStar : List Tok → Bool
  | .star :: _ => false
  | _ => true

/-- The continuation after an ORDER BY item blocks every way the item
parse could continue: comma, direction keywords, and expression glue. -/
def ordStop : List Tok → Bool
  | .comma :: _ => false
  | .kw s :: _ => !(s = "IS" || s = "AND" || s = "OR" || s = "ASC" || s = "DESC")
  | .cmpOp _ :: _ => false
  | _ => true

theorem ordStop_orStop (ts : List Tok) (h : ordStop ts = true) :
    orStop ts = true := by
  cases ts with
  | nil => rfl
  | cons t r =>
      cases t <;> simp [ordStop, orStop] at h ⊢ <;> tauto

theorem parse_emit_or (e : Expr) (hn : nfE e = true) (rest : List Tok) (f : Nat)
    (hs : orStop rest = true) (hf : 6 * (emitE e).length ≤ f) :
    parseOr f (emitE e ++ rest) = .ok (e, rest) :=
  (parse_emit (esize e) e (Nat.le_refl _)).2.2.2.2 hn rest f hs hf

theorem emitE_head_notStar (e : Expr) : ∀ rest : List Tok,
    notStar (emitE e ++ rest) = true := by
  induction e with
  | lit l => intro rest; cases l <;> rfl
  | identE s => intro rest; rfl
  | placeholderE => intro rest; rfl
  | paren x ih => intro rest; rfl
  | orE a b iha ihb =>
      intro rest
      rw [emitE, List.append_assoc]
      exact iha _
  | andE a b iha ihb =>
      intro rest
      rw [emitE, List.append_assoc]
      exact iha _
  | cmp op a b iha ihb =>
      intro rest
      rw [emitE, List.append_assoc]
      exact iha _
  | isNull n a iha =>
      intro rest
      rw [emitE, List.append_assoc]
      exact iha _

theorem parseItems_star (f : Nat) (r : List Tok) :
    parseItems f (.star :: r) = .ok (SelItems.star, r) := rfl

theorem parseItems_go (f : Nat) (ts : List Tok) (h : notStar ts = true) :
    parseItems f ts = (do
      let (es, r) ← parseSelList f ts
      Except.ok (SelItems.exprs es, r)) := by
  rw [parseItems.eq_def]
  split
  · rename_i r
    simp [notStar] at h
  · rfl

theorem parseWhereOpt_where (f : Nat) (r : List Tok) :
    parseWhereOpt f (.kw "WHERE" :: r) = (do
      let (e, r1) ← parseOr f r
      Except.ok (some e, r1)) := rfl

theorem parseOrderOpt_ob (f : Nat) (r : List Tok) :
    parseOrderOpt f (.kw "ORDER" :: .kw "BY" :: r) = parseOrderItems f r := rfl

theorem parseSelList_post (f : Nat) (e : Expr) (ts1 : List Tok)
    (h : headComma ts1 = false) :
    (match ts1 with
    | Tok.comma :: ts2 => do
        let (es, ts3) ← parseSelList f ts2
        Except.ok (e :: es, ts3)
    | _ => Except.ok ([e], ts1)) = Except.ok ([e], ts1) := by
  split
  · rename_i ts2
    simp [headComma] at h
  · rfl

theorem parseOrderItems_post2 (f : Nat) (e : Expr) (d : Option OrdDir)
    (ts2 : List Tok) (h : ordStop ts2 = true) :
    (match ts2 with
    | Tok.comma :: ts3 => do
        let (more, ts4) ← parseOrderItems f ts3
        Except.ok ((⟨e, d⟩ : OrderItem) :: more, ts4)
    | _ => Except.ok (([⟨e, d⟩] : List OrderItem), ts2)) =
      Except.ok (([⟨e, d⟩] : List OrderItem), ts2) := by
  split
  · rename_i ts3
    simp [ordStop] at h
  · rfl

theorem parseOrderItems_dir_none (ts1 : List Tok) : ordStop ts1 = true →
    (match ts1 with
    | Tok.kw "ASC" :: r => (some OrdDir.asc, r)
    | Tok.kw "DESC" :: r => (some OrdDir.desc, r)
    | _ => ((none : Option OrdDir), ts1)) = ((none : Option OrdDir), ts1) := by
  intro h
  split
  · rename_i r
    simp [ordStop] at h
  · rename_i r
    simp [ordStop] at h
  · rfl

/-- A nonempty canonical select list, separated by commas, reparses to
itself up to a continuation that starts with neither glue nor a comma. -/
theorem selList_chain (es : List Expr) : ∀ (rest : List Tok) (f : Nat),
    es ≠ [] → es.all nfE = true →
    orStop rest = true → headComma rest = false →
    6 * (sepByComma (es.map emitE)).length + 1 ≤ f →
    parseSelList f (sepByComma (es.map emitE) ++ rest) = .ok (es, rest) := by
  induction es with
  | nil =>
      intro rest f hne
      exact absurd rfl hne
  | cons x es2 ih =>
      intro rest f hne hnf hor hcomma hf
      rw [List.all_cons, Bool.and_eq_true] at hnf
      obtain ⟨f2, rfl⟩ : ∃ f2, f = f2 + 1 := ⟨f - 1, by omega⟩
      cases es2 with
      | nil =>
          have hsep : sepByComma ([x].map emitE) = emitE x := by
            simp [sepByComma]
          rw [hsep] at hf ⊢
          rw [parseSelList_succ]
          have hor2 := parse_emit_or x hnf.1 rest f2 hor (by omega)
          rw [hor2, ok_bind]
          exact parseSelList_post f2 x rest hcomma
      | cons y tl =>
          have hsep : sepByComma ((x :: y :: tl).map emitE) =
              emitE x ++ Tok.comma :: sepByComma ((y :: tl).map emitE) := by
            simp [sepByComma]
          rw [hsep] at hf ⊢
          have hlen : (emitE x ++ Tok.comma ::
              sepByComma ((y :: tl).map emitE)).length =
              (emitE x).length + 1 + (sepByComma ((y :: tl).map emitE)).length := by
            simp
            omega
          rw [hlen] at hf
          have hsh : (emitE x ++ Tok.comma :: sepByComma ((y :: tl).map emitE)) ++ rest =
              emitE x ++ (Tok.comma :: (sepByComma ((y :: tl).map emitE) ++ rest)) := by
            simp [List.append_assoc]
          rw [hsh, parseSelList_succ]
          have hor2 := parse_emit_or x hnf.1
            (Tok.comma :: (sepByComma ((y :: tl).map emitE) ++ rest)) f2 rfl (by omega)
          rw [hor2, ok_bind]
          show (do
              let (es, ts3) ← parseSelList f2 (sepByComma ((y :: tl).map emitE) ++ rest)
              Except.ok (x :: es, ts3)) = Except.ok (x :: y :: tl, rest)
          rw [ih rest f2 (by simp) hnf.2 hor hcomma (by omega), ok_bind]

/-- A nonempty canonical ORDER BY item list reparses to itself up to a
continuation whose head closes the item. -/
theorem ordItems_chain (items : List OrderItem) : ∀ (rest : List Tok) (f : Nat),
    items ≠ [] →
    items.all (fun i => nfE i.e && !(i.dir = some OrdDir.asc)) = true →
    ordStop rest = true →
    6 * (sepByComma (items.map emitOrderItem)).length + 1 ≤ f →
    parseOrderItems f (sepByComma (items.map emitOrderItem) ++ rest) =
      .ok (items, rest) := by
  induction items with
  | nil =>
      intro rest f hne
      exact absurd rfl hne
  | cons i tl ih =>
      intro rest f hne hnf hstop hf
      rw [List.all_cons, Bool.and_eq_true] at hnf
      obtain ⟨hne1, hnd⟩ := Bool.and_eq_true_iff.mp hnf.1
      obtain ⟨f2, rfl⟩ : ∃ f2, f = f2 + 1 := ⟨f - 1, by omega⟩
      rcases i with ⟨e, dir⟩
      simp only at hne1 hnd
      cases tl with
      | nil =>
          have hsep : sepByComma ([(⟨e, dir⟩ : OrderItem)].map emitOrderItem) =
              emitOrderItem ⟨e, dir⟩ := by
            simp [sepByComma]
          rw [hsep] at hf ⊢
          rcases dir with _ | d
          · have hemit : emitOrderItem (⟨e, none⟩ : OrderItem) = emitE e := by
              simp [emitOrderItem]
            rw [hemit] at hf ⊢
            rw [parseOrderItems_succ]
            have hor2 := parse_emit_or e hne1 rest f2 (ordStop_orStop rest hstop)
              (by omega)
            rw [hor2, ok_bind]
            show (let (dir, ts2) :=
                match rest with
                | Tok.kw "ASC" :: r => (some OrdDir.asc, r)
                | Tok.kw "DESC" :: r => (some OrdDir.desc, r)
                | _ => ((none : Option OrdDir), rest)
              match ts2 with
              | Tok.comma :: ts3 => do
                  let (more, ts4) ← parseOrderItems f2 ts3
                  Except.ok ((⟨e, dir⟩ : OrderItem) :: more, ts4)
              | _ => Except.ok (([⟨e, dir⟩] : List OrderItem), ts2)) =
                Except.ok (([⟨e, none⟩] : List OrderItem), rest)
            rw [parseOrderItems_dir_none rest hstop]
            exact parseOrderItems_post2 f2 e none rest hstop
          · cases d with
            | asc => simp at hnd
            | desc =>
                have hemit : emitOrderItem (⟨e, some OrdDir.desc⟩ : OrderItem) =
                    emitE e ++ [Tok.kw "DESC"] := by
                  simp [emitOrderItem]
                rw [hemit] at hf ⊢
                have hlen : (emitE e ++ [Tok.kw "DESC"]).length =
                    (emitE e).length + 1 := by
                  simp
                rw [hlen] at hf
                have hsh : (emitE e ++ [Tok.kw "DESC"]) ++ rest =
                    emitE e ++ (Tok.kw "DESC" :: rest) := by
                  simp [List.append_assoc]
                rw [hsh, parseOrderItems_succ]
                have hor2 := parse_emit_or e hne1 (Tok.kw "DESC" :: rest) f2 rfl
                  (by omega)
                rw [hor2, ok_bind]
                exact parseOrderItems_post2 f2 e (some OrdDir.desc) rest hstop
      | cons j tl2 =>
          have hsep : sepByComma (((⟨e, dir⟩ : OrderItem) :: j :: tl2).map emitOrderItem) =
              emitOrderItem ⟨e, dir⟩ ++
                Tok.comma :: sepByComma ((j :: tl2).map emitOrderItem) := by
            simp [sepByComma]
          rw [hsep] at hf ⊢
          have hlen : (emitOrderItem (⟨e, dir⟩ : OrderItem) ++
              Tok.comma :: sepByComma ((j :: tl2).map emitOrderItem)).length =
              (emitOrderItem ⟨e, dir⟩).length + 1 +
                (sepByComma ((j :: tl2).map emitOrderItem)).length := by
            simp
            omega
          rw [hlen] at hf
          have hih := ih rest f2 (by simp) hnf.2 hstop
          rcases dir with _ | d
          · have hemit : emitOrderItem (⟨e, none⟩ : OrderItem) = emitE e := by
              simp [emitOrderItem]
            rw [hemit] at hf ⊢
            have hsh : (emitE e ++
                Tok.comma :: sepByComma ((j :: tl2).map emitOrderItem)) ++ rest =
                emitE e ++ (Tok.comma ::
                  (sepByComma ((j :: tl2).map emitOrderItem) ++ rest)) := by
              simp [List.append_assoc]
            rw [hsh, parseOrderItems_succ]
            have hor2 := parse_emit_or e hne1
              (Tok.comma :: (sepByComma ((j :: tl2).map emitOrderItem) ++ rest)) f2
              rfl (by omega)
            rw [hor2, ok_bind]
            show (do
                let (more, ts4) ←
                  parseOrderItems f2 (sepByComma ((j :: tl2).map emitOrderItem) ++ rest)
                Except.ok ((⟨e, none⟩ : OrderItem) :: more, ts4)) =
              Except.ok ((⟨e, none⟩ : OrderItem) :: j :: tl2, rest)
            rw [hih (by omega), ok_bind]
          · cases d with
            | asc => simp at hnd
            | desc =>
                have hemit : emitOrderItem (⟨e, some OrdDir.desc⟩ : OrderItem) =
                    emitE e ++ [Tok.kw "DESC"] := by
                  simp [emitOrderItem]
                rw [hemit] at hf ⊢
                have hlen2 : (emitE e ++ [Tok.kw "DESC"]).length =
                    (emitE e).length + 1 := by
                  simp
                rw [hlen2] at hf
                have hsh : ((emitE e ++ [Tok.kw "DESC"]) ++
                    Tok.comma :: sepByComma ((j :: tl2).map emitOrderItem)) ++ rest =
                    emitE e ++ (Tok.kw "DESC" :: Tok.comma ::
                      (sepByComma ((j :: tl2).map emitOrderItem) ++ rest)) := by
                  simp [List.append_assoc]
                rw [hsh, parseOrderItems_succ]
                have hor2 := parse_emit_or e hne1
                  (Tok.kw "DESC" :: Tok.comma ::
                    (sepByComma ((j :: tl2).map emitOrderItem) ++ rest)) f2
                  rfl (by omega)
                rw [hor2, ok_bind]
                show (do
                    let (more, ts4) ←
                      parseOrderItems f2
                        (sepByComma ((j :: tl2).map emitOrderItem) ++ rest)
                    Except.ok ((⟨e, some OrdDir.desc⟩ : OrderItem) :: more, ts4)) =
                  Except.ok ((⟨e, some OrdDir.desc⟩ : OrderItem) :: j :: tl2, rest)
                rw [hih (by omega), ok_bind]

/-! ## Idempotence machinery VII: whole statements reparse to themselves -/

/-- The emitted projection clause of a statement. -/
def itemsToks (st : SelectStmt) : List Tok :=
  match st.items with
  | .star => [Tok.star]
  | .exprs es => sepByComma (es.map emitE)

/-- The emitted FROM clause of a statement. -/
def fromToks (st : SelectStmt) : List Tok :=
  match st.fromT with
  | none => []
  | some t =>
      [Tok.kw "FROM", if t.quoted then Tok.dquoted t.name else Tok.ident t.name]

/-- The emitted WHERE clause of a statement. -/
def whereToks (st : SelectStmt) : List Tok :=
  match st.whereE with
  | none => []
  | some e => Tok.kw "WHERE" :: emitE e

/-- The emitted ORDER BY clause of a statement. -/
def ordToks (st : SelectStmt) : List Tok :=
  match st.orderBy with
  | [] => []
  | items => Tok.kw "ORDER" :: Tok.kw "BY" :: sepByComma (items.map emitOrderItem)

/-- The emitted LIMIT clause of a statement. -/
def limToks (st : SelectStmt) : List Tok :=
  match st.limit with
  | none => []
  | some e => Tok.kw "LIMIT" :: emitE e

theorem emitStmt_shape (st : SelectStmt) :
    emitStmt st = Tok.kw "SELECT" ::
      (itemsToks st ++ (fromToks st ++ (whereToks st ++ (ordToks st ++ limToks st)))) := by
  rw [emitStmt]
  simp only [itemsToks, fromToks, whereToks, ordToks, limToks,
    List.cons_append, List.append_assoc]



/-- A well-formed canonical statement reparses from its emitted token
stream to itself, with the fuel the frontend allots. -/
theorem parseStmt_emit (st : SelectStmt) (hwf : wfStmt st = true)
    (hnf : nfStmt st = true) (f : Nat)
    (hf : 6 * (emitStmt st).length + 2 ≤ f) :
    parseStmt f (emitStmt st) = .ok st := by
  rw [wfStmt] at hwf
  rw [nfStmt] at hnf
  simp only [Bool.and_eq_true] at hwf hnf
  obtain ⟨⟨⟨⟨hitems, htbl⟩, hw⟩, hob⟩, hlim⟩ := hwf
  obtain ⟨⟨⟨hnitems, hnw⟩, hnob⟩, hnlim⟩ := hnf
  have hlen : (emitStmt st).length = 1 + (itemsToks st).length +
      ((fromToks st).length + ((whereToks st).length +
        ((ordToks st).length + (limToks st).length))) := by
    rw [emitStmt_shape]
    simp [List.length_append]
    omega
  have h5 : limToks st = [] ∨ ∃ r, limToks st = Tok.kw "LIMIT" :: r := by
    cases hL : st.limit with
    | none => left; simp [limToks, hL]
    | some e => right; exact ⟨emitE e, by simp [limToks, hL]⟩
  have h4 : ordToks st ++ limToks st = [] ∨
      ∃ s r, (s = "ORDER" ∨ s = "LIMIT") ∧
        ordToks st ++ limToks st = Tok.kw s :: r := by
    cases hO : st.orderBy with
    | nil =>
        rcases h5 with h5 | ⟨r, hr⟩
        · left; simp [ordToks, hO, h5]
        · right; exact ⟨"LIMIT", r, Or.inr rfl, by simp [ordToks, hO, hr]⟩
    | cons i tl =>
        right
        refine ⟨"ORDER", Tok.kw "BY" ::
          sepByComma ((i :: tl).map emitOrderItem) ++ limToks st, Or.inl rfl, ?_⟩
        simp [ordToks, hO]
  have h3 : whereToks st ++ (ordToks st ++ limToks st) = [] ∨
      ∃ s r, (s = "WHERE" ∨ s = "ORDER" ∨ s = "LIMIT") ∧
        whereToks st ++ (ordToks st ++ limToks st) = Tok.kw s :: r := by
    cases hW : st.whereE with
    | none =>
        rcases h4 with h4 | ⟨s, r, hs, hr⟩
        · left; simp [whereToks, hW, h4]
        · right; exact ⟨s, r, Or.inr hs, by simp [whereToks, hW, hr]⟩
    | some e =>
        right
        exact ⟨"WHERE", emitE e ++ (ordToks st ++ limToks st), Or.inl rfl,
          by simp [whereToks, hW]⟩
  have h2 : fromToks st ++ (whereToks st ++ (ordToks st ++ limToks st)) = [] ∨
      ∃ s r, (s = "FROM" ∨ s = "WHERE" ∨ s = "ORDER" ∨ s = "LIMIT") ∧
        fromToks st ++ (whereToks st ++ (ordToks st ++ limToks st)) =
          Tok.kw s :: r := by
    cases hT : st.fromT with
    | none =>
        rcases h3 with h3 | ⟨s, r, hs, hr⟩
        · left; simp [fromToks, hT, h3]
        · right; exact ⟨s, r, Or.inr hs, by simp [fromToks, hT, hr]⟩
    | some t =>
        right
        exact ⟨"FROM", (if t.quoted then Tok.dquoted t.name else Tok.ident t.name) ::
          (whereToks st ++ (ordToks st ++ limToks st)), Or.inl rfl,
          by simp [fromToks, hT]⟩
  have hor2 : orStop (fromToks st ++ (whereToks st ++ (ordToks st ++ limToks st))) = true := by
    rcases h2 with h2 | ⟨s, r, hs, hr⟩
    · rw [h2]; rfl
    · rw [hr]; rcases hs with rfl | rfl | rfl | rfl <;> rfl
  have hcomma2 : headComma (fromToks st ++ (whereToks st ++ (ordToks st ++ limToks st))) = false := by
    rcases h2 with h2 | ⟨s, r, hs, hr⟩
    · rw [h2]; rfl
    · rw [hr]; rfl
  have hstop5 : ordStop (limToks st) = true := by
    rcases h5 with h5 | ⟨r, hr⟩
    · rw [h5]; rfl
    · rw [hr]; rfl
  have hor4 : orStop (ordToks st ++ limToks st) = true := by
    rcases h4 with h4 | ⟨s, r, hs, hr⟩
    · rw [h4]; rfl
    · rw [hr]; rcases hs with rfl | rfl <;> rfl
  have hLim : parseLimitOpt (limToks st) = .ok (st.limit, []) := by
    cases hL : st.limit with
    | none =>
        have hlt : limToks st = [] := by simp [limToks, hL]
        rw [hlt]
        rfl
    | some e =>
        rw [hL] at hnlim
        cases e <;> simp [limitNf] at hnlim
        have hlt : limToks st = [Tok.kw "LIMIT", Tok.qmark] := by
          simp [limToks, hL, emitE]
        rw [hlt]
        rfl
  have hOrd : parseOrderOpt f (ordToks st ++ limToks st) = .ok (st.orderBy, limToks st) := by
    cases hO : st.orderBy with
    | nil =>
        have hot : ordToks st = [] := by simp [ordToks, hO]
        rw [hot, List.nil_append]
        rcases h5 with h5 | ⟨r, hr⟩
        · rw [h5]; rfl
        · rw [hr]; rfl
    | cons i tl =>
        have hot : ordToks st = Tok.kw "ORDER" :: Tok.kw "BY" ::
            sepByComma ((i :: tl).map emitOrderItem) := by
          simp [ordToks, hO]
        rw [hot]
        have hsh : (Tok.kw "ORDER" :: Tok.kw "BY" ::
            sepByComma ((i :: tl).map emitOrderItem)) ++ limToks st =
            Tok.kw "ORDER" :: Tok.kw "BY" ::
              (sepByComma ((i :: tl).map emitOrderItem) ++ limToks st) := by
          simp
        rw [hsh, parseOrderOpt_ob]
        refine ordItems_chain (i :: tl) (limToks st) f (by simp) ?_ hstop5 ?_
        · rw [hO] at hnob
          exact hnob
        · have h6 : (ordToks st).length =
              2 + (sepByComma ((i :: tl).map emitOrderItem)).length := by
            rw [hot]
            simp
            omega
          omega
  have hWhere : parseWhereOpt f (whereToks st ++ (ordToks st ++ limToks st)) =
      .ok (st.whereE, ordToks st ++ limToks st) := by
    cases hW : st.whereE with
    | none =>
        have hwt : whereToks st = [] := by simp [whereToks, hW]
        rw [hwt, List.nil_append]
        rcases h4 with h4 | ⟨s, r, hs, hr⟩
        · rw [h4]; rfl
        · rw [hr]; rcases hs with rfl | rfl <;> rfl
    | some e =>
        have hwt : whereToks st = Tok.kw "WHERE" :: emitE e := by
          simp [whereToks, hW]
        rw [hwt]
        have hsh : (Tok.kw "WHERE" :: emitE e) ++ (ordToks st ++ limToks st) =
            Tok.kw "WHERE" :: (emitE e ++ (ordToks st ++ limToks st)) := by
          simp
        rw [hsh, parseWhereOpt_where]
        have hne : nfE e = true := by
          rw [hW] at hnw
          simpa [optNfE] using hnw
        have h6 : (whereToks st).length = 1 + (emitE e).length := by
          rw [hwt]
          simp
          omega
        rw [parse_emit_or e hne _ f hor4 (by omega), ok_bind]
  have hFrom : parseFromOpt (fromToks st ++ (whereToks st ++ (ordToks st ++ limToks st))) =
      .ok (st.fromT, whereToks st ++ (ordToks st ++ limToks st)) := by
    cases hT : st.fromT with
    | none =>
        have hft : fromToks st = [] := by simp [fromToks, hT]
        rw [hft, List.nil_append]
        rcases h3 with h3 | ⟨s, r, hs, hr⟩
        · rw [h3]; rfl
        · rw [hr]; rcases hs with rfl | rfl | rfl <;> rfl
    | some t =>
        rcases t with ⟨q, name⟩
        cases q with
        | false =>
            have hft : fromToks st = [Tok.kw "FROM", Tok.ident name] := by
              simp [fromToks, hT]
            rw [hft]
            rfl
        | true =>
            have hft : fromToks st = [Tok.kw "FROM", Tok.dquoted name] := by
              simp [fromToks, hT]
            rw [hft]
            rfl
  have hItems : parseItems f (itemsToks st ++
      (fromToks st ++ (whereToks st ++ (ordToks st ++ limToks st)))) =
      .ok (st.items, fromToks st ++ (whereToks st ++ (ordToks st ++ limToks st))) := by
    cases hI : st.items with
    | star =>
        have hit : itemsToks st = [Tok.star] := by simp [itemsToks, hI]
        rw [hit]
        rfl
    | exprs es =>
        rw [hI] at hnitems
        cases es with
        | nil => simp [itemsNfE] at hnitems
        | cons x tl =>
            simp only [itemsNfE, Bool.and_eq_true] at hnitems
            have hnes : (x :: tl).all nfE = true := hnitems.2
            have hit : itemsToks st = sepByComma ((x :: tl).map emitE) := by
              simp [itemsToks, hI]
            rw [hit]
            have hns : notStar (sepByComma ((x :: tl).map emitE) ++
                (fromToks st ++ (whereToks st ++ (ordToks st ++ limToks st)))) = true := by
              cases tl with
              | nil =>
                  have hone : sepByComma ([x].map emitE) = emitE x := by
                    simp [sepByComma]
                  rw [hone]
                  exact emitE_head_notStar x _
              | cons y tl2 =>
                  have htwo : sepByComma ((x :: y :: tl2).map emitE) =
                      emitE x ++ Tok.comma :: sepByComma ((y :: tl2).map emitE) := by
                    simp [sepByComma]
                  rw [htwo, List.append_assoc]
                  exact emitE_head_notStar x _
            rw [parseItems_go f _ hns]
            have h6 : (itemsToks st).length =
                (sepByComma ((x :: tl).map emitE)).length := by
              rw [hit]
            rw [selList_chain (x :: tl) _ f (by simp) hnes hor2 hcomma2 (by omega),
              ok_bind]
  rw [emitStmt_shape, parseStmt_eq]
  show (do
      let (items, ts2) ← parseItems f (itemsToks st ++
        (fromToks st ++ (whereToks st ++ (ordToks st ++ limToks st))))
      let (tbl, ts3) ← parseFromOpt ts2
      let (w, ts4) ← parseWhereOpt f ts3
      let (ob, ts5) ← parseOrderOpt f ts4
      let (lim, ts6) ← parseLimitOpt ts5
      match ts6 with
      | [] => Except.ok ⟨items, tbl, w, ob, lim⟩
      | [Tok.semi] => Except.ok ⟨items, tbl, w, ob, lim⟩
      | _ => Except.error "sql parser error: Expected: end of statement, found extra input") =
    Except.ok st
  rw [hItems, ok_bind]
  show (do
      let (tbl, ts3) ← parseFromOpt (fromToks st ++
        (whereToks st ++ (ordToks st ++ limToks st)))
      let (w, ts4) ← parseWhereOpt f ts3
      let (ob, ts5) ← parseOrderOpt f ts4
      let (lim, ts6) ← parseLimitOpt ts5
      match ts6 with
      | [] => Except.ok ⟨st.items, tbl, w, ob, lim⟩
      | [Tok.semi] => Except.ok ⟨st.items, tbl, w, ob, lim⟩
      | _ => Except.error "sql parser error: Expected: end of statement, found extra input") =
    Except.ok st
  rw [hFrom, ok_bind]
  show (do
      let (w, ts4) ← parseWhereOpt f (whereToks st ++ (ordToks st ++ limToks st))
      let (ob, ts5) ← parseOrderOpt f ts4
      let (lim, ts6) ← parseLimitOpt ts5
      match ts6 with
      | [] => Except.ok ⟨st.items, st.fromT, w, ob, lim⟩
      | [Tok.semi] => Except.ok ⟨st.items, st.fromT, w, ob, lim⟩
      | _ => Except.error "sql parser error: Expected: end of statement, found extra input") =
    Except.ok st
  rw [hWhere, ok_bind]
  show (do
      let (ob, ts5) ← parseOrderOpt f (ordToks st ++ limToks st)
      let (lim, ts6) ← parseLimitOpt ts5
      match ts6 with
      | [] => Except.ok ⟨st.items, st.fromT, st.whereE, ob, lim⟩
      | [Tok.semi] => Except.ok ⟨st.items, st.fromT, st.whereE, ob, lim⟩
      | _ => Except.error "sql parser error: Expected: end of statement, found extra input") =
    Except.ok st
  rw [hOrd, ok_bind]
  show (do
      let (lim, ts6) ← parseLimitOpt (limToks st)
      match ts6 with
      | [] => Except.ok ⟨st.items, st.fromT, st.whereE, st.orderBy, lim⟩
      | [Tok.semi] => Except.ok ⟨st.items, st.fromT, st.whereE, st.orderBy, lim⟩
      | _ => Except.error "sql parser error: Expected: end of statement, found extra input") =
    Except.ok st
  rw [hLim, ok_bind]

/-! ## General-purpose lemmas -/

set_option maxRecDepth 2000

/-- The message text begins with the given literal text (character-wise). -/
def strBeginsWith (p s : String) : Bool :=
  s.data.take p.data.length == p.data

theorem strBeginsWith_append (p t : String) :
    strBeginsWith p (p ++ t) = true := by
  simp [strBeginsWith, String.data_append, List.take_left]

/-! ## Claim theorems -/

/-- C1 — Hash consistency: for every call to normalize that returns a
result, the hash field of the result is the lowercase-hex SHA-256 digest
of the UTF-8 bytes of its normalized field. -/
theorem sqlfp_C1_hash_consistency
    (sql dialect ph : String) (r : NormalizeResult)
    (h : normalize sql dialect ph = .ok r) :
    r.hash = sha256Hex r.normalized := by
  unfold normalize at h
  split at h
  · exact Except.noConfusion h
  · split at h
    · exact Except.noConfusion h
    · rename_i ast heq
      injection h with h
      subst h
      unfold assemble
      rcases hns : normStmt ast with ⟨nf, ps⟩
      rfl

def c1res : NormalizeResult :=
  ⟨"SELECT * FROM users WHERE id = 123",
   "SELECT * FROM users WHERE id = ?", ["123"],
   "6f540be5517aaffe1774bebe9a2c0eba835e11cd8e1b07ea44046ae795008704"⟩

theorem sqlfp_C1_hash_consistency_witness :
    normalize "SELECT * FROM users WHERE id = 123" "postgres" "?" =
      Except.ok c1res ∧ c1res.hash = sha256Hex c1res.normalized :=
  have h : normalize "SELECT * FROM users WHERE id = 123" "postgres" "?" =
      Except.ok c1res := rfl
  ⟨h, sqlfp_C1_hash_consistency _ _ _ _ h⟩

/-- C4 — the two LIMIT variants (leading zeros and redundant ASC, with and
without the trailing semicolon) return identical normalized strings and
identical hashes under postgres, and params is the list with the single
entry "10". -/
theorem sqlfp_C4_leading_zeros_collapse :
    normalize "SELECT id FROM users ORDER BY id LIMIT 00010;" "postgres" "?" =
      .ok ⟨"SELECT id FROM users ORDER BY id LIMIT 00010;",
           "SELECT id FROM users ORDER BY id LIMIT ?", ["10"],
           "7d09730fb0d3e986e984ee71eaffa74e74098a790f360f4f1fd07bbf3cc9a57c"⟩ ∧
    normalize "SELECT id FROM users ORDER BY id ASC LIMIT 10" "postgres" "?" =
      .ok ⟨"SELECT id FROM users ORDER BY id ASC LIMIT 10",
           "SELECT id FROM users ORDER BY id LIMIT ?", ["10"],
           "7d09730fb0d3e986e984ee71eaffa74e74098a790f360f4f1fd07bbf3cc9a57c"⟩ :=
  ⟨rfl, rfl⟩

/-- C2 — inputs that parse successfully under the same dialect and differ
only in literal values, whitespace runs, comments, letter case of
keywords, or semantically redundant parentheses produce equal normalized
strings and equal hashes.  Whitespace, comments and keyword case are
discarded by the tokenizer, so they never reach the AST; the remaining
variation — literal values and redundant parentheses — is exactly
equality of the statement skeletons, and the canonical output factors
through the skeleton. -/
theorem sqlfp_C2_equivalence_collapse
    (d ph s1 s2 : String) (dd : Dialect) (a1 a2 : SelectStmt)
    (hd : resolve d = .ok dd)
    (h1 : parseSql s1 = .ok a1) (h2 : parseSql s2 = .ok a2)
    (hskel : scrubStmt a1 = scrubStmt a2) :
    ∃ r1 r2, normalize s1 d ph = .ok r1 ∧ normalize s2 d ph = .ok r2 ∧
      r1.normalized = r2.normalized ∧ r1.hash = r2.hash := by
  have hn : (normStmt a1).1 = (normStmt a2).1 := by
    rw [normStmt_spec, normStmt_spec, hskel]
  refine ⟨assemble s1 ph a1, assemble s2 ph a2, ?_, ?_, ?_, ?_⟩
  · unfold normalize
    rw [hd, h1]
  · unfold normalize
    rw [hd, h2]
  · rw [assemble_normalized, assemble_normalized, hn]
  · rw [assemble_hash, assemble_hash, hn]

def c2ast1 : SelectStmt := ⟨.exprs [.lit (.num "1")], none, none, [], none⟩

def c2ast2 : SelectStmt :=
  ⟨.exprs [.paren (.lit (.num "1"))], none, none, [], none⟩

theorem sqlfp_C2_equivalence_collapse_witness :
    resolve "mysql" = .ok .mysql ∧
    parseSql "SELECT 1;" = .ok c2ast1 ∧
    parseSql "SELECT (1);" = .ok c2ast2 ∧
    scrubStmt c2ast1 = scrubStmt c2ast2 ∧
    (∃ r1 r2, normalize "SELECT 1;" "mysql" "?" = .ok r1 ∧
      normalize "SELECT (1);" "mysql" "?" = .ok r2 ∧
      r1.normalized = r2.normalized ∧ r1.hash = r2.hash) :=
  ⟨rfl, rfl, rfl, rfl,
   sqlfp_C2_equivalence_collapse "mysql" "?" "SELECT 1;" "SELECT (1);"
     .mysql c2ast1 c2ast2 rfl rfl rfl rfl⟩

/-- C3 — all four variants of the parentheses + OR/AND + string variants
corpus case, including the variant whose string values are double-quoted,
produce exactly one normalized string and one hash under every one of the
six dialects: the double-quoted strings collapse to the same placeholder
form as the single-quoted ones even in the dialects whose identifiers are
double-quoted. -/
theorem sqlfp_C3_double_quote_collapse :
    (["postgres", "mysql", "sqlite", "ansi", "mssql", "oracle"].all fun d =>
      (["SELECT * FROM users WHERE (role = 'admin' OR role = 'notstaff') AND is_active = true;",
        "SELECT * FROM users WHERE (role = 'bob' OR role = 'staff') AND is_active = tRue;",
        "SELECT * FROM users WHERE (role = 'john' OR role = 'lead') AND is_active = FaLse;",
        "SELECT * FROM users WHERE (role = \"ignacio\" OR role = \"stuff\") AND is_active = TrUe;"].all
        fun s =>
          match normalize s d "?" with
          | .ok r =>
              r.normalized ==
                  "SELECT * FROM users WHERE (role = ? OR role = ?) AND is_active = ?" &&
                r.hash ==
                  "559b74133ce5c0a75e68183b4c069938ba604961ddf694502992e215bb75adba"
          | .error _ => false)) = true := rfl

/-- C9 — an unrecognized dialect name fails with the UnknownDialect kind
before any parsing happens (for every input string, even unparseable
ones); matching is ASCII case-insensitive; postgresql and mariadb resolve
as aliases of postgres and mysql. -/
theorem sqlfp_C9_dialect_resolution :
    (∀ sql ph, normalize sql "not_a_dialect" ph =
        .error ⟨.unknownDialect, "Unknown dialect: not_a_dialect"⟩) ∧
    (∀ n1 n2, asciiLower n1 = asciiLower n2 → resolve n1 = resolve n2) ∧
    resolve "postgresql" = resolve "postgres" ∧
    resolve "PostgreSQL" = .ok .postgres ∧
    resolve "mariadb" = resolve "mysql" ∧
    resolve "MariaDB" = .ok .mysql := by
  refine ⟨fun sql ph => rfl, fun n1 n2 h => ?_, rfl, rfl, rfl, rfl⟩
  unfold resolve
  rw [h]

theorem sqlfp_C9_dialect_resolution_witness :
    asciiLower "MySQL" = asciiLower "mysql" ∧
    resolve "MySQL" = resolve "mysql" :=
  ⟨rfl, sqlfp_C9_dialect_resolution.2.1 "MySQL" "mysql" rfl⟩

/-- C8 — whenever the parser frontend rejects the input (and the dialect
resolves), normalize fails with the ParseError kind, no result is
returned, and the carried message is the parser cause with the literal
text "Parse error: " in front of it. -/
theorem sqlfp_C8_parse_error_surface
    (sql dialect ph cause : String) (d : Dialect)
    (hd : resolve dialect = .ok d)
    (hp : parseSql sql = .error cause) :
    normalize sql dialect ph =
      .error ⟨.parseError, "Parse error: " ++ cause⟩ ∧
    strBeginsWith "Parse error: " ("Parse error: " ++ cause) = true := by
  refine ⟨?_, strBeginsWith_append _ _⟩
  unfold normalize
  rw [hd, hp]

theorem sqlfp_C8_parse_error_surface_witness :
    normalize "SELECT * TROM" "mariadb" "?" =
      .error ⟨.parseError,
        "Parse error: sql parser error: Expected: end of statement, found extra input"⟩ ∧
    strBeginsWith "Parse error: "
      ("Parse error: " ++
        "sql parser error: Expected: end of statement, found extra input") = true :=
  sqlfp_C8_parse_error_surface "SELECT * TROM" "mariadb" "?"
    "sql parser error: Expected: end of statement, found extra input"
    .mysql rfl rfl

/-- C10 — both user-visible failure kinds surface as the same concrete
Python exception class ValueError, so the two failures are told apart only
by the message text (the "Parse error: " leading text), not by the
exception class. -/
theorem sqlfp_C10_single_exception_class :
    ∃ e1 e2 : NormError,
      normalize "SELECT 1" "not_a_dialect" "?" = .error e1 ∧
      normalize "SELECT * TROM" "mariadb" "?" = .error e2 ∧
      e1.pyExceptionClass = "ValueError" ∧
      e2.pyExceptionClass = "ValueError" ∧
      e1.pyExceptionClass = e2.pyExceptionClass ∧
      e1.kind ≠ e2.kind ∧
      strBeginsWith "Parse error: " e1.message = false ∧
      strBeginsWith "Parse error: " e2.message = true :=
  ⟨⟨.unknownDialect, "Unknown dialect: not_a_dialect"⟩,
   ⟨.parseError,
    "Parse error: sql parser error: Expected: end of statement, found extra input"⟩,
   rfl, rfl, rfl, rfl, rfl, fun hc => ErrKind.noConfusion hc, rfl, rfl⟩


/-- The statement both C5 and C6 witnesses instantiate: the parse tree of
SELECT * FROM users WHERE id = 123. -/
def qast : SelectStmt :=
  ⟨.star, some ⟨false, "users"⟩,
   some (.cmp "=" (.identE "id") (.lit (.num "123"))), [], none⟩

/-- The result the C5 counterexample exhibits: a quoted table identifier
containing the placeholder character survives into the normalized string
while params stays empty. -/
def c5bad : NormalizeResult :=
  ⟨"SELECT * FROM \"a?b\"", "SELECT * FROM \"a?b\"", [],
   "b98fa94957b06610beb44e6ee3dbef1c45e05e070211e02ad2e810092e2a93c6"⟩

/-- C5 counterexample — normalize succeeds on SELECT * FROM "a?b" under
postgres with the default placeholder, yet params is empty while the
normalized string contains one occurrence of the placeholder character
(inside the quoted identifier), so len(params) differs from the
placeholder count of the normalized string. -/
theorem sqlfp_C5_params_count_counterexample :
    normalize "SELECT * FROM \"a?b\"" "postgres" "?" = .ok c5bad ∧
    c5bad.params.length = 0 ∧ strCountQ c5bad.normalized = 1 ∧
    c5bad.params.length ≠ strCountQ c5bad.normalized :=
  ⟨rfl, rfl, rfl, by decide⟩

/-- C5 (amended) — for a successful call with the default placeholder
whose parsed statement has no placeholder tokens of its own and whose
canonical token stream carries the placeholder character only as the
placeholder token itself, len(params) equals the number of occurrences of
the placeholder in the normalized string, and params is exactly the
left-to-right depth-first list of the replaced literals of the input
parse tree. -/
theorem sqlfp_C5_params_count_amended
    (sql d : String) (dd : Dialect) (a : SelectStmt) (r : NormalizeResult)
    (hd : resolve d = .ok dd)
    (hp : parseSql sql = .ok a)
    (h : normalize sql d "?" = .ok r)
    (hz : phCountStmt a = 0)
    (hclean : (emitStmt (normStmt a).1).all tokQClean = true) :
    r.params.length = strCountQ r.normalized ∧
    r.params = (collectStmtLits a).map litText := by
  have hr : r = assemble sql "?" a := by
    unfold normalize at h
    rw [hd, hp] at h
    exact (Except.ok.inj h).symm
  subst hr
  have hparams : (assemble sql "?" a).params = (collectStmtLits a).map litText := by
    rw [assemble_params, normStmt_spec]
  refine ⟨?_, hparams⟩
  rw [hparams, assemble_normalized]
  have hcount : strCountQ (render "?" (emitStmt (normStmt a).1)) =
      qmarkCount (emitStmt (normStmt a).1) :=
    render_qcount _ hclean
  rw [hcount, emitStmt_qmarkCount, normStmt_phCount, hz, List.length_map]
  exact (Nat.zero_add _).symm

/-- The record the C5 witness obtains for SELECT * FROM users WHERE id =
123 under postgres with the default placeholder. -/
def c5res : NormalizeResult :=
  ⟨"SELECT * FROM users WHERE id = 123",
   "SELECT * FROM users WHERE id = ?", ["123"],
   "6f540be5517aaffe1774bebe9a2c0eba835e11cd8e1b07ea44046ae795008704"⟩

/-- Closed instance of the amended C5 at SELECT * FROM users WHERE id =
123 under postgres: each hypothesis holds by evaluation and the
conclusion follows from the amended theorem. -/
theorem sqlfp_C5_params_count_amended_witness :
    resolve "postgres" = .ok .postgres ∧
    parseSql "SELECT * FROM users WHERE id = 123" = .ok qast ∧
    normalize "SELECT * FROM users WHERE id = 123" "postgres" "?" = .ok c5res ∧
    phCountStmt qast = 0 ∧
    (emitStmt (normStmt qast).1).all tokQClean = true ∧
    c5res.params.length = strCountQ c5res.normalized ∧
    c5res.params = (collectStmtLits qast).map litText :=
  have h : normalize "SELECT * FROM users WHERE id = 123" "postgres" "?" =
      .ok c5res := rfl
  have hc := sqlfp_C5_params_count_amended
    "SELECT * FROM users WHERE id = 123" "postgres" .postgres qast c5res
    rfl rfl h rfl rfl
  ⟨rfl, rfl, h, rfl, rfl, hc.1, hc.2⟩

/-- The result the C6 counterexample exhibits: the same normalized string
comes back under both placeholders, because the only placeholder
character of the output sits inside a quoted identifier. -/
def c6bad : NormalizeResult :=
  ⟨"SELECT * FROM \"x?y\"", "SELECT * FROM \"x?y\"", [],
   "59e354da18c87b07c468ff05cf7ff73a494d11e7d3e9e7ab99e60ec1697ce7a2"⟩

/-- C6 counterexample — on SELECT * FROM "x?y" under postgres the calls
with placeholder ? and with placeholder <val> both return the identical
record, but textually replacing every ? of the first normalized string by
<val> rewrites the quoted identifier, so the <val> call's normalized
string is not the claimed substitution of the ? call's. -/
theorem sqlfp_C6_placeholder_substitution_counterexample :
    normalize "SELECT * FROM \"x?y\"" "postgres" "?" = .ok c6bad ∧
    normalize "SELECT * FROM \"x?y\"" "postgres" "<val>" = .ok c6bad ∧
    c6bad.normalized ≠ replaceQ c6bad.normalized "<val>" :=
  ⟨rfl, rfl, by decide⟩

/-- C6 (amended) — for inputs whose canonical token stream carries the
placeholder character only as the placeholder token itself, the
normalized string under any placeholder v equals the normalized string
under ? with every occurrence of ? replaced by v, and the params lists of
the two calls are equal. -/
theorem sqlfp_C6_placeholder_substitution_amended
    (sql d v : String) (dd : Dialect) (a : SelectStmt)
    (r1 r2 : NormalizeResult)
    (hd : resolve d = .ok dd)
    (hp : parseSql sql = .ok a)
    (h1 : normalize sql d "?" = .ok r1)
    (h2 : normalize sql d v = .ok r2)
    (hclean : (emitStmt (normStmt a).1).all tokQClean = true) :
    r2.normalized = replaceQ r1.normalized v ∧ r2.params = r1.params := by
  have hr1 : r1 = assemble sql "?" a := by
    unfold normalize at h1
    rw [hd, hp] at h1
    exact (Except.ok.inj h1).symm
  have hr2 : r2 = assemble sql v a := by
    unfold normalize at h2
    rw [hd, hp] at h2
    exact (Except.ok.inj h2).symm
  subst hr1
  subst hr2
  refine ⟨?_, by rw [assemble_params, assemble_params]⟩
  rw [assemble_normalized, assemble_normalized]
  exact congrArg String.mk
    (render_subst v (emitStmt (normStmt a).1) hclean)

/-- The record the C6 witness obtains for SELECT * FROM users WHERE id =
123 under postgres with placeholder <val>. -/
def c6res : NormalizeResult :=
  ⟨"SELECT * FROM users WHERE id = 123",
   "SELECT * FROM users WHERE id = <val>", ["123"],
   "3886cc37e387f27530d0506c3ba2305bb8d75dbb17ce68036e92567b1791c639"⟩

/-- Closed instance of the amended C6 at SELECT * FROM users WHERE id =
123 under postgres with v = <val>: each hypothesis holds by evaluation
and the conclusion follows from the amended theorem. -/
theorem sqlfp_C6_placeholder_substitution_amended_witness :
    resolve "postgres" = .ok .postgres ∧
    parseSql "SELECT * FROM users WHERE id = 123" = .ok qast ∧
    normalize "SELECT * FROM users WHERE id = 123" "postgres" "?" = .ok c5res ∧
    normalize "SELECT * FROM users WHERE id = 123" "postgres" "<val>" =
      .ok c6res ∧
    (emitStmt (normStmt qast).1).all tokQClean = true ∧
    c6res.normalized = replaceQ c5res.normalized "<val>" ∧
    c6res.params = c5res.params :=
  have h1 : normalize "SELECT * FROM users WHERE id = 123" "postgres" "?" =
      .ok c5res := rfl
  have h2 : normalize "SELECT * FROM users WHERE id = 123" "postgres" "<val>" =
      .ok c6res := rfl
  have hc := sqlfp_C6_placeholder_substitution_amended
    "SELECT * FROM users WHERE id = 123" "postgres" "<val>" .postgres qast
    c5res c6res rfl rfl h1 h2 rfl
  ⟨rfl, rfl, h1, h2, rfl, hc.1, hc.2⟩

/-- C7: normalization is idempotent — whenever normalize succeeds, feeding
the returned canonical string back through normalize under the same dialect
succeeds and returns the same canonical string (the canonical form is a
fixed point of the pipeline). -/
theorem sqlfp_C7_idempotence (sql d : String) (r : NormalizeResult)
    (h : normalize sql d "?" = .ok r) :
    ∃ r2, normalize r.normalized d "?" = .ok r2 ∧
      r2.normalized = r.normalized := by
  rw [normalize] at h
  split at h
  · exact absurd h (by simp)
  · rename_i dd hdd
    split at h
    · exact absurd h (by simp)
    · rename_i a hpa
      simp only [Except.ok.injEq] at h
      subst h
      have hnorm : (assemble sql "?" a).normalized =
          render "?" (emitStmt (normStmt a).1) := rfl
      have hwf := parseSql_wf sql a hpa
      have hwf2 := wfStmt_normStmt a hwf
      have hnf2 := nfStmt_normStmt a hwf
      have hrt := emitStmt_rt (normStmt a).1 hwf2 hnf2
      have hps2 : parseSql (render "?" (emitStmt (normStmt a).1)) =
          .ok (normStmt a).1 := by
        rw [parseSql]
        rw [tokenize_render _ hrt, ok_bind]
        exact parseStmt_emit (normStmt a).1 hwf2 hnf2 _ (by omega)
      refine ⟨assemble (render "?" (emitStmt (normStmt a).1)) "?" (normStmt a).1,
        ?_, ?_⟩
      · rw [hnorm, normalize, hdd, hps2]
      · rw [hnorm]
        have hfix : (normStmt ((normStmt a).1)).1 = (normStmt a).1 := by
          rw [normStmt_fixed]
        show render "?" (emitStmt (normStmt ((normStmt a).1)).1) =
          render "?" (emitStmt (normStmt a).1)
        rw [hfix]

/-- Closed instance of C7 at SELECT * FROM users WHERE id = 123 under
postgres: the normalization succeeds by evaluation and reparsing its
canonical string yields the same canonical string by the claim theorem. -/
theorem sqlfp_C7_idempotence_witness :
    normalize "SELECT * FROM users WHERE id = 123" "postgres" "?" = .ok c5res ∧
    ∃ r2, normalize c5res.normalized "postgres" "?" = .ok r2 ∧
      r2.normalized = c5res.normalized :=
  have h : normalize "SELECT * FROM users WHERE id = 123" "postgres" "?" =
      .ok c5res := rfl
  ⟨h, sqlfp_C7_idempotence "SELECT * FROM users WHERE id = 123" "postgres"
    c5res h⟩

end Sqlfp
